import Mathlib

/-!
jparser: tokenizer and recursive-descent parser.

A shallow embedding of `lexer.go`, `tokentype_string.go` and `parser.go`.

* Bytes are natural numbers, byte strings and Go strings are `List Nat`.
* The Go channel `lexer.tokens` is the list of tokens sent on it so far, oldest
  first; closing the channel ends the list.  A receive on the closed channel
  yields the zero `Token`, which is `⟨TokenIllegal, []⟩`.
* The `for` loops of `lexNumber` and `lexString`, the state loop of `run` and the
  mutual recursion of the parser take a fuel argument; `none` means the fuel ran
  out.  The theorems show that the fuel supplied by `Lex` and `Parse` is enough.
* A Go interface value of type `Value` is `Option Value`: `none` is the nil
  interface, and the constructors `nilObject`, `nilArray`, `nilLiteral` are the
  non-nil interface values that wrap a nil pointer.
-/

namespace jparser

/-! ## Tokens -/

/-- The list of tokens (`TokenType`, an `iota` enumeration starting at `TokenIllegal`). -/
inductive TokenType
  | TokenIllegal
  | TokenEof
  | TokenString
  | TokenNumber
  | TokenTrue
  | TokenFalse
  | TokenNull
  | TokenLbrace
  | TokenLbrack
  | TokenRbrace
  | TokenRbrack
  | TokenComma
  | TokenColon
  deriving DecidableEq, Repr

open TokenType

/-- The bytes of an ASCII string constant. -/
def str (s : String) : List Nat := s.toList.map Char.toNat

/-- The generated `TokenType.String` method: the name of the constant. -/
def TokenType.String : TokenType → List Nat
  | TokenIllegal => str "TokenIllegal"
  | TokenEof => str "TokenEof"
  | TokenString => str "TokenString"
  | TokenNumber => str "TokenNumber"
  | TokenTrue => str "TokenTrue"
  | TokenFalse => str "TokenFalse"
  | TokenNull => str "TokenNull"
  | TokenLbrace => str "TokenLbrace"
  | TokenLbrack => str "TokenLbrack"
  | TokenRbrace => str "TokenRbrace"
  | TokenRbrack => str "TokenRbrack"
  | TokenComma => str "TokenComma"
  | TokenColon => str "TokenColon"

/-- Token represents a lexical token of json (fields `Type` and `Value`). -/
structure Token where
  Typ : TokenType
  Value : List Nat
  deriving DecidableEq, Repr

/-- The sentinel byte `eof`. -/
def eof : Nat := 0

/-- The verb `%c` applied to a byte: the UTF-8 encoding of the code point of that value. -/
def fmtC (b : Nat) : List Nat :=
  if b < 128 then [b] else [192 + b / 64, 128 + b % 64]

def isDigit (r : Nat) : Bool := decide (r ≥ 48) && decide (r ≤ 57)

def isSign (r : Nat) : Bool := decide (r = 43) || decide (r = 45)

def isLetter (r : Nat) : Bool :=
  (decide (r ≥ 65) && decide (r ≤ 90)) || (decide (r ≥ 97) && decide (r ≤ 122))

def isHex (r : Nat) : Bool :=
  isDigit r || (decide (r ≥ 65) && decide (r ≤ 70)) || (decide (r ≥ 97) && decide (r ≤ 102))

def isWhiteSpace (r : Nat) : Bool :=
  decide (r = 32) || decide (r = 9) || decide (r = 10) || decide (r = 13)

/-! ## The lexer -/

/-- The lexer state; `tokens` holds what has been sent on the channel. -/
structure lexer where
  input : List Nat
  start : Nat
  pos : Nat
  tokens : List Token
  deriving DecidableEq, Repr

/-- The states of the lexer (the values of type `stateFunc` other than nil). -/
inductive stateFunc
  | lex
  | lexValue (value : List Nat) (token : TokenType)
  | lexNumber
  | lexString
  deriving DecidableEq, Repr

def newLexer (input : List Nat) : lexer :=
  { input := input, start := 0, pos := 0, tokens := [] }

/-- The Go slice expression `s[i:j]`. -/
def slice (s : List Nat) (i j : Nat) : List Nat := (s.drop i).take (j - i)

def lexer.next (l : lexer) : Nat × lexer :=
  if l.pos ≥ l.input.length then (eof, l)
  else (l.input.getD l.pos 0, { l with pos := l.pos + 1 })

def lexer.prev (l : lexer) : lexer := { l with pos := l.pos - 1 }

def lexer.ignore (l : lexer) : lexer := { l with start := l.pos }

def lexer.emit (l : lexer) (typ : TokenType) : lexer :=
  { l with tokens := l.tokens ++ [⟨typ, slice l.input l.start l.pos⟩], start := l.pos }

/-- Sends the error token whose value is the formatted message and returns the nil state. -/
def lexer.errorf (l : lexer) (msg : List Nat) : Option stateFunc × lexer :=
  (none, { l with tokens := l.tokens ++ [⟨TokenIllegal, msg⟩] })

def lex (l : lexer) : Option stateFunc × lexer :=
  let (b, l) := l.next
  let (number, l) :=
    if isDigit b then (true, l)
    else if b = 45 then
      let (n, l) := l.next
      (isDigit n, l)
    else (false, l)
  if number then (some stateFunc.lexNumber, l)
  else if isWhiteSpace b then (some stateFunc.lex, l.ignore)
  else if b = eof then (none, l.emit TokenEof)
  else if b = 116 then (some (stateFunc.lexValue (str "true") TokenTrue), l)
  else if b = 102 then (some (stateFunc.lexValue (str "false") TokenFalse), l)
  else if b = 110 then (some (stateFunc.lexValue (str "null") TokenNull), l)
  else if b = 34 then (some stateFunc.lexString, l)
  else if b = 123 then (some stateFunc.lex, l.emit TokenLbrace)
  else if b = 125 then (some stateFunc.lex, l.emit TokenRbrace)
  else if b = 91 then (some stateFunc.lex, l.emit TokenLbrack)
  else if b = 93 then (some stateFunc.lex, l.emit TokenRbrack)
  else if b = 58 then (some stateFunc.lex, l.emit TokenColon)
  else if b = 44 then (some stateFunc.lex, l.emit TokenComma)
  else l.errorf (str "unexpected character " ++ fmtC b)

/-- The `range` loop of `lexValue` over the bytes of `value` after the first. -/
def lexValueLoop (value : List Nat) (token : TokenType) :
    List Nat → lexer → Option stateFunc × lexer
  | [], l => (some stateFunc.lex, l.emit token)
  | b :: rest, l =>
    let (n, l) := l.next
    if n ≠ b then
      if n = eof then
        l.errorf (str "unterminated value " ++ l.input.drop l.start
          ++ str ", expected " ++ value)
      else
        l.errorf (str "unexpected character " ++ fmtC n ++ str ", expected " ++ value)
    else lexValueLoop value token rest l

def lexValue (value : List Nat) (token : TokenType) (l : lexer) : Option stateFunc × lexer :=
  lexValueLoop value token value.tail l

/-- The `for` loop of `lexNumber` with its two flags. -/
def lexNumberLoop : Nat → Bool → Bool → lexer → Option (Option stateFunc × lexer)
  | 0, _, _, _ => none
  | fuel + 1, integer, fraction, l =>
    let (b, l) := l.next
    if b = 46 then
      if integer then lexNumberLoop fuel false true l
      else some (l.errorf (str "unexpected . in number"))
    else if (integer || fraction) && isLetter b then
      if b = 69 ∨ b = 101 then
        let (s, l) := l.next
        let l := if !isSign s then l.prev else l
        lexNumberLoop fuel false false l
      else some (l.errorf (str "unexpected character " ++ fmtC b ++ str " in number"))
    else if !isDigit b then
      let l := if b ≠ eof then l.prev else l
      some (some stateFunc.lex, l.emit TokenNumber)
    else lexNumberLoop fuel integer fraction l

def lexNumber (l : lexer) : Option (Option stateFunc × lexer) :=
  lexNumberLoop (2 * l.input.length + 2) true false l

/-- The inner loop of `lexString` over the four hex digits after `\u`: `Sum.inl` is a
return from `lexString`, `Sum.inr` the lexer after the loop. -/
def lexStringHex : Nat → lexer → (Option stateFunc × lexer) ⊕ lexer
  | 0, l => Sum.inr l
  | i + 1, l =>
    let (h, l) := l.next
    if !isHex h then
      if h = eof then
        Sum.inl (l.errorf (str "unterminated string literal " ++ l.input.drop l.start))
      else Sum.inl (l.errorf (str "unexpected non-hex character " ++ fmtC h))
    else lexStringHex i l

/-- The `for` loop of `lexString`. -/
def lexStringLoop : Nat → lexer → Option (Option stateFunc × lexer)
  | 0, _ => none
  | fuel + 1, l =>
    let (b, l) := l.next
    if b = 92 then
      let (n, l) := l.next
      if n = 34 ∨ n = 92 ∨ n = 98 ∨ n = 102 ∨ n = 110 ∨ n = 114 ∨ n = 116 then
        lexStringLoop fuel l
      else if n = 117 then
        match lexStringHex 4 l with
        | Sum.inl r => some r
        | Sum.inr l => lexStringLoop fuel l
      else some (l.errorf (str "unexpected escape character " ++ fmtC n))
    else if b = 34 then some (some stateFunc.lex, l.emit TokenString)
    else if b = eof then
      some (l.errorf (str "unterminated string literal " ++ l.input.drop l.start))
    else lexStringLoop fuel l

def lexString (l : lexer) : Option (Option stateFunc × lexer) :=
  lexStringLoop (l.input.length + 1) l

/-- The call `state(l)`. -/
def stateFunc.call : stateFunc → lexer → Option (Option stateFunc × lexer)
  | stateFunc.lex, l => some (jparser.lex l)
  | stateFunc.lexValue value token, l => some (jparser.lexValue value token l)
  | stateFunc.lexNumber, l => jparser.lexNumber l
  | stateFunc.lexString, l => jparser.lexString l

/-- The loop of `lexer.run`: calls the state until it is nil, then closes the channel. -/
def runLoop : Nat → stateFunc → lexer → Option lexer
  | 0, _, _ => none
  | fuel + 1, state, l =>
    match state.call l with
    | none => none
    | some (none, l) => some l
    | some (some state, l) => runLoop fuel state l

def lexer.run (l : lexer) : Option lexer :=
  runLoop (2 * l.input.length + 2) stateFunc.lex l

/-- Lex reads the input and returns a channel of tokens: the sequence sent on it. -/
def Lex (input : List Nat) : Option (List Token) :=
  ((newLexer input).run).map lexer.tokens

/-! ## The parser -/

/-- A non-nil interface value of type `Value`.  `Object` and `Array` are the pointers to an
`Object` with the given `Elements` (each an `Element` with its `Key` and `Value`) and to an
`Array` with the given `Values`, `Literal` is the pointer to a `Literal`; `nilObject`,
`nilArray` and `nilLiteral` are nil pointers of the three types stored in the interface. -/
inductive Value
  | Object (Elements : List (List Nat × Value))
  | Array (Values : List Value)
  | Literal (Value : List Nat) (Typ : TokenType)
  | nilObject
  | nilArray
  | nilLiteral

/-- Json represents the root element; `none` is the nil interface. -/
structure Json where
  Value : Option Value

/-- The parser state: `tokens` is what the channel still has to deliver, `err` the recorded
error (`none` is nil, `some msg` an error whose message is `msg`). -/
structure parser where
  tokens : List Token
  cur : Token
  err : Option (List Nat)

def parser.addErr (p : parser) (err : List Nat) : parser :=
  if p.err = none then { p with err := some err } else p

/-- The receive `<-p.tokens`: the next token, or the zero `Token` once the channel is closed. -/
def parser.recv (p : parser) : parser :=
  match p.tokens with
  | [] => { p with cur := ⟨TokenIllegal, []⟩ }
  | t :: rest => { p with cur := t, tokens := rest }

def parser.next (p : parser) : parser :=
  let p := p.recv
  if p.cur.Typ = TokenIllegal then p.addErr p.cur.Value else p

def parser.expect (p : parser) (token : TokenType) : parser :=
  if p.cur.Typ = TokenIllegal then p.addErr p.cur.Value
  else
    let p := if p.cur.Typ ≠ token then
        p.addErr (str "expected " ++ token.String ++ str " but found " ++ p.cur.Typ.String)
      else p
    p.next

/-- The pointer `*Literal` that `parseLiteral` returns: `none` is nil. -/
def parser.parseLiteral (p : parser) : Option (List Nat × TokenType) × parser :=
  if p.err ≠ none then (none, p)
  else (some (p.cur.Value, p.cur.Typ), p.next)

/-- The conversion of a `*Object` to the interface `Value`. -/
def Value.ofObject : Option (List (List Nat × Value)) → Value
  | none => Value.nilObject
  | some elements => Value.Object elements

/-- The conversion of a `*Array` to the interface `Value`. -/
def Value.ofArray : Option (List Value) → Value
  | none => Value.nilArray
  | some values => Value.Array values

/-- The conversion of a `*Literal` to the interface `Value`. -/
def Value.ofLiteral : Option (List Nat × TokenType) → Value
  | none => Value.nilLiteral
  | some (value, typ) => Value.Literal value typ

mutual

def parseValue : Nat → parser → Option (Option Value × parser)
  | 0, _ => none
  | fuel + 1, p =>
    if p.err ≠ none then some (none, p)
    else
      match p.cur.Typ with
      | TokenLbrace =>
        match parseObject fuel p with
        | none => none
        | some (o, p) => some (some (Value.ofObject o), p)
      | TokenLbrack =>
        match parseArray fuel p with
        | none => none
        | some (a, p) => some (some (Value.ofArray a), p)
      | TokenString | TokenNumber | TokenTrue | TokenFalse | TokenNull =>
        let (lit, p) := p.parseLiteral
        some (some (Value.ofLiteral lit), p)
      | _ => some (none, p.addErr (str "unexpected token " ++ p.cur.Value))

def parseObject : Nat → parser → Option (Option (List (List Nat × Value)) × parser)
  | 0, _ => none
  | fuel + 1, p =>
    if p.err ≠ none then some (none, p)
    else
      let p := p.expect TokenLbrace
      if p.cur.Typ ≠ TokenRbrace then parseObjectLoop fuel [] p
      else some (some [], p)

/-- The `for` loop of `parseObject`, with the elements collected so far. -/
def parseObjectLoop : Nat → List (List Nat × Value) → parser →
    Option (Option (List (List Nat × Value)) × parser)
  | 0, _, _ => none
  | fuel + 1, elements, p =>
    match p.parseLiteral with
    | (none, p) => some (none, p)
    | (some (value, typ), p) =>
      if typ = TokenString then
        let key := value
        let p := p.expect TokenColon
        match parseValue fuel p with
        | none => none
        | some (none, p) => some (none, p)
        | some (some value, p) =>
          let elements := elements ++ [(key, value)]
          if p.cur.Typ = TokenRbrace then some (some elements, p.next)
          else parseObjectLoop fuel elements (p.expect TokenComma)
      else
        some (none, p.addErr (str "expected string key but found " ++ value))

def parseArray : Nat → parser → Option (Option (List Value) × parser)
  | 0, _ => none
  | fuel + 1, p =>
    if p.err ≠ none then some (none, p)
    else
      let p := p.expect TokenLbrack
      if p.cur.Typ ≠ TokenRbrack then parseArrayLoop fuel [] p
      else some (some [], p)

/-- The `for` loop of `parseArray`, with the values collected so far. -/
def parseArrayLoop : Nat → List Value → parser → Option (Option (List Value) × parser)
  | 0, _, _ => none
  | fuel + 1, values, p =>
    match parseValue fuel p with
    | none => none
    | some (none, p) => some (none, p)
    | some (some value, p) =>
      let values := values ++ [value]
      if p.cur.Typ = TokenRbrack then some (some values, p.next)
      else parseArrayLoop fuel values (p.expect TokenComma)

end

def parser.parse (fuel : Nat) (p : parser) : Option (Option Json × parser) :=
  let p := p.next
  if p.err ≠ none then some (none, p)
  else
    match parseValue fuel p with
    | none => none
    | some (v, p) => some (some ⟨v⟩, p)

/-- The body of `Parse` once the channel is given: the returned pair and the parser as it is
left, for the tokens `tokens` that the channel delivers. -/
def parseTokens (tokens : List Token) : Option ((Option Json × Option (List Nat)) × parser) :=
  let p : parser := { tokens := tokens, cur := ⟨TokenIllegal, []⟩, err := none }
  match p.parse (3 * tokens.length + 3) with
  | none => none
  | some (j, p) =>
    if p.err ≠ none then some ((none, p.err), p)
    else if p.cur.Typ ≠ TokenEof then
      let p := p.addErr (str "expected TokenEof but found " ++ p.cur.Typ.String)
      some ((none, p.err), p)
    else some ((j, none), p)

/-- Parse parses the given input and returns an AST representation of the json.  In case of
error, it returns an error. -/
def Parse (input : List Nat) : Option (Option Json × Option (List Nat)) :=
  match Lex input with
  | none => none
  | some tokens => (parseTokens tokens).map Prod.fst

/-! ## Definitions for the statements and proofs -/

/-- The lexer seen as a zipper over its input: `pre` is `input[:start]`, `cur` is
`input[start:pos]` and `rest` is `input[pos:]`. -/
def View (l : lexer) (pre cur rest : List Nat) : Prop :=
  l.input = pre ++ cur ++ rest ∧ l.start = pre.length ∧ l.pos = pre.length + cur.length

/-- The token kinds other than the two terminal ones. -/
def TokenType.isData (t : TokenType) : Bool :=
  decide (t ≠ TokenIllegal) && decide (t ≠ TokenEof)

/-- The items of the body of a string literal: one byte other than the quote and the
backslash, or a backslash followed by one of `" \ b f n r t`, or a backslash, `u` and exactly
four hex digits. -/
def IsStringItem (item : List Nat) : Prop :=
  (∃ b, item = [b] ∧ b ≠ 34 ∧ b ≠ 92) ∨
  (∃ c, item = [92, c] ∧
    (c = 34 ∨ c = 92 ∨ c = 98 ∨ c = 102 ∨ c = 110 ∨ c = 114 ∨ c = 116)) ∨
  (∃ h1 h2 h3 h4, item = [92, 117, h1, h2, h3, h4] ∧ isHex h1 = true ∧ isHex h2 = true ∧
    isHex h3 = true ∧ isHex h4 = true)

/-- The texts of the form quote, items, quote. -/
def IsStringText (s : List Nat) : Prop :=
  ∃ items : List (List Nat), s = [34] ++ items.flatten ++ [34] ∧ ∀ item ∈ items, IsStringItem item

def isSimpleEscape (c : Nat) : Bool :=
  decide (c = 34) || decide (c = 92) || decide (c = 98) || decide (c = 102) ||
    decide (c = 110) || decide (c = 114) || decide (c = 116)

/-- A recogniser of the sequences of items of a string literal, read from left to right. -/
def isStringBody : List Nat → Bool
  | [] => true
  | b :: rest =>
    if b = 92 then
      match rest with
      | [] => false
      | c :: rest =>
        if c = 117 then
          match rest with
          | h1 :: h2 :: h3 :: h4 :: rest =>
            isHex h1 && isHex h2 && isHex h3 && isHex h4 && isStringBody rest
          | _ => false
        else isSimpleEscape c && isStringBody rest
    else decide (b ≠ 34) && isStringBody rest

/-- A recogniser of the texts of the form quote, items, quote. -/
def isStringLexeme (s : List Nat) : Bool :=
  match s with
  | [] => false
  | q :: rest =>
    decide (q = 34) &&
      match rest.reverse with
      | [] => false
      | q :: body => decide (q = 34) && isStringBody body.reverse

/-- The byte of a punctuation token. -/
def punctByte : TokenType → Option Nat
  | TokenLbrace => some 123
  | TokenLbrack => some 91
  | TokenRbrace => some 125
  | TokenRbrack => some 93
  | TokenComma => some 44
  | TokenColon => some 58
  | _ => none

/-- What is known of the text of a data token: a string token has the form of a string
literal, a punctuation token is its own byte. -/
def goodText (typ : TokenType) (text : List Nat) : Prop :=
  (typ = TokenString → isStringLexeme text = true) ∧ (∀ c, punctByte typ = some c → text = [c])

/-- The token sequences that the dispatch state can send for the input that is left: the `Eof`
token at the end of the input or at a zero byte, an error, a token after a white space byte,
or a data token whose text is the next part of the input, followed by a trace of the rest. -/
inductive Trace : List Nat → List Token → Prop
  | eof : Trace [] [⟨TokenEof, []⟩]
  | zero (rest : List Nat) : Trace (0 :: rest) [⟨TokenEof, [0]⟩]
  | illegal (rest msg : List Nat) : Trace rest [⟨TokenIllegal, msg⟩]
  | space (b : Nat) (rest : List Nat) (toks : List Token) :
      isWhiteSpace b = true → Trace rest toks → Trace (b :: rest) toks
  | token (typ : TokenType) (text rest : List Nat) (toks : List Token) :
      typ.isData = true → text ≠ [] → goodText typ text → Trace rest toks →
      Trace (text ++ rest) (⟨typ, text⟩ :: toks)

/-- What a state expects of the pending text `input[start:pos]` when it is entered. -/
def Entry : stateFunc → List Nat → Prop
  | stateFunc.lex, cur => cur = []
  | stateFunc.lexValue _ token, cur =>
      cur ≠ [] ∧ (token = TokenTrue ∨ token = TokenFalse ∨ token = TokenNull)
  | stateFunc.lexNumber, cur => cur ≠ []
  | stateFunc.lexString, cur => cur = [34]

/-- The five things one call of a state can do. -/
def StepSpec (st : stateFunc) (pre cur rest : List Nat) (T : List Token)
    (r : Option stateFunc × lexer) : Prop :=
  (∃ s cur1 rest1, r.1 = some s ∧ st = stateFunc.lex ∧ s ≠ stateFunc.lex ∧ Entry s cur1 ∧
      cur1 ≠ [] ∧ rest = cur1 ++ rest1 ∧ View r.2 pre cur1 rest1 ∧ r.2.tokens = T) ∨
  (∃ b rest1, r.1 = some stateFunc.lex ∧ st = stateFunc.lex ∧ isWhiteSpace b = true ∧
      rest = b :: rest1 ∧ View r.2 (pre ++ [b]) [] rest1 ∧ r.2.tokens = T) ∨
  (∃ typ x rest1, r.1 = some stateFunc.lex ∧ typ.isData = true ∧ cur ++ x ≠ [] ∧
      rest = x ++ rest1 ∧ goodText typ (cur ++ x) ∧
      View r.2 (pre ++ (cur ++ x)) [] rest1 ∧ r.2.tokens = T ++ [⟨typ, cur ++ x⟩]) ∨
  (r.1 = none ∧ st = stateFunc.lex ∧ rest = [] ∧ View r.2 pre [] [] ∧
      r.2.tokens = T ++ [⟨TokenEof, []⟩]) ∨
  (∃ rest1, r.1 = none ∧ st = stateFunc.lex ∧ rest = 0 :: rest1 ∧
      View r.2 (pre ++ [0]) [] rest1 ∧ r.2.tokens = T ++ [⟨TokenEof, [0]⟩]) ∨
  (∃ msg, r.1 = none ∧ r.2.tokens = T ++ [⟨TokenIllegal, msg⟩])

/-- What the tokens sent from a state on look like: from `lex` a trace of the rest of the
input, from another state an error or the pending token followed by a trace. -/
def TraceFrom (st : stateFunc) (cur rest : List Nat) (toks : List Token) : Prop :=
  if st = stateFunc.lex then Trace rest toks
  else
    (∃ msg, toks = [⟨TokenIllegal, msg⟩]) ∨
    (∃ typ x rest1 toks1, rest = x ++ rest1 ∧ toks = ⟨typ, cur ++ x⟩ :: toks1 ∧
      typ.isData = true ∧ goodText typ (cur ++ x) ∧ Trace rest1 toks1)

/-- The zero `Token`, received from the closed channel. -/
def zeroToken : Token := ⟨TokenIllegal, []⟩

/-- Every token the parser holds is the zero token or one of `toks`. -/
def parser.Within (p : parser) (toks : List Token) : Prop :=
  ∀ t ∈ p.cur :: p.tokens, t = zeroToken ∨ t ∈ toks

/-- The fuel measure of a parser state: nothing once an error is recorded, otherwise three
units for each token still to come and three more. -/
def parser.weight (p : parser) : Nat :=
  if p.err = none then 3 * p.tokens.length + 3 else 0

mutual

/-- The in-order spelling of a tree as tokens. -/
def Value.spell : Value → List Token
  | Value.Object elements =>
    [⟨TokenLbrace, [123]⟩] ++ spellElements elements ++ [⟨TokenRbrace, [125]⟩]
  | Value.Array values => [⟨TokenLbrack, [91]⟩] ++ spellValues values ++ [⟨TokenRbrack, [93]⟩]
  | Value.Literal value typ => [⟨typ, value⟩]
  | Value.nilObject => []
  | Value.nilArray => []
  | Value.nilLiteral => []

/-- The spelling of the elements of an object, separated by commas. -/
def spellElements : List (List Nat × Value) → List Token
  | [] => []
  | (key, value) :: rest =>
    [⟨TokenString, key⟩, ⟨TokenColon, [58]⟩] ++ value.spell ++
      (match rest with
       | [] => []
       | _ :: _ => ⟨TokenComma, [44]⟩ :: spellElements rest)

/-- The spelling of the values of an array, separated by commas. -/
def spellValues : List Value → List Token
  | [] => []
  | value :: rest =>
    value.spell ++
      (match rest with
       | [] => []
       | _ :: _ => ⟨TokenComma, [44]⟩ :: spellValues rest)

end

mutual

/-- No object and no array of the tree is empty. -/
def Value.noEmpty : Value → Bool
  | Value.Object elements => !elements.isEmpty && elementsNoEmpty elements
  | Value.Array values => !values.isEmpty && valuesNoEmpty values
  | _ => true

def elementsNoEmpty : List (List Nat × Value) → Bool
  | [] => true
  | (_, value) :: rest => value.noEmpty && elementsNoEmpty rest

def valuesNoEmpty : List Value → Bool
  | [] => true
  | value :: rest => value.noEmpty && valuesNoEmpty rest

end

mutual

/-- No `Value` of the tree wraps a nil pointer. -/
def Value.noNil : Value → Bool
  | Value.Object elements => elementsNoNil elements
  | Value.Array values => valuesNoNil values
  | Value.Literal _ _ => true
  | _ => false

def elementsNoNil : List (List Nat × Value) → Bool
  | [] => true
  | (_, value) :: rest => value.noNil && elementsNoNil rest

def valuesNoNil : List Value → Bool
  | [] => true
  | value :: rest => value.noNil && valuesNoNil rest

end

/-- A punctuation token carries its own byte as text. -/
def Token.canonical (t : Token) : Prop := ∀ c, punctByte t.Typ = some c → t.Value = [c]

/-- Every token the parser holds is canonical. -/
def parser.Canon (p : parser) : Prop := ∀ t ∈ p.cur :: p.tokens, t.canonical

/-- The input is the concatenation of the texts of the tokens, in order, with a run of white
space before each: `wss` holds the runs, one for each token. -/
def Reconstructs (input : List Nat) (toks : List Token) : Prop :=
  ∃ wss : List (List Nat), wss.length = toks.length ∧
    (∀ w ∈ wss, ∀ b ∈ w, isWhiteSpace b = true) ∧
    input = (List.zipWith (fun w t => w ++ t.Value) wss toks).flatten

/-- The texts `'.' digit+`. -/
def IsFraction (frac : List Nat) : Prop :=
  ∃ fs, frac = 46 :: fs ∧ fs ≠ [] ∧ ∀ d ∈ fs, isDigit d = true

/-- The texts `('e'|'E') ('+'|'-')? digit+`. -/
def IsExponent (exp : List Nat) : Prop :=
  ∃ e sg es, exp = e :: (sg ++ es) ∧ (e = 101 ∨ e = 69) ∧ (sg = [] ∨ sg = [43] ∨ sg = [45]) ∧
    es ≠ [] ∧ ∀ d ∈ es, isDigit d = true

/-- The grammar `'-'? digit+ ('.' digit+)? (('e'|'E') ('+'|'-')? digit+)?`, as the texts that
split into an optional sign, digits, an optional fraction and an optional exponent. -/
def IsNumberText (n : List Nat) : Prop :=
  ∃ sign int frac exp, n = sign ++ int ++ frac ++ exp ∧ (sign = [] ∨ sign = [45]) ∧
    int ≠ [] ∧ (∀ d ∈ int, isDigit d = true) ∧ (frac = [] ∨ IsFraction frac) ∧
    (exp = [] ∨ IsExponent exp)

/-- The texts `digit+` that reach the end of the text. -/
def isDigits : List Nat → Bool
  | [] => false
  | d :: rest => isDigit d && (rest.isEmpty || isDigits rest)

/-- The texts `(('e'|'E') ('+'|'-')? digit+)?` that reach the end of the text. -/
def isExponentOpt : List Nat → Bool
  | [] => true
  | e :: rest =>
    (decide (e = 101) || decide (e = 69)) &&
      match rest with
      | [] => false
      | s :: digits => if isSign s then isDigits digits else isDigits rest

/-- The texts `digit* (('e'|'E') ('+'|'-')? digit+)?`: what may follow the first digit of a
fraction. -/
def isFractionRest : List Nat → Bool
  | [] => true
  | d :: rest => if isDigit d then isFractionRest rest else isExponentOpt (d :: rest)

/-- The texts `digit* ('.' digit+)? (('e'|'E') ('+'|'-')? digit+)?`: what may follow the first
digit of a number. -/
def isIntegerRest : List Nat → Bool
  | [] => true
  | d :: rest =>
    if isDigit d then isIntegerRest rest
    else if d = 46 then
      match rest with
      | [] => false
      | f :: rest => isDigit f && isFractionRest rest
    else isExponentOpt (d :: rest)

/-- A recogniser of the grammar `'-'? digit+ ('.' digit+)? (('e'|'E') ('+'|'-')? digit+)?`,
read from left to right. -/
def isNumberLexeme (s : List Nat) : Bool :=
  match s with
  | [] => false
  | c :: rest =>
    if c = 45 then
      match rest with
      | [] => false
      | d :: rest => isDigit d && isIntegerRest rest
    else isDigit c && isIntegerRest rest

/-- From the view `pre`, `cur`, `rest` the loop of `lexNumber` with the given flags reads all
of `rest` and sends the `Number` token whose text is `cur ++ rest`. -/
def NumberRun (integer fraction : Bool) (l : lexer) (pre cur rest : List Nat) : Prop :=
  ∃ l1, View l1 (pre ++ (cur ++ rest)) [] [] ∧
    l1.tokens = l.tokens ++ [⟨TokenNumber, cur ++ rest⟩] ∧
    ∀ fuel, 2 * rest.length + (if (integer || fraction) = true then 1 else 0) < fuel →
      lexNumberLoop fuel integer fraction l = some (some stateFunc.lex, l1)

/-- The lexer moved to an input with `pre` in front: the same scan, `pre.length` bytes on. -/
def lexer.shift (pre : List Nat) (l : lexer) : lexer :=
  { input := pre ++ l.input, start := l.start + pre.length, pos := l.pos + pre.length,
    tokens := l.tokens }

deriving instance Fintype for TokenType

/-- The messages that the parser composes itself, about the token `t`. -/
def IsGrammarMessage (t : Token) (msg : List Nat) : Prop :=
  (∃ k : TokenType, msg = str "expected " ++ k.String ++ str " but found " ++ t.Typ.String) ∨
  msg = str "expected string key but found " ++ t.Value ∨
  msg = str "unexpected token " ++ t.Value

instance (t : Token) (msg : List Nat) : Decidable (IsGrammarMessage t msg) := by
  unfold IsGrammarMessage
  infer_instance

/-- A grammar error of the parser on the tokens `toks`: one of the parser's own messages,
about a token of `toks` that is not `Illegal`. -/
def GrammarError (toks : List Token) (msg : List Nat) : Prop :=
  ∃ t ∈ toks, t.Typ ≠ TokenIllegal ∧ IsGrammarMessage t msg

instance (toks : List Token) (msg : List Nat) : Decidable (GrammarError toks msg) := by
  unfold GrammarError
  infer_instance

/-- Where the recorded error of a parser on the tokens `toks` comes from: `pre` are the
tokens received so far; no `Illegal` token was received while no error is recorded, and a
recorded error is a grammar error, or the text of a received `Illegal` token, or the empty
text of the zero token that the closed channel gives after the last token. -/
def parser.Prov (p : parser) (toks : List Token) : Prop :=
  ∃ pre, toks = pre ++ p.tokens ∧
    (p.err = none → ∀ t ∈ pre, t.Typ ≠ TokenIllegal) ∧
    (∀ msg, p.err = some msg →
      GrammarError toks msg ∨ (∃ t ∈ pre, t.Typ = TokenIllegal ∧ msg = t.Value) ∨
      (msg = [] ∧ p.tokens = [] ∧ ∀ t ∈ toks, t.Typ ≠ TokenIllegal))

/-- The provenance of the error together with the current token: while no error is
recorded, the current token is one of `toks` and is not `Illegal`. -/
def parser.ProvCur (p : parser) (toks : List Token) : Prop :=
  p.Prov toks ∧ (p.err = none → p.cur ∈ toks ∧ p.cur.Typ ≠ TokenIllegal)

mutual

/-- A tree that the parser builds from its own spelling: every literal has one of the five
literal kinds, no `Value` wraps a nil pointer, and no object and no array is empty. -/
def Value.proper : Value → Bool
  | Value.Object elements => !elements.isEmpty && elementsProper elements
  | Value.Array values => !values.isEmpty && valuesProper values
  | Value.Literal _ typ =>
    decide (typ = TokenString ∨ typ = TokenNumber ∨ typ = TokenTrue ∨ typ = TokenFalse ∨
      typ = TokenNull)
  | _ => false

def elementsProper : List (List Nat × Value) → Bool
  | [] => true
  | (_, value) :: rest => value.proper && elementsProper rest

def valuesProper : List Value → Bool
  | [] => true
  | value :: rest => value.proper && valuesProper rest

end

/-- The tokens in front of a place where a value is expected, with no defect among them: the
place is the top of the document, the first or a later element of an array, or the value of
the first or of a later member of an object; the arrays and objects around the place are
open, and the values before it in them are complete and proper. -/
inductive ValuePos : List Token → Prop
  | top : ValuePos []
  | first (ctx : List Token) : ValuePos ctx → ValuePos (ctx ++ [⟨TokenLbrack, [91]⟩])
  | later (ctx : List Token) (values : List Value) : ValuePos ctx → values ≠ [] →
      valuesProper values = true →
      ValuePos (ctx ++ [⟨TokenLbrack, [91]⟩] ++ spellValues values ++ [⟨TokenComma, [44]⟩])
  | memberFirst (ctx : List Token) (key : List Nat) : ValuePos ctx →
      ValuePos (ctx ++ [⟨TokenLbrace, [123]⟩, ⟨TokenString, key⟩, ⟨TokenColon, [58]⟩])
  | memberLater (ctx : List Token) (elements : List (List Nat × Value)) (key : List Nat) :
      ValuePos ctx → elements ≠ [] → elementsProper elements = true →
      ValuePos (ctx ++ [⟨TokenLbrace, [123]⟩] ++ spellElements elements ++
        [⟨TokenComma, [44]⟩, ⟨TokenString, key⟩, ⟨TokenColon, [58]⟩])

/-- The tokens in front of a key position of an object, with no defect among them: the
object stands where a value is expected, and the position is right after its `{` or right
after the `,` that follows its elements so far, which are complete and proper. -/
def KeyPos (ctx : List Token) : Prop :=
  ∃ ctx0, ValuePos ctx0 ∧
    (ctx = ctx0 ++ [⟨TokenLbrace, [123]⟩] ∨
      ∃ elements : List (List Nat × Value), elements ≠ [] ∧ elementsProper elements = true ∧
        ctx = ctx0 ++ [⟨TokenLbrace, [123]⟩] ++ spellElements elements ++ [⟨TokenComma, [44]⟩])

/-- Parsing a value from the tokens `R`, with no error recorded before, records the error
`E` whenever it returns. -/
def ValueFails (R : List Token) (E : List Nat) : Prop :=
  ∀ fuel c ts res, R = c :: ts → parseValue fuel ⟨ts, c, none⟩ = some res →
    res.2.err = some E

/-- The loop of `parseObject` started at the tokens `R`, with no error recorded before,
records the error `E` whenever it returns. -/
def KeyFails (R : List Token) (E : List Nat) : Prop :=
  ∀ fuel acc c ts res, R = c :: ts → parseObjectLoop fuel acc ⟨ts, c, none⟩ = some res →
    res.2.err = some E

/-! ## The lexer and the parser step by step -/

theorem View.next_cons {l : lexer} {pre cur rest : List Nat} {b : Nat}
    (h : View l pre cur (b :: rest)) :
    ∃ l1, l.next = (b, l1) ∧ View l1 pre (cur ++ [b]) rest ∧ l1.tokens = l.tokens := by
  obtain ⟨hi, hs, hp⟩ := h
  have hlen : ¬ l.pos ≥ l.input.length := by
    rw [hi, hp]; simp
  refine ⟨{ l with pos := l.pos + 1 }, ?_, ⟨?_, ?_, ?_⟩, rfl⟩
  · unfold lexer.next
    rw [if_neg hlen]
    have : l.input.getD l.pos 0 = b := by
      rw [hi, hp, ← List.length_append, List.getD_append_right _ _ _ _ (le_refl _)]
      simp
    rw [this]
  · simp [hi]
  · simpa using hs
  · simp [hp]; omega

theorem View.next_nil {l : lexer} {pre cur : List Nat} (h : View l pre cur []) :
    l.next = (eof, l) := by
  obtain ⟨hi, hs, hp⟩ := h
  unfold lexer.next
  rw [if_pos]
  rw [hi, hp]; simp

theorem View.slice {l : lexer} {pre cur rest : List Nat} (h : View l pre cur rest) :
    slice l.input l.start l.pos = cur := by
  obtain ⟨hi, hs, hp⟩ := h
  simp [jparser.slice, hi, hs, hp]

theorem View.drop_start {l : lexer} {pre cur rest : List Nat} (h : View l pre cur rest) :
    l.input.drop l.start = cur ++ rest := by
  obtain ⟨hi, hs, hp⟩ := h
  simp [hi, hs]

theorem View.emit {l : lexer} {pre cur rest : List Nat} (h : View l pre cur rest)
    (typ : TokenType) :
    View (l.emit typ) (pre ++ cur) [] rest ∧ (l.emit typ).tokens = l.tokens ++ [⟨typ, cur⟩] := by
  have hsl := h.slice
  obtain ⟨hi, hs, hp⟩ := h
  refine ⟨⟨?_, ?_, ?_⟩, by simp [lexer.emit, hsl]⟩
  · simp [lexer.emit, hi]
  · simp [lexer.emit, hp]
  · simp [lexer.emit, hp]

theorem View.ignore {l : lexer} {pre cur rest : List Nat} (h : View l pre cur rest) :
    View l.ignore (pre ++ cur) [] rest ∧ l.ignore.tokens = l.tokens := by
  obtain ⟨hi, hs, hp⟩ := h
  exact ⟨⟨by simp [lexer.ignore, hi], by simp [lexer.ignore, hp], by simp [lexer.ignore, hp]⟩, rfl⟩

theorem View.prev {l : lexer} {pre cur rest : List Nat} {b : Nat}
    (h : View l pre (cur ++ [b]) rest) :
    View l.prev pre cur (b :: rest) ∧ l.prev.tokens = l.tokens := by
  obtain ⟨hi, hs, hp⟩ := h
  refine ⟨⟨by simp [lexer.prev, hi], by simp [lexer.prev, hs], ?_⟩, rfl⟩
  simp [lexer.prev, hp]

theorem errorf_spec {l : lexer} {T : List Token} (hT : l.tokens = T) (msg : List Nat)
    (st : stateFunc) (pre cur rest : List Nat) :
    StepSpec st pre cur rest T (l.errorf msg) := by
  right; right; right; right; right
  exact ⟨msg, rfl, by simp [lexer.errorf, hT]⟩

theorem emit_spec (st : stateFunc) (l : lexer) (pre cur x rest1 : List Nat) (typ : TokenType)
    {T : List Token} (hv : View l pre (cur ++ x) rest1) (hT : l.tokens = T)
    (hd : typ.isData = true) (hne : cur ++ x ≠ []) (hg : goodText typ (cur ++ x)) :
    StepSpec st pre cur (x ++ rest1) T (some stateFunc.lex, l.emit typ) := by
  right; right; left
  have he := hv.emit typ
  exact ⟨typ, x, rest1, rfl, hd, hne, rfl, hg, he.1, by rw [he.2, hT]⟩

theorem goodText_of_ne {typ : TokenType} (text : List Nat) (h : typ ≠ TokenString)
    (hp : punctByte typ = none) : goodText typ text :=
  ⟨fun h1 => absurd h1 h, fun c hc => by rw [hp] at hc; cases hc⟩

theorem goodText_punct {typ : TokenType} {b : Nat} (h : typ ≠ TokenString)
    (hp : punctByte typ = some b) : goodText typ [b] :=
  ⟨fun h1 => absurd h1 h, fun c hc => by rw [hp] at hc; cases hc; rfl⟩

/-- One call of `lex`. -/
theorem lex_spec {l : lexer} {pre rest : List Nat} (h : View l pre [] rest) :
    StepSpec stateFunc.lex pre [] rest l.tokens (lex l) := by
  cases rest with
  | nil =>
    have hn := h.next_nil
    have he := h.emit TokenEof
    right; right; right; left
    have : lex l = (none, l.emit TokenEof) := by
      simp [lex, hn, eof, isDigit, isWhiteSpace]
    rw [this]
    exact ⟨rfl, rfl, rfl, by simpa using he.1, he.2⟩
  | cons b r =>
    obtain ⟨l1, hn, hv, ht⟩ := h.next_cons
    simp only [List.nil_append] at hv
    by_cases hd : isDigit b = true
    · left
      have : lex l = (some stateFunc.lexNumber, l1) := by simp [lex, hn, hd]
      rw [this]
      exact ⟨stateFunc.lexNumber, [b], r, rfl, rfl, by simp, by simp [Entry], by simp, rfl, hv, ht⟩
    · by_cases h45 : b = 45
      · subst h45
        have hd45 : isDigit 45 = false := by decide
        have hw45 : isWhiteSpace 45 = false := by decide
        cases r with
        | nil =>
          have hn2 := hv.next_nil
          have : lex l = l1.errorf (str "unexpected character " ++ fmtC 45) := by
            simp [lex, hn, hn2, hd45, hw45, eof, isDigit]
          rw [this]
          exact errorf_spec ht _ _ _ _ _
        | cons n r2 =>
          obtain ⟨l2, hn2, hv2, ht2⟩ := hv.next_cons
          by_cases hd2 : isDigit n = true
          · left
            have : lex l = (some stateFunc.lexNumber, l2) := by
              simp [lex, hn, hn2, hd2, hd45]
            rw [this]
            exact ⟨stateFunc.lexNumber, [45, n], r2, rfl, rfl, by simp, by simp [Entry],
              by simp, rfl, hv2, ht2.trans ht⟩
          · have : lex l = l2.errorf (str "unexpected character " ++ fmtC 45) := by
              simp [lex, hn, hn2, hd2, hd45, hw45, eof]
            rw [this]
            exact errorf_spec (ht2.trans ht) _ _ _ _ _
      · by_cases hw : isWhiteSpace b = true
        · right; left
          have hi := hv.ignore
          have : lex l = (some stateFunc.lex, l1.ignore) := by simp [lex, hn, hd, h45, hw]
          rw [this]
          exact ⟨b, r, rfl, rfl, hw, rfl, hi.1, hi.2.trans ht⟩
        · have hlex : lex l =
              (if b = eof then (none, l1.emit TokenEof)
              else if b = 116 then (some (stateFunc.lexValue (str "true") TokenTrue), l1)
              else if b = 102 then (some (stateFunc.lexValue (str "false") TokenFalse), l1)
              else if b = 110 then (some (stateFunc.lexValue (str "null") TokenNull), l1)
              else if b = 34 then (some stateFunc.lexString, l1)
              else if b = 123 then (some stateFunc.lex, l1.emit TokenLbrace)
              else if b = 125 then (some stateFunc.lex, l1.emit TokenRbrace)
              else if b = 91 then (some stateFunc.lex, l1.emit TokenLbrack)
              else if b = 93 then (some stateFunc.lex, l1.emit TokenRbrack)
              else if b = 58 then (some stateFunc.lex, l1.emit TokenColon)
              else if b = 44 then (some stateFunc.lex, l1.emit TokenComma)
              else l1.errorf (str "unexpected character " ++ fmtC b)) := by
            simp [lex, hn, hd, h45, hw]
          rw [hlex]
          have hsub : ∀ s : stateFunc, s ≠ stateFunc.lex → Entry s [b] →
              StepSpec stateFunc.lex pre [] (b :: r) l.tokens (some s, l1) := by
            intro s hs he
            left
            exact ⟨s, [b], r, rfl, rfl, hs, he, by simp, rfl, hv, ht⟩
          have hem : ∀ typ : TokenType, typ.isData = true → typ ≠ TokenString →
              punctByte typ = some b →
              StepSpec stateFunc.lex pre [] (b :: r) l.tokens
                (some stateFunc.lex, l1.emit typ) := by
            intro typ h1 h2 h3
            have := emit_spec stateFunc.lex l1 pre [] [b] r typ (by simpa using hv) ht h1 (by simp)
              (by simpa using goodText_punct h2 h3)
            simpa using this
          by_cases h0 : b = eof
          · rw [if_pos h0]
            right; right; right; right; left
            have h0b : b = 0 := h0
            subst h0b
            have he := hv.emit TokenEof
            exact ⟨r, rfl, rfl, rfl, he.1, by rw [he.2, ht]⟩
          rw [if_neg h0]
          by_cases h1 : b = 116
          · rw [if_pos h1]; exact hsub _ (by simp) (by simp [Entry])
          rw [if_neg h1]
          by_cases h2 : b = 102
          · rw [if_pos h2]; exact hsub _ (by simp) (by simp [Entry])
          rw [if_neg h2]
          by_cases h3 : b = 110
          · rw [if_pos h3]; exact hsub _ (by simp) (by simp [Entry])
          rw [if_neg h3]
          by_cases h4 : b = 34
          · rw [if_pos h4]; exact hsub _ (by simp) (by simp [Entry, h4])
          rw [if_neg h4]
          by_cases h5 : b = 123
          · rw [if_pos h5]; exact hem _ (by decide) (by decide) (by rw [h5]; rfl)
          rw [if_neg h5]
          by_cases h6 : b = 125
          · rw [if_pos h6]; exact hem _ (by decide) (by decide) (by rw [h6]; rfl)
          rw [if_neg h6]
          by_cases h7 : b = 91
          · rw [if_pos h7]; exact hem _ (by decide) (by decide) (by rw [h7]; rfl)
          rw [if_neg h7]
          by_cases h8 : b = 93
          · rw [if_pos h8]; exact hem _ (by decide) (by decide) (by rw [h8]; rfl)
          rw [if_neg h8]
          by_cases h9 : b = 58
          · rw [if_pos h9]; exact hem _ (by decide) (by decide) (by rw [h9]; rfl)
          rw [if_neg h9]
          by_cases h10 : b = 44
          · rw [if_pos h10]; exact hem _ (by decide) (by decide) (by rw [h10]; rfl)
          rw [if_neg h10]
          exact errorf_spec ht _ _ _ _ _

theorem lexValueLoop_spec (value : List Nat) (token : TokenType)
    (htok : token = TokenTrue ∨ token = TokenFalse ∨ token = TokenNull) :
    ∀ (bs : List Nat) (l : lexer) (pre cur x rest : List Nat),
      View l pre (cur ++ x) rest → cur ≠ [] →
      StepSpec (stateFunc.lexValue value token) pre cur (x ++ rest) l.tokens
        (lexValueLoop value token bs l) := by
  intro bs
  induction bs with
  | nil =>
    intro l pre cur x rest hv hne
    simp only [lexValueLoop]
    refine emit_spec _ l pre cur x rest token hv rfl ?_ (by simp [hne]) (goodText_of_ne _ ?_ ?_)
    · rcases htok with h | h | h <;> subst h <;> decide
    · rcases htok with h | h | h <;> subst h <;> decide
    · rcases htok with h | h | h <;> subst h <;> rfl
  | cons b bs ih =>
    intro l pre cur x rest hv hne
    cases rest with
    | nil =>
      have hn := hv.next_nil
      simp only [lexValueLoop, hn]
      by_cases hb : eof ≠ b
      · simp only [if_pos hb, if_true]
        exact errorf_spec rfl _ _ _ _ _
      · simp only [if_neg hb]
        exact ih l pre cur x [] hv hne
    | cons n r =>
      obtain ⟨l1, hn, hv1, ht⟩ := hv.next_cons
      simp only [lexValueLoop, hn]
      by_cases hb : n ≠ b
      · simp only [if_pos hb]
        split_ifs
        · exact errorf_spec ht _ _ _ _ _
        · exact errorf_spec ht _ _ _ _ _
      · simp only [if_neg hb]
        have := ih l1 pre cur (x ++ [n]) r (by simpa using hv1) hne
        rw [ht] at this
        simpa using this

theorem lexValue_spec {value : List Nat} {token : TokenType} {l : lexer}
    {pre cur rest : List Nat} (hv : View l pre cur rest)
    (he : Entry (stateFunc.lexValue value token) cur) :
    StepSpec (stateFunc.lexValue value token) pre cur rest l.tokens (lexValue value token l) := by
  have := lexValueLoop_spec value token he.2 value.tail l pre cur [] rest (by simpa using hv) he.1
  simpa [lexValue] using this

/-- The loop of `lexNumber` returns within the fuel `2 * rest + 1`. -/
theorem lexNumberLoop_spec :
    ∀ (fuel : Nat) (integer fraction : Bool) (l : lexer) (pre cur x rest : List Nat),
      View l pre (cur ++ x) rest → cur ≠ [] →
      2 * rest.length + (if (integer || fraction) = true then 1 else 0) < fuel →
      ∃ r, lexNumberLoop fuel integer fraction l = some r ∧
        StepSpec stateFunc.lexNumber pre cur (x ++ rest) l.tokens r := by
  intro fuel
  induction fuel with
  | zero => intro integer fraction l pre cur x rest _ _ h; omega
  | succ fuel ih =>
    intro integer fraction l pre cur x rest hv hne hfuel
    have hnum : (TokenNumber).isData = true := by decide
    have hgood : ∀ t : List Nat, goodText TokenNumber t :=
      fun t => goodText_of_ne t (by decide) rfl
    cases rest with
    | nil =>
      have hn := hv.next_nil
      refine ⟨(some stateFunc.lex, l.emit TokenNumber), ?_, ?_⟩
      · simp [lexNumberLoop, hn, eof, isLetter, isDigit]
      · exact emit_spec _ l pre cur x [] TokenNumber hv rfl hnum (by simp [hne]) (hgood _)
    | cons b r =>
      obtain ⟨l1, hn, hv1, ht⟩ := hv.next_cons
      simp only [List.length_cons] at hfuel
      simp only [lexNumberLoop, hn]
      by_cases h46 : b = 46
      · simp only [if_pos h46]
        cases integer with
        | true =>
          simp only [if_true]
          obtain ⟨res, h1, h2⟩ := ih false true l1 pre cur (x ++ [b]) r (by simpa using hv1) hne
            (by simp; omega)
          exact ⟨res, h1, by rw [ht] at h2; simpa using h2⟩
        | false =>
          simp only [Bool.false_eq_true, if_false]
          exact ⟨_, rfl, errorf_spec ht _ _ _ _ _⟩
      · simp only [if_neg h46]
        by_cases hlet : ((integer || fraction) && isLetter b) = true
        · simp only [if_pos hlet]
          have hflag : (integer || fraction) = true := by
            cases hio : (integer || fraction) with
            | true => rfl
            | false => rw [hio] at hlet; simp at hlet
          rw [hflag] at hfuel
          simp only [if_true] at hfuel
          by_cases he : b = 69 ∨ b = 101
          · simp only [if_pos he]
            cases r with
            | nil =>
              have hn2 := hv1.next_nil
              have hp := hv1.prev
              simp only [hn2]
              have hs : (!isSign eof) = true := by decide
              simp only [hs, if_true]
              obtain ⟨res, h1, h2⟩ := ih false false l1.prev pre cur x [b] hp.1 hne
                (by simp at hfuel ⊢; omega)
              exact ⟨res, h1, by rw [hp.2, ht] at h2; exact h2⟩
            | cons s r2 =>
              obtain ⟨l2, hn2, hv2, ht2⟩ := hv1.next_cons
              simp only [hn2]
              by_cases hsg : isSign s = true
              · simp only [hsg, Bool.not_true, Bool.false_eq_true, if_false]
                obtain ⟨res, h1, h2⟩ := ih false false l2 pre cur (x ++ [b] ++ [s]) r2
                  (by simpa using hv2) hne (by simp at hfuel ⊢; omega)
                exact ⟨res, h1, by rw [ht2, ht] at h2; simpa using h2⟩
              · have hsg2 : isSign s = false := by simpa using hsg
                simp only [hsg2, Bool.not_false, if_true]
                have hp := hv2.prev
                obtain ⟨res, h1, h2⟩ := ih false false l2.prev pre cur (x ++ [b]) (s :: r2)
                  (by simpa using hp.1) hne (by simp at hfuel ⊢; omega)
                exact ⟨res, h1, by rw [hp.2, ht2, ht] at h2; simpa using h2⟩
          · simp only [if_neg he]
            exact ⟨_, rfl, errorf_spec ht _ _ _ _ _⟩
        · simp only [if_neg hlet]
          by_cases hdig : isDigit b = true
          · simp only [hdig, Bool.not_true, Bool.false_eq_true, if_false]
            obtain ⟨res, h1, h2⟩ := ih integer fraction l1 pre cur (x ++ [b]) r
              (by simpa using hv1) hne (by omega)
            exact ⟨res, h1, by rw [ht] at h2; simpa using h2⟩
          · have hdig2 : isDigit b = false := by simpa using hdig
            simp only [hdig2, Bool.not_false, if_true]
            by_cases h0 : b ≠ eof
            · simp only [if_pos h0]
              have hp := hv1.prev
              refine ⟨_, rfl, ?_⟩
              have := emit_spec stateFunc.lexNumber l1.prev pre cur x (b :: r) TokenNumber
                hp.1 (hp.2.trans ht) hnum (by simp [hne]) (hgood _)
              exact this
            · simp only [if_neg h0]
              refine ⟨_, rfl, ?_⟩
              have := emit_spec stateFunc.lexNumber l1 pre cur (x ++ [b]) r TokenNumber
                (by simpa using hv1) ht hnum (by simp [hne])
                (hgood _)
              simpa using this

theorem lexNumber_spec {l : lexer} {pre cur rest : List Nat} (hv : View l pre cur rest)
    (he : Entry stateFunc.lexNumber cur) :
    ∃ r, lexNumber l = some r ∧ StepSpec stateFunc.lexNumber pre cur rest l.tokens r := by
  have hlen : rest.length ≤ l.input.length := by rw [hv.1]; simp; omega
  have := lexNumberLoop_spec (2 * l.input.length + 2) true false l pre cur [] rest
    (by simpa using hv) he (by simp; omega)
  simpa [lexNumber] using this

theorem isStringBody_append (ys : List Nat) (hy : isStringBody ys = true) :
    ∀ xs : List Nat, isStringBody xs = true → isStringBody (xs ++ ys) = true := by
  intro xs
  induction xs using isStringBody.induct with
  | case1 => intro _; simpa using hy
  | case2 => intro h1; simp [isStringBody] at h1
  | case3 h1 h2 h3 h4 rest ih =>
    intro hx
    simp only [isStringBody, if_true, Bool.and_eq_true] at hx
    simp only [List.cons_append, isStringBody, if_true, Bool.and_eq_true]
    exact ⟨hx.1, ih hx.2⟩
  | case4 rest hshort =>
    intro hx
    simp only [isStringBody, if_true] at hx
    exact absurd hx (by simp)
  | case5 c rest hc ih =>
    intro hx
    rw [List.cons_append, List.cons_append]
    unfold isStringBody at hx ⊢
    simp only [hc, if_true, if_false, Bool.and_eq_true] at hx ⊢
    exact ⟨hx.1, ih hx.2⟩
  | case6 b rest hb ih =>
    intro hx
    rw [List.cons_append]
    unfold isStringBody at hx ⊢
    simp only [hb, if_false, Bool.and_eq_true] at hx ⊢
    exact ⟨hx.1, ih hx.2⟩

theorem isStringLexeme_quote (body : List Nat) (h : isStringBody body = true) :
    isStringLexeme ([34] ++ (body ++ [34])) = true := by
  simp [isStringLexeme, h]

theorem lexStringHex_spec :
    ∀ (i : Nat) (l : lexer) (pre cur rest : List Nat), View l pre cur rest →
      (∃ msg l1, lexStringHex i l = Sum.inl (none, l1) ∧
        l1.tokens = l.tokens ++ [⟨TokenIllegal, msg⟩]) ∨
      (∃ hs rest1 l1, lexStringHex i l = Sum.inr l1 ∧ rest = hs ++ rest1 ∧ hs.length = i ∧
        (∀ h ∈ hs, isHex h = true) ∧ View l1 pre (cur ++ hs) rest1 ∧ l1.tokens = l.tokens) := by
  intro i
  induction i with
  | zero =>
    intro l pre cur rest hv
    right
    exact ⟨[], rest, l, rfl, rfl, rfl, by simp, by simpa using hv, rfl⟩
  | succ i ih =>
    intro l pre cur rest hv
    cases rest with
    | nil =>
      left
      have hn := hv.next_nil
      have hx : (!isHex eof) = true := by decide
      have : lexStringHex (i + 1) l =
          Sum.inl (l.errorf (str "unterminated string literal " ++ l.input.drop l.start)) := by
        simp only [lexStringHex, hn, hx, if_true]
      exact ⟨_, _, this, rfl⟩
    | cons h r =>
      obtain ⟨l1, hn, hv1, ht⟩ := hv.next_cons
      by_cases hh : isHex h = true
      · have hstep : lexStringHex (i + 1) l = lexStringHex i l1 := by
          simp [lexStringHex, hn, hh]
        rw [hstep]
        rcases ih l1 pre (cur ++ [h]) r hv1 with ⟨msg, l2, h1, h2⟩ | ⟨hs, rest1, l2, h1, h2, h3, h4, h5, h6⟩
        · left
          exact ⟨msg, l2, h1, by rw [h2, ht]⟩
        · right
          refine ⟨h :: hs, rest1, l2, h1, by simp [h2], by simp [h3], ?_, by simpa using h5,
            h6.trans ht⟩
          intro a ha
          rcases List.mem_cons.mp ha with rfl | ha
          · exact hh
          · exact h4 a ha
      · left
        have hh2 : isHex h = false := by simpa using hh
        by_cases h0 : h = eof
        · have : lexStringHex (i + 1) l =
              Sum.inl (l1.errorf (str "unterminated string literal " ++ l1.input.drop l1.start)) := by
            simp only [lexStringHex, hn, hh2, Bool.not_false, if_true, if_pos h0]
          exact ⟨_, _, this, by rw [ht]⟩
        · have : lexStringHex (i + 1) l =
              Sum.inl (l1.errorf (str "unexpected non-hex character " ++ fmtC h)) := by
            simp only [lexStringHex, hn, hh2, Bool.not_false, if_true, if_neg h0]
          exact ⟨_, _, this, by rw [ht]⟩

theorem isStringBody_hex (hs : List Nat) (hlen : hs.length = 4) (hhex : ∀ h ∈ hs, isHex h = true) :
    isStringBody ([92, 117] ++ hs) = true := by
  match hs, hlen with
  | [a, b, c, d], _ =>
    simp only [List.cons_append, List.nil_append, isStringBody, if_true, Bool.and_eq_true,
      and_true]
    exact ⟨⟨⟨hhex a (by simp), hhex b (by simp)⟩, hhex c (by simp)⟩, hhex d (by simp)⟩

/-- The loop of `lexString` returns within the fuel `rest + 1`, and the text it sends is a
string literal. -/
theorem lexStringLoop_spec :
    ∀ (fuel : Nat) (l : lexer) (pre body rest : List Nat),
      View l pre ([34] ++ body) rest → isStringBody body = true → rest.length < fuel →
      ∃ r, lexStringLoop fuel l = some r ∧
        StepSpec stateFunc.lexString pre [34] (body ++ rest) l.tokens r := by
  intro fuel
  induction fuel with
  | zero => intro l pre body rest _ _ h; omega
  | succ fuel ih =>
    intro l pre body rest hv hbody hfuel
    cases rest with
    | nil =>
      have hn := hv.next_nil
      refine ⟨l.errorf (str "unterminated string literal " ++ l.input.drop l.start), ?_,
        errorf_spec rfl _ _ _ _ _⟩
      simp [lexStringLoop, hn, eof]
    | cons b r =>
      obtain ⟨l1, hn, hv1, ht⟩ := hv.next_cons
      simp only [List.length_cons] at hfuel
      simp only [lexStringLoop, hn]
      by_cases h92 : b = 92
      · simp only [if_pos h92]
        subst h92
        cases r with
        | nil =>
          have hn2 := hv1.next_nil
          refine ⟨l1.errorf (str "unexpected escape character " ++ fmtC eof), ?_,
            errorf_spec ht _ _ _ _ _⟩
          simp [hn2, eof]
        | cons n r2 =>
          obtain ⟨l2, hn2, hv2, ht2⟩ := hv1.next_cons
          simp only [List.length_cons] at hfuel
          simp only [hn2]
          by_cases hs : n = 34 ∨ n = 92 ∨ n = 98 ∨ n = 102 ∨ n = 110 ∨ n = 114 ∨ n = 116
          · simp only [if_pos hs]
            have hitem : isStringBody [92, n] = true := by
              rcases hs with h | h | h | h | h | h | h <;> subst h <;> decide
            obtain ⟨res, h1, h2⟩ := ih l2 pre (body ++ [92, n]) r2 (by simpa using hv2)
              (isStringBody_append _ hitem _ hbody) (by omega)
            exact ⟨res, h1, by rw [ht2, ht] at h2; simpa using h2⟩
          · simp only [if_neg hs]
            by_cases hu : n = 117
            · simp only [if_pos hu]
              subst hu
              rcases lexStringHex_spec 4 l2 pre _ r2 hv2 with
                ⟨msg, l3, h1, h2⟩ | ⟨hs4, rest1, l3, h1, h2, h3, h4, h5, h6⟩
              · rw [h1]
                refine ⟨_, rfl, ?_⟩
                right; right; right; right; right
                exact ⟨msg, rfl, by rw [h2, ht2, ht]⟩
              · rw [h1]
                simp only []
                have hlen : rest1.length ≤ r2.length := by rw [h2]; simp
                obtain ⟨res, h7, h8⟩ := ih l3 pre (body ++ ([92, 117] ++ hs4)) rest1
                  (by simpa using h5)
                  (isStringBody_append _ (isStringBody_hex hs4 h3 h4) _ hbody) (by omega)
                exact ⟨res, h7, by rw [h6, ht2, ht] at h8; simpa [h2] using h8⟩
            · simp only [if_neg hu]
              exact ⟨_, rfl, errorf_spec (ht2.trans ht) _ _ _ _ _⟩
      · simp only [if_neg h92]
        by_cases h34 : b = 34
        · simp only [if_pos h34]
          subst h34
          refine ⟨_, rfl, ?_⟩
          have := emit_spec stateFunc.lexString l1 pre [34] (body ++ [34]) r TokenString
            (by simpa using hv1) ht (by decide) (by simp)
            ⟨fun _ => isStringLexeme_quote body hbody, fun c hc => by cases hc⟩
          simpa using this
        · simp only [if_neg h34]
          by_cases h0 : b = eof
          · simp only [if_pos h0]
            exact ⟨_, rfl, errorf_spec ht _ _ _ _ _⟩
          · simp only [if_neg h0]
            have hitem : isStringBody [b] = true := by
              simp [isStringBody, h92, h34]
            obtain ⟨res, h1, h2⟩ := ih l1 pre (body ++ [b]) r (by simpa using hv1)
              (isStringBody_append _ hitem _ hbody) (by omega)
            exact ⟨res, h1, by rw [ht] at h2; simpa using h2⟩

theorem lexString_spec {l : lexer} {pre cur rest : List Nat} (hv : View l pre cur rest)
    (he : Entry stateFunc.lexString cur) :
    ∃ r, lexString l = some r ∧ StepSpec stateFunc.lexString pre cur rest l.tokens r := by
  have hlen : rest.length ≤ l.input.length := by rw [hv.1]; simp; omega
  have hc : cur = [34] := he
  subst hc
  have := lexStringLoop_spec (l.input.length + 1) l pre [] rest (by simpa using hv) rfl
    (by omega)
  simpa [lexString] using this

theorem call_spec (st : stateFunc) {l : lexer} {pre cur rest : List Nat}
    (hv : View l pre cur rest) (he : Entry st cur) :
    ∃ r, st.call l = some r ∧ StepSpec st pre cur rest l.tokens r := by
  cases st with
  | lex =>
    have hc : cur = [] := he
    subst hc
    exact ⟨_, rfl, lex_spec hv⟩
  | lexValue value token => exact ⟨_, rfl, lexValue_spec hv he⟩
  | lexNumber => exact lexNumber_spec hv he
  | lexString => exact lexString_spec hv he

theorem View.input_eq {l l1 : lexer} {pre cur rest pre1 cur1 rest1 : List Nat}
    (h : View l pre cur rest) (h1 : View l1 pre1 cur1 rest1)
    (he : pre1 ++ cur1 ++ rest1 = pre ++ cur ++ rest) : l1.input = l.input := by
  rw [h.1, h1.1, he]

/-- The loop of `run` returns with the fuel at hand, and what it sends from a state on is a
trace of the input that is left. -/
theorem runLoop_trace :
    ∀ (fuel : Nat) (st : stateFunc) (l : lexer) (pre cur rest : List Nat),
      View l pre cur rest → Entry st cur →
      2 * rest.length + (if st = stateFunc.lex then 1 else 2) ≤ fuel →
      ∃ l1 toks, runLoop fuel st l = some l1 ∧ l1.tokens = l.tokens ++ toks ∧
        TraceFrom st cur rest toks ∧
        (⟨TokenEof, []⟩ ∈ toks → l1.pos = l.input.length) := by
  intro fuel
  induction fuel with
  | zero => intro st l pre cur rest _ _ h; split_ifs at h <;> omega
  | succ fuel ih =>
    intro st l pre cur rest hv he hfuel
    obtain ⟨r, hcall, hspec⟩ := call_spec st hv he
    obtain ⟨st1, l1⟩ := r
    simp only [runLoop, hcall]
    rcases hspec with ⟨s, cur1, rest1, h1, h2, h3, h4, h5, h6, h7, h8⟩ |
      ⟨b, rest1, h1, h2, h3, h4, h5, h6⟩ |
      ⟨typ, x, rest1, h1, h2, h3, h4, h5, h6, h7⟩ |
      ⟨h1, h2, h3, h4, h5⟩ | ⟨rest1, h1, h2, h3, h4, h5⟩ | ⟨msg, h1, h2⟩
    · -- lex hands over to another state
      simp only at h1 h7 h8
      subst h1 h2 h6
      have hc : cur = [] := he
      subst hc
      simp only [if_true, List.length_append] at hfuel
      have hpos : 0 < cur1.length := List.length_pos.mpr h5
      obtain ⟨l2, toks, hr, ht, htr, hp⟩ := ih s l1 pre cur1 rest1 h7 h4
        (by rw [if_neg h3]; omega)
      have hin : l1.input = l.input := hv.input_eq h7 (by simp)
      refine ⟨l2, toks, hr, by rw [ht, h8], ?_, by rw [← hin]; exact hp⟩
      simp only [TraceFrom, if_neg h3] at htr
      simp only [TraceFrom, if_true]
      rcases htr with ⟨msg, rfl⟩ | ⟨typ, x, rest2, toks1, e1, e2, e3, e4, e5⟩
      · exact Trace.illegal _ _
      · subst e1 e2
        have := Trace.token typ (cur1 ++ x) rest2 toks1 e3 (by simp [h5]) e4 e5
        simpa using this
    · -- white space
      simp only at h1 h5 h6
      subst h1 h2 h4
      have hc : cur = [] := he
      subst hc
      simp only [if_true, List.length_cons] at hfuel
      obtain ⟨l2, toks, hr, ht, htr, hp⟩ := ih stateFunc.lex l1 (pre ++ [b]) [] rest1 h5 rfl
        (by simp; omega)
      have hin : l1.input = l.input := hv.input_eq h5 (by simp)
      refine ⟨l2, toks, hr, by rw [ht, h6], ?_, by rw [← hin]; exact hp⟩
      simp only [TraceFrom, if_true] at htr ⊢
      exact Trace.space b rest1 toks h3 htr
    · -- a data token
      simp only at h1 h6 h7
      subst h1 h4
      have hfuel1 : 2 * rest1.length + 1 ≤ fuel := by
        simp only [List.length_append] at hfuel
        by_cases hst : st = stateFunc.lex
        · subst hst
          have hc : cur = [] := he
          subst hc
          have hpos : 0 < x.length := List.length_pos.mpr (by simpa using h3)
          simp only [if_true] at hfuel
          omega
        · rw [if_neg hst] at hfuel
          omega
      obtain ⟨l2, toks, hr, ht, htr, hp⟩ := ih stateFunc.lex l1 (pre ++ (cur ++ x)) [] rest1 h6
        rfl (by simpa using hfuel1)
      have hin : l1.input = l.input := hv.input_eq h6 (by simp)
      refine ⟨l2, ⟨typ, cur ++ x⟩ :: toks, hr, by rw [ht, h7]; simp, ?_, ?_⟩
      · simp only [TraceFrom, if_true] at htr
        by_cases hst : st = stateFunc.lex
        · subst hst
          have hc : cur = [] := he
          subst hc
          simp only [TraceFrom, if_true]
          have := Trace.token typ x rest1 toks h2 (by simpa using h3) (by simpa using h5) htr
          simpa using this
        · simp only [TraceFrom, if_neg hst]
          right
          exact ⟨typ, x, rest1, toks, rfl, rfl, h2, h5, htr⟩
      · intro hmem
        rw [← hin]
        apply hp
        rcases List.mem_cons.mp hmem with h | h
        · exfalso
          have : typ = TokenEof := by
            have := congrArg Token.Typ h
            simpa using this.symm
          subst this
          simp [TokenType.isData] at h2
        · exact h
    · -- end of input
      simp only at h1 h4 h5
      subst h1 h2 h3
      have hc : cur = [] := he
      subst hc
      refine ⟨l1, [⟨TokenEof, []⟩], rfl, h5, ?_, ?_⟩
      · simp only [TraceFrom, if_true]; exact Trace.eof
      · intro _
        rw [hv.1, h4.2.2]; simp
    · -- a zero byte
      simp only at h1 h4 h5
      subst h1 h2 h3
      refine ⟨l1, [⟨TokenEof, [0]⟩], rfl, h5, ?_, ?_⟩
      · simp only [TraceFrom, if_true]; exact Trace.zero _
      · intro h; simp at h
    · -- an error
      simp only at h1 h2
      subst h1
      refine ⟨l1, [⟨TokenIllegal, msg⟩], rfl, h2, ?_, ?_⟩
      · simp only [TraceFrom]
        split_ifs
        · exact Trace.illegal _ _
        · left; exact ⟨msg, rfl⟩
      · intro h; simp at h

theorem run_trace (input : List Nat) :
    ∃ l1 toks, (newLexer input).run = some l1 ∧ l1.tokens = toks ∧ Trace input toks ∧
      (⟨TokenEof, []⟩ ∈ toks → l1.pos = input.length) := by
  have hv : View (newLexer input) [] [] input := ⟨by simp [newLexer], rfl, rfl⟩
  obtain ⟨l1, toks, h1, h2, h3, h4⟩ :=
    runLoop_trace (2 * input.length + 2) stateFunc.lex (newLexer input) [] [] input hv rfl
      (by simp)
  refine ⟨l1, toks, h1, by simpa [newLexer] using h2, by simpa [TraceFrom] using h3, ?_⟩
  simpa [newLexer] using h4

/-- Lex returns on every input, and its tokens form a trace of the input. -/
theorem Lex_trace (input : List Nat) : ∃ toks, Lex input = some toks ∧ Trace input toks := by
  obtain ⟨l1, toks, h1, h2, h3, _⟩ := run_trace input
  exact ⟨toks, by simp [Lex, h1, h2], h3⟩

theorem parser.Within.addErr {p : parser} {toks : List Token} (h : p.Within toks)
    (e : List Nat) : (p.addErr e).Within toks := by
  unfold parser.addErr
  split_ifs
  · exact h
  · exact h

theorem parser.Within.next {p : parser} {toks : List Token} (h : p.Within toks) :
    p.next.Within toks := by
  have hr : p.recv.Within toks := by
    unfold parser.recv
    cases htk : p.tokens with
    | nil =>
      intro t ht
      simp only [List.mem_cons] at ht
      rcases ht with rfl | ht
      · exact Or.inl rfl
      · exact absurd ht (List.not_mem_nil _)
    | cons a rest =>
      intro t ht
      exact h t (by rw [htk]; exact List.mem_cons_of_mem _ ht)
  unfold parser.next
  simp only []
  split_ifs
  · exact hr.addErr _
  · exact hr

theorem parser.Within.expect {p : parser} {toks : List Token} (h : p.Within toks)
    (token : TokenType) : (p.expect token).Within toks := by
  unfold parser.expect
  split_ifs
  · exact h.addErr _
  · exact (h.addErr _).next
  · exact h.next

theorem parser.Within.parseLiteral {p : parser} {toks : List Token} (h : p.Within toks) :
    p.parseLiteral.2.Within toks := by
  unfold parser.parseLiteral
  split_ifs
  · exact h
  · exact h.next

/-- The parser never holds a token that the channel did not deliver. -/
theorem parse_within (toks : List Token) : ∀ fuel : Nat,
    (∀ p r, p.Within toks → parseValue fuel p = some r → r.2.Within toks) ∧
    (∀ p r, p.Within toks → parseObject fuel p = some r → r.2.Within toks) ∧
    (∀ acc p r, p.Within toks → parseObjectLoop fuel acc p = some r → r.2.Within toks) ∧
    (∀ p r, p.Within toks → parseArray fuel p = some r → r.2.Within toks) ∧
    (∀ acc p r, p.Within toks → parseArrayLoop fuel acc p = some r → r.2.Within toks) := by
  intro fuel
  induction fuel with
  | zero =>
    refine ⟨?_, ?_, ?_, ?_, ?_⟩ <;> intros <;> simp_all [parseValue, parseObject, parseObjectLoop, parseArray, parseArrayLoop]
  | succ fuel ih =>
    obtain ⟨ihV, ihO, ihOL, ihA, ihAL⟩ := ih
    refine ⟨?_, ?_, ?_, ?_, ?_⟩
    · intro p r hp h
      unfold parseValue at h
      split_ifs at h with herr
      · cases h; exact hp
      · split at h
        · cases ho : parseObject fuel p with
          | none => simp [ho] at h
          | some ro =>
            simp only [ho] at h
            cases h
            exact ihO p ro hp ho
        · cases ha : parseArray fuel p with
          | none => simp [ha] at h
          | some ra =>
            simp only [ha] at h
            cases h
            exact ihA p ra hp ha
        all_goals
          first
          | (cases h; exact hp.parseLiteral)
          | (cases h; exact hp.addErr _)
    · intro p r hp h
      unfold parseObject at h
      dsimp only at h
      split_ifs at h with herr hcur
      · cases h; exact hp
      · exact ihOL _ _ _ (hp.expect _) h
      · cases h; exact hp.expect _
    · intro acc p r hp h
      unfold parseObjectLoop at h
      have hl := hp.parseLiteral
      rcases hlit : p.parseLiteral with ⟨lit, p1⟩
      rw [hlit] at h hl
      simp only at hl
      cases lit with
      | none => simp only at h; cases h; exact hl
      | some kv =>
        obtain ⟨value, typ⟩ := kv
        simp only at h
        split_ifs at h with hty
        · cases hv : parseValue fuel (p1.expect TokenColon) with
          | none => simp [hv] at h
          | some rv =>
            obtain ⟨v, p2⟩ := rv
            have h2 := ihV _ _ (hl.expect TokenColon) hv
            simp only at h2
            simp only [hv] at h
            cases v with
            | none => simp only at h; cases h; exact h2
            | some v =>
              simp only at h
              split_ifs at h with hc
              · cases h; exact h2.next
              · exact ihOL _ _ _ (h2.expect _) h
        · cases h; exact hl.addErr _
    · intro p r hp h
      unfold parseArray at h
      dsimp only at h
      split_ifs at h with herr hcur
      · cases h; exact hp
      · exact ihAL _ _ _ (hp.expect _) h
      · cases h; exact hp.expect _
    · intro acc p r hp h
      unfold parseArrayLoop at h
      cases hv : parseValue fuel p with
      | none => simp [hv] at h
      | some rv =>
        obtain ⟨v, p2⟩ := rv
        have h2 := ihV _ _ hp hv
        simp only at h2
        simp only [hv] at h
        cases v with
        | none => simp only at h; cases h; exact h2
        | some v =>
          simp only at h
          split_ifs at h with hc
          · cases h; exact h2.next
          · exact ihAL _ _ _ (h2.expect _) h

theorem parser.weight_addErr (p : parser) (e : List Nat) : (p.addErr e).weight = 0 := by
  unfold parser.addErr parser.weight
  split_ifs <;> simp_all

theorem parser.weight_pos {p : parser} (h : p.err = none) : 3 ≤ p.weight := by
  unfold parser.weight
  rw [if_pos h]; omega

theorem parser.weight_zero {p : parser} (h : p.err ≠ none) : p.weight = 0 := by
  unfold parser.weight
  rw [if_neg h]

theorem parser.weight_next (p : parser) : p.next.weight ≤ p.weight - 3 := by
  unfold parser.next parser.recv
  cases h : p.tokens with
  | nil =>
    have : (⟨TokenIllegal, []⟩ : Token).Typ = TokenIllegal := rfl
    simp only [this, if_true, parser.weight_addErr]
    omega
  | cons t ts =>
    simp only []
    split_ifs
    · rw [parser.weight_addErr]; omega
    · unfold parser.weight
      simp only [h]
      split_ifs
      · simp; omega
      · simp

theorem parser.weight_expect (p : parser) (token : TokenType) :
    (p.expect token).weight ≤ p.weight - 3 := by
  unfold parser.expect
  split_ifs
  · rw [parser.weight_addErr]; omega
  · have := (p.addErr (str "expected " ++ token.String ++ str " but found "
      ++ p.cur.Typ.String)).weight_next
    rw [parser.weight_addErr] at this
    simp only []
    omega
  · exact p.weight_next

theorem parser.weight_parseLiteral (p : parser) : p.parseLiteral.2.weight ≤ p.weight - 3 := by
  unfold parser.parseLiteral
  split_ifs with h
  · simp only []; rw [parser.weight_zero h]
  · exact p.weight_next

/-- The five parsing functions return when the fuel covers the weight of the state. -/
theorem parse_total : ∀ fuel : Nat,
    (∀ p, p.weight + 2 ≤ fuel → ∃ r, parseValue fuel p = some r ∧ r.2.weight ≤ p.weight ∧
      (r.1 ≠ none → r.2.weight + 3 ≤ p.weight)) ∧
    (∀ p, p.weight + 1 ≤ fuel → ∃ r, parseObject fuel p = some r ∧ r.2.weight ≤ p.weight ∧
      (p.err = none → r.2.weight + 3 ≤ p.weight)) ∧
    (∀ acc p, p.weight + 3 ≤ fuel → ∃ r, parseObjectLoop fuel acc p = some r ∧
      r.2.weight ≤ p.weight) ∧
    (∀ p, p.weight + 1 ≤ fuel → ∃ r, parseArray fuel p = some r ∧ r.2.weight ≤ p.weight ∧
      (p.err = none → r.2.weight + 3 ≤ p.weight)) ∧
    (∀ acc p, p.weight + 3 ≤ fuel → ∃ r, parseArrayLoop fuel acc p = some r ∧
      r.2.weight ≤ p.weight) := by
  intro fuel
  induction fuel with
  | zero => refine ⟨?_, ?_, ?_, ?_, ?_⟩ <;> intros <;> omega
  | succ fuel ih =>
    obtain ⟨ihV, ihO, ihOL, ihA, ihAL⟩ := ih
    refine ⟨?_, ?_, ?_, ?_, ?_⟩
    · intro p hf
      unfold parseValue
      by_cases herr : p.err ≠ none
      · rw [if_pos herr]
        exact ⟨_, rfl, le_refl _, fun h => absurd rfl h⟩
      · rw [if_neg herr]
        have hpos := parser.weight_pos (not_not.mp herr)
        split
        · obtain ⟨r, h1, h2, h3⟩ := ihO p (by omega)
          rw [h1]
          exact ⟨_, rfl, h2, fun _ => h3 (not_not.mp herr)⟩
        · obtain ⟨r, h1, h2, h3⟩ := ihA p (by omega)
          rw [h1]
          exact ⟨_, rfl, h2, fun _ => h3 (not_not.mp herr)⟩
        all_goals
          first
          | (have hw := p.weight_next
             have hl : p.parseLiteral = (some (p.cur.Value, p.cur.Typ), p.next) := by
               simp only [parser.parseLiteral, if_neg herr]
             rw [hl]
             exact ⟨_, rfl, by simp only []; omega, fun _ => by simp only []; omega⟩)
          | exact ⟨_, rfl, by simp only [parser.weight_addErr]; omega, fun h => absurd rfl h⟩
    · intro p hf
      unfold parseObject
      by_cases herr : p.err ≠ none
      · rw [if_pos herr]
        exact ⟨_, rfl, le_refl _, fun h => absurd h herr⟩
      · rw [if_neg herr]
        have hpos := parser.weight_pos (not_not.mp herr)
        have hw := p.weight_expect TokenLbrace
        dsimp only
        split_ifs
        · obtain ⟨r, h1, h2⟩ := ihOL [] (p.expect TokenLbrace) (by omega)
          exact ⟨r, h1, by omega, fun _ => by omega⟩
        · exact ⟨_, rfl, by simp only []; omega, fun _ => by simp only []; omega⟩
    · intro acc p hf
      unfold parseObjectLoop
      have hw := p.weight_parseLiteral
      rcases hlit : p.parseLiteral with ⟨lit, p1⟩
      rw [hlit] at hw
      simp only at hw
      cases lit with
      | none => exact ⟨_, rfl, by simp only []; omega⟩
      | some kv =>
        obtain ⟨value, typ⟩ := kv
        simp only
        split_ifs with hty
        · have hw2 := p1.weight_expect TokenColon
          obtain ⟨rv, h1, h2, h3⟩ := ihV (p1.expect TokenColon) (by omega)
          obtain ⟨v, p2⟩ := rv
          rw [h1]
          simp only at h2 h3
          cases v with
          | none => exact ⟨_, rfl, by simp only []; omega⟩
          | some v =>
            have h3 := h3 (by simp)
            simp only
            split_ifs with hc
            · have := p2.weight_next
              exact ⟨_, rfl, by simp only []; omega⟩
            · have := p2.weight_expect TokenComma
              obtain ⟨r, h4, h5⟩ := ihOL (acc ++ [(value, v)]) (p2.expect TokenComma) (by omega)
              exact ⟨r, h4, by omega⟩
        · exact ⟨_, rfl, by simp only [parser.weight_addErr]; omega⟩
    · intro p hf
      unfold parseArray
      by_cases herr : p.err ≠ none
      · rw [if_pos herr]
        exact ⟨_, rfl, le_refl _, fun h => absurd h herr⟩
      · rw [if_neg herr]
        have hpos := parser.weight_pos (not_not.mp herr)
        have hw := p.weight_expect TokenLbrack
        dsimp only
        split_ifs
        · obtain ⟨r, h1, h2⟩ := ihAL [] (p.expect TokenLbrack) (by omega)
          exact ⟨r, h1, by omega, fun _ => by omega⟩
        · exact ⟨_, rfl, by simp only []; omega, fun _ => by simp only []; omega⟩
    · intro acc p hf
      unfold parseArrayLoop
      obtain ⟨rv, h1, h2, h3⟩ := ihV p (by omega)
      obtain ⟨v, p2⟩ := rv
      rw [h1]
      simp only at h2 h3
      cases v with
      | none => exact ⟨_, rfl, by simp only []; omega⟩
      | some v =>
        have h3 := h3 (by simp)
        simp only
        split_ifs with hc
        · have := p2.weight_next
          exact ⟨_, rfl, by simp only []; omega⟩
        · have := p2.weight_expect TokenComma
          obtain ⟨r, h4, h5⟩ := ihAL (acc ++ [v]) (p2.expect TokenComma) (by omega)
          exact ⟨r, h4, by omega⟩

theorem Token.canonical.eq {t : Token} (h : t.canonical) {typ : TokenType} {c : Nat}
    (ht : t.Typ = typ) (hc : punctByte typ = some c) : t = ⟨typ, [c]⟩ := by
  have := h c (by rw [ht]; exact hc)
  cases t
  simp_all

theorem zeroToken_canonical : zeroToken.canonical := by
  intro c h
  simp [zeroToken, punctByte] at h

theorem parser.Canon.of_within {p q : parser} (hq : q.Canon)
    (h : p.Within (q.cur :: q.tokens)) : p.Canon := by
  intro t ht
  rcases h t ht with rfl | h1
  · exact zeroToken_canonical
  · exact hq t h1

theorem parser.within_self (p : parser) : p.Within (p.cur :: p.tokens) :=
  fun _ ht => Or.inr ht

theorem parser.addErr_err (p : parser) (e : List Nat) : (p.addErr e).err ≠ none := by
  unfold parser.addErr
  split_ifs with h
  · simp
  · exact h

theorem parser.next_ok {p : parser} (h : p.next.err = none) :
    p.err = none ∧ p.tokens = p.next.cur :: p.next.tokens := by
  unfold parser.next parser.recv at h ⊢
  cases htk : p.tokens with
  | nil =>
    rw [htk] at h
    simp only [if_true] at h
    exact absurd h (parser.addErr_err _ _)
  | cons t ts =>
    rw [htk] at h
    simp only [] at h ⊢
    split_ifs at h ⊢ with h1
    · exact absurd h (parser.addErr_err _ _)
    · exact ⟨h, rfl⟩

theorem parser.expect_ok {p : parser} {token : TokenType} (h : (p.expect token).err = none) :
    p.err = none ∧ p.cur.Typ = token ∧
      p.tokens = (p.expect token).cur :: (p.expect token).tokens := by
  unfold parser.expect at h ⊢
  split_ifs at h ⊢ with h1 h2
  · exact absurd h (parser.addErr_err _ _)
  · have := (parser.next_ok h).1
    exact absurd this (parser.addErr_err _ _)
  · have := parser.next_ok h
    exact ⟨this.1, not_not.mp h2, this.2⟩

/-- When a parsing function ends without an error, it returns a tree without nil pointers,
the tokens it has taken are in front of those it leaves, and they spell the tree when no
collection of the tree is empty. -/
theorem parse_sound : ∀ fuel : Nat,
    (∀ p r, p.Canon → parseValue fuel p = some r → r.2.err = none →
      p.err = none ∧ ∃ v read, r.1 = some v ∧ v.noNil = true ∧
        p.cur :: p.tokens = read ++ r.2.cur :: r.2.tokens ∧
        (v.noEmpty = true → read = v.spell)) ∧
    (∀ p r, p.Canon → parseObject fuel p = some r → r.2.err = none →
      p.err = none ∧ ∃ els read, r.1 = some els ∧ elementsNoNil els = true ∧
        p.cur :: p.tokens = read ++ r.2.cur :: r.2.tokens ∧
        ((Value.Object els).noEmpty = true → read = (Value.Object els).spell)) ∧
    (∀ acc p r, p.Canon → parseObjectLoop fuel acc p = some r → r.2.err = none →
      p.err = none ∧ ∃ new read, r.1 = some (acc ++ new) ∧ new ≠ [] ∧
        elementsNoNil new = true ∧
        p.cur :: p.tokens = read ++ ⟨TokenRbrace, [125]⟩ :: r.2.cur :: r.2.tokens ∧
        (elementsNoEmpty new = true → read = spellElements new)) ∧
    (∀ p r, p.Canon → parseArray fuel p = some r → r.2.err = none →
      p.err = none ∧ ∃ vs read, r.1 = some vs ∧ valuesNoNil vs = true ∧
        p.cur :: p.tokens = read ++ r.2.cur :: r.2.tokens ∧
        ((Value.Array vs).noEmpty = true → read = (Value.Array vs).spell)) ∧
    (∀ acc p r, p.Canon → parseArrayLoop fuel acc p = some r → r.2.err = none →
      p.err = none ∧ ∃ new read, r.1 = some (acc ++ new) ∧ new ≠ [] ∧
        valuesNoNil new = true ∧
        p.cur :: p.tokens = read ++ ⟨TokenRbrack, [93]⟩ :: r.2.cur :: r.2.tokens ∧
        (valuesNoEmpty new = true → read = spellValues new)) := by
  intro fuel
  induction fuel with
  | zero =>
    refine ⟨?_, ?_, ?_, ?_, ?_⟩ <;> intros <;>
      simp_all [parseValue, parseObject, parseObjectLoop, parseArray, parseArrayLoop]
  | succ fuel ih =>
    obtain ⟨ihV, ihO, ihOL, ihA, ihAL⟩ := ih
    refine ⟨?_, ?_, ?_, ?_, ?_⟩
    · -- parseValue
      intro p r hc h hr
      unfold parseValue at h
      split_ifs at h with herr
      · cases h; exact absurd hr herr
      · refine ⟨not_not.mp herr, ?_⟩
        split at h
        · cases ho : parseObject fuel p with
          | none => simp [ho] at h
          | some ro =>
            simp only [ho] at h
            cases h
            obtain ⟨_, els, read, h1, h2, h3, h4⟩ := ihO p ro hc ho hr
            exact ⟨Value.Object els, read, by simp [h1, Value.ofObject],
              by simpa [Value.noNil] using h2, h3, h4⟩
        · cases ha : parseArray fuel p with
          | none => simp [ha] at h
          | some ra =>
            simp only [ha] at h
            cases h
            obtain ⟨_, vs, read, h1, h2, h3, h4⟩ := ihA p ra hc ha hr
            exact ⟨Value.Array vs, read, by simp [h1, Value.ofArray],
              by simpa [Value.noNil] using h2, h3, h4⟩
        all_goals
          first
          | (have hl : p.parseLiteral = (some (p.cur.Value, p.cur.Typ), p.next) := by
               simp only [parser.parseLiteral, if_neg herr]
             rw [hl] at h
             cases h
             have hn := parser.next_ok hr
             exact ⟨Value.Literal p.cur.Value p.cur.Typ, [p.cur], rfl, rfl,
               by rw [hn.2]; rfl, fun _ => rfl⟩)
          | (cases h; exact absurd hr (parser.addErr_err _ _))
    · -- parseObject
      intro p r hc h hr
      unfold parseObject at h
      dsimp only at h
      split_ifs at h with herr hcur
      · cases h; exact absurd hr herr
      · have hc1 : (p.expect TokenLbrace).Canon := hc.of_within (p.within_self.expect _)
        obtain ⟨h0, new, read, h1, h2, h3, h4, h5⟩ := ihOL [] _ r hc1 h hr
        obtain ⟨e1, e2, e3⟩ := parser.expect_ok h0
        have hcur0 : p.cur = ⟨TokenLbrace, [123]⟩ :=
          (hc p.cur (List.mem_cons_self _ _)).eq e2 rfl
        refine ⟨e1, new, ⟨TokenLbrace, [123]⟩ :: read ++ [⟨TokenRbrace, [125]⟩],
          by simpa using h1, h3, by rw [hcur0, e3, h4]; simp, ?_⟩
        intro hne
        simp only [Value.noEmpty, Bool.and_eq_true] at hne
        rw [h5 hne.2]
        simp [Value.spell]
      · cases h
        obtain ⟨e1, e2, e3⟩ := parser.expect_ok hr
        have hcur0 : p.cur = ⟨TokenLbrace, [123]⟩ :=
          (hc p.cur (List.mem_cons_self _ _)).eq e2 rfl
        refine ⟨e1, [], [⟨TokenLbrace, [123]⟩], rfl, rfl, by rw [hcur0, e3]; rfl, ?_⟩
        intro hne
        simp [Value.noEmpty] at hne
    · -- parseObjectLoop
      intro acc p r hc h hr
      unfold parseObjectLoop at h
      by_cases herr : p.err ≠ none
      · have hl : p.parseLiteral = (none, p) := by
          simp only [parser.parseLiteral, if_pos herr]
        rw [hl] at h
        cases h
        exact absurd hr herr
      · have hl : p.parseLiteral = (some (p.cur.Value, p.cur.Typ), p.next) := by
          simp only [parser.parseLiteral, if_neg herr]
        rw [hl] at h
        simp only at h
        have hw1 : p.next.Within (p.cur :: p.tokens) := p.within_self.next
        split_ifs at h with hty
        · have hw2 := hw1.expect TokenColon
          cases hv : parseValue fuel (p.next.expect TokenColon) with
          | none => simp [hv] at h
          | some rv =>
            obtain ⟨v, p3⟩ := rv
            have hw3 : p3.Within (p.cur :: p.tokens) := (parse_within _ fuel).1 _ _ hw2 hv
            simp only [hv] at h
            have key : p3.err = none → p.err = none ∧ ∃ v1 readv, v = some v1 ∧
                v1.noNil = true ∧ p3.Canon ∧
                p.cur :: p.tokens = ⟨TokenString, p.cur.Value⟩ :: ⟨TokenColon, [58]⟩ :: readv ++
                  p3.cur :: p3.tokens ∧
                (v1.noEmpty = true → readv = v1.spell) := by
              intro h3
              obtain ⟨e0, v1, readv, e1, e2, e3, e4⟩ := ihV _ _ (hc.of_within hw2) hv h3
              obtain ⟨f1, f2, f3⟩ := parser.expect_ok e0
              obtain ⟨g1, g2⟩ := parser.next_ok f1
              have hcol : p.next.cur = ⟨TokenColon, [58]⟩ :=
                ((hc.of_within hw1) _ (List.mem_cons_self _ _)).eq f2 rfl
              have hkey : p.cur = ⟨TokenString, p.cur.Value⟩ := by
                rw [← hty]
              refine ⟨g1, v1, readv, e1, e2, hc.of_within hw3, ?_, e4⟩
              simp only at e3
              rw [g2, hcol, f3, e3]
              rw [List.cons_append, List.cons_append]
              exact congrArg (· :: _) hkey
            cases v with
            | none =>
              simp only at h
              cases h
              obtain ⟨_, v1, _, e1, _⟩ := key hr
              cases e1
            | some v =>
              simp only at h
              split_ifs at h with hcl
              · cases h
                obtain ⟨n1, n2⟩ := parser.next_ok hr
                obtain ⟨e0, v1, readv, e1, e2, e3, e4, e5⟩ := key n1
                cases e1
                have hrb : p3.cur = ⟨TokenRbrace, [125]⟩ :=
                  (e3 _ (List.mem_cons_self _ _)).eq hcl rfl
                refine ⟨e0, [(p.cur.Value, v)],
                  ⟨TokenString, p.cur.Value⟩ :: ⟨TokenColon, [58]⟩ :: readv, rfl, by simp,
                  by simp [elementsNoNil, e2], ?_, ?_⟩
                · rw [e4, hrb, n2]
                · intro hne
                  simp only [elementsNoEmpty, Bool.and_true] at hne
                  rw [e5 hne]
                  simp [spellElements]
              · have hw4 : (p3.expect TokenComma).Within (p.cur :: p.tokens) := hw3.expect _
                obtain ⟨k0, new, read, k1, k2, k3, k4, k5⟩ :=
                  ihOL _ _ r (hc.of_within hw4) h hr
                obtain ⟨m1, m2, m3⟩ := parser.expect_ok k0
                obtain ⟨e0, v1, readv, e1, e2, e3, e4, e5⟩ := key m1
                cases e1
                have hcm : p3.cur = ⟨TokenComma, [44]⟩ :=
                  (e3 _ (List.mem_cons_self _ _)).eq m2 rfl
                refine ⟨e0, (p.cur.Value, v) :: new,
                  ⟨TokenString, p.cur.Value⟩ :: ⟨TokenColon, [58]⟩ :: readv ++
                    ⟨TokenComma, [44]⟩ :: read, by simpa using k1, by simp,
                  by simp [elementsNoNil, e2, k3], ?_, ?_⟩
                · rw [e4, hcm, m3, k4]; simp
                · intro hne
                  simp only [elementsNoEmpty, Bool.and_eq_true] at hne
                  rw [e5 hne.1, k5 hne.2]
                  cases new with
                  | nil => exact absurd rfl k2
                  | cons a rest => simp [spellElements]
        · cases h
          exact absurd hr (parser.addErr_err _ _)
    · -- parseArray
      intro p r hc h hr
      unfold parseArray at h
      dsimp only at h
      split_ifs at h with herr hcur
      · cases h; exact absurd hr herr
      · have hc1 : (p.expect TokenLbrack).Canon := hc.of_within (p.within_self.expect _)
        obtain ⟨h0, new, read, h1, h2, h3, h4, h5⟩ := ihAL [] _ r hc1 h hr
        obtain ⟨e1, e2, e3⟩ := parser.expect_ok h0
        have hcur0 : p.cur = ⟨TokenLbrack, [91]⟩ :=
          (hc p.cur (List.mem_cons_self _ _)).eq e2 rfl
        refine ⟨e1, new, ⟨TokenLbrack, [91]⟩ :: read ++ [⟨TokenRbrack, [93]⟩],
          by simpa using h1, h3, by rw [hcur0, e3, h4]; simp, ?_⟩
        intro hne
        simp only [Value.noEmpty, Bool.and_eq_true] at hne
        rw [h5 hne.2]
        simp [Value.spell]
      · cases h
        obtain ⟨e1, e2, e3⟩ := parser.expect_ok hr
        have hcur0 : p.cur = ⟨TokenLbrack, [91]⟩ :=
          (hc p.cur (List.mem_cons_self _ _)).eq e2 rfl
        refine ⟨e1, [], [⟨TokenLbrack, [91]⟩], rfl, rfl, by rw [hcur0, e3]; rfl, ?_⟩
        intro hne
        simp [Value.noEmpty] at hne
    · -- parseArrayLoop
      intro acc p r hc h hr
      unfold parseArrayLoop at h
      cases hv : parseValue fuel p with
      | none => simp [hv] at h
      | some rv =>
        obtain ⟨v, p3⟩ := rv
        have hw3 : p3.Within (p.cur :: p.tokens) := (parse_within _ fuel).1 _ _ p.within_self hv
        simp only [hv] at h
        have key : p3.err = none → p.err = none ∧ ∃ v1 readv, v = some v1 ∧
            v1.noNil = true ∧ p3.Canon ∧
            p.cur :: p.tokens = readv ++ p3.cur :: p3.tokens ∧
            (v1.noEmpty = true → readv = v1.spell) := by
          intro h3
          obtain ⟨e0, v1, readv, e1, e2, e3, e4⟩ := ihV _ _ hc hv h3
          exact ⟨e0, v1, readv, e1, e2, hc.of_within hw3, e3, e4⟩
        cases v with
        | none =>
          simp only at h
          cases h
          obtain ⟨_, v1, _, e1, _⟩ := key hr
          cases e1
        | some v =>
          simp only at h
          split_ifs at h with hcl
          · cases h
            obtain ⟨n1, n2⟩ := parser.next_ok hr
            obtain ⟨e0, v1, readv, e1, e2, e3, e4, e5⟩ := key n1
            cases e1
            have hrb : p3.cur = ⟨TokenRbrack, [93]⟩ :=
              (e3 _ (List.mem_cons_self _ _)).eq hcl rfl
            refine ⟨e0, [v], readv, rfl, by simp, by simp [valuesNoNil, e2], ?_, ?_⟩
            · rw [e4, hrb, n2]
            · intro hne
              simp only [valuesNoEmpty, Bool.and_true] at hne
              rw [e5 hne]
              simp [spellValues]
          · have hw4 : (p3.expect TokenComma).Within (p.cur :: p.tokens) := hw3.expect _
            obtain ⟨k0, new, read, k1, k2, k3, k4, k5⟩ := ihAL _ _ r (hc.of_within hw4) h hr
            obtain ⟨m1, m2, m3⟩ := parser.expect_ok k0
            obtain ⟨e0, v1, readv, e1, e2, e3, e4, e5⟩ := key m1
            cases e1
            have hcm : p3.cur = ⟨TokenComma, [44]⟩ :=
              (e3 _ (List.mem_cons_self _ _)).eq m2 rfl
            refine ⟨e0, v :: new, readv ++ ⟨TokenComma, [44]⟩ :: read, by simpa using k1,
              by simp, by simp [valuesNoNil, e2, k3], ?_, ?_⟩
            · rw [e4, hcm, m3, k4]; simp
            · intro hne
              simp only [valuesNoEmpty, Bool.and_eq_true] at hne
              rw [e5 hne.1, k5 hne.2]
              cases new with
              | nil => exact absurd rfl k2
              | cons a rest => simp [spellValues]

theorem Trace.ne_nil {rest : List Nat} {toks : List Token} (h : Trace rest toks) : toks ≠ [] := by
  induction h with
  | eof => simp
  | zero => simp
  | illegal => simp
  | space _ _ _ _ _ ih => exact ih
  | token => simp

theorem Trace.shape {rest : List Nat} {toks : List Token} (h : Trace rest toks) :
    ∃ init last, toks = init ++ [last] ∧
      (∀ t ∈ init, t.Typ ≠ TokenIllegal ∧ t.Typ ≠ TokenEof) ∧
      (last.Typ = TokenEof ∨ last.Typ = TokenIllegal) := by
  induction h with
  | eof => exact ⟨[], _, rfl, by simp, Or.inl rfl⟩
  | zero => exact ⟨[], _, rfl, by simp, Or.inl rfl⟩
  | illegal => exact ⟨[], _, rfl, by simp, Or.inr rfl⟩
  | space _ _ _ _ _ ih => exact ih
  | token typ text rest toks hd _ _ _ ih =>
    obtain ⟨init, last, h1, h2, h3⟩ := ih
    refine ⟨⟨typ, text⟩ :: init, last, by rw [h1]; rfl, ?_, h3⟩
    intro t ht
    rcases List.mem_cons.mp ht with rfl | ht
    · simpa [TokenType.isData] using hd
    · exact h2 t ht

theorem Trace.canonical {rest : List Nat} {toks : List Token} (h : Trace rest toks) :
    ∀ t ∈ toks, t.canonical := by
  induction h with
  | eof => intro t ht; simp at ht; subst ht; intro c hc; cases hc
  | zero => intro t ht; simp at ht; subst ht; intro c hc; cases hc
  | illegal => intro t ht; simp at ht; subst ht; intro c hc; cases hc
  | space _ _ _ _ _ ih => exact ih
  | token typ text rest toks _ _ hg _ ih =>
    intro t ht
    rcases List.mem_cons.mp ht with rfl | ht
    · exact hg.2
    · exact ih t ht

theorem Trace.string {rest : List Nat} {toks : List Token} (h : Trace rest toks) :
    ∀ t ∈ toks, t.Typ = TokenString → isStringLexeme t.Value = true ∧ t.Value <:+: rest := by
  induction h with
  | eof => intro t ht h1; simp at ht; subst ht; cases h1
  | zero => intro t ht h1; simp at ht; subst ht; cases h1
  | illegal => intro t ht h1; simp at ht; subst ht; cases h1
  | space b rest toks _ _ ih =>
    intro t ht h1
    obtain ⟨h2, h3⟩ := ih t ht h1
    exact ⟨h2, h3.trans (List.suffix_cons b rest).isInfix⟩
  | token typ text rest toks _ _ hg _ ih =>
    intro t ht h1
    rcases List.mem_cons.mp ht with rfl | ht
    · exact ⟨hg.1 h1, (List.prefix_append _ _).isInfix⟩
    · obtain ⟨h2, h3⟩ := ih t ht h1
      exact ⟨h2, h3.trans (List.suffix_append _ _).isInfix⟩

theorem Trace.eof_text {rest : List Nat} {toks : List Token} (h : Trace rest toks)
    (hz : ∀ b ∈ rest, b ≠ 0) : ∀ t ∈ toks, t.Typ = TokenEof → t.Value = [] := by
  induction h with
  | eof => intro t ht _; simp at ht; subst ht; rfl
  | zero rest => exact absurd rfl (hz 0 (List.mem_cons_self _ _))
  | illegal => intro t ht h1; simp at ht; subst ht; cases h1
  | space b rest toks _ _ ih => exact ih (fun b hb => hz b (List.mem_cons_of_mem _ hb))
  | token typ text rest toks hd _ _ _ ih =>
    intro t ht h1
    rcases List.mem_cons.mp ht with rfl | ht
    · simp only at h1; subst h1; simp [TokenType.isData] at hd
    · exact ih (fun b hb => hz b (List.mem_append_right _ hb)) t ht h1

theorem Trace.reconstructs {rest : List Nat} {toks : List Token} (h : Trace rest toks)
    (hz : ∀ b ∈ rest, b ≠ 0) (hlast : ∃ v, toks.getLast? = some ⟨TokenEof, v⟩) :
    Reconstructs rest toks := by
  induction h with
  | eof => exact ⟨[[]], rfl, by simp, by simp⟩
  | zero rest => exact absurd rfl (hz 0 (List.mem_cons_self _ _))
  | illegal rest msg =>
    obtain ⟨v, hv⟩ := hlast
    simp at hv
  | space b rest toks hw htr ih =>
    obtain ⟨wss, h1, h2, h3⟩ := ih (fun b hb => hz b (List.mem_cons_of_mem _ hb)) hlast
    cases wss with
    | nil =>
      exfalso
      have := htr.ne_nil
      simp at h1
      exact this (List.length_eq_zero.mp h1.symm)
    | cons w ws =>
      cases toks with
      | nil => exact absurd rfl htr.ne_nil
      | cons t ts =>
        refine ⟨(b :: w) :: ws, by simpa using h1, ?_, ?_⟩
        · intro w1 hw1 c hc
          rcases List.mem_cons.mp hw1 with rfl | hw1
          · rcases List.mem_cons.mp hc with rfl | hc
            · exact hw
            · exact h2 w (List.mem_cons_self _ _) c hc
          · exact h2 w1 (List.mem_cons_of_mem _ hw1) c hc
        · rw [h3]; simp
  | token typ text rest toks hd hne hg htr ih =>
    have hlast2 : ∃ v, toks.getLast? = some ⟨TokenEof, v⟩ := by
      obtain ⟨v, hv⟩ := hlast
      refine ⟨v, ?_⟩
      rw [← hv]
      cases toks with
      | nil => exact absurd rfl htr.ne_nil
      | cons t ts => simp [List.getLast?_cons_cons]
    obtain ⟨wss, h1, h2, h3⟩ := ih (fun b hb => hz b (List.mem_append_right _ hb)) hlast2
    refine ⟨[] :: wss, by simpa using h1, ?_, ?_⟩
    · intro w1 hw1 c hc
      rcases List.mem_cons.mp hw1 with rfl | hw1
      · simp at hc
      · exact h2 w1 hw1 c hc
    · rw [h3]; simp

theorem Lex_canonical {input : List Nat} {toks : List Token} (h : Lex input = some toks) :
    ∀ t ∈ toks, t.canonical := by
  obtain ⟨toks1, h1, h2⟩ := Lex_trace input
  rw [h] at h1
  cases h1
  exact h2.canonical

theorem Option.ne_none_some {α : Type} {o : Option α} (h : o ≠ none) : ∃ a, o = some a := by
  cases o with
  | none => exact absurd rfl h
  | some a => exact ⟨a, rfl⟩

/-- What `Parse` does once the tokens are given: it returns, and it returns either an error and
no document, or a document and no error; in the second case the parser holds an `Eof` token
and the tokens before it are those read for the tree. -/
theorem parseTokens_spec (toks : List Token) (hc : ∀ t ∈ toks, t.canonical) :
    ∃ r p, parseTokens toks = some (r, p) ∧ p.Within toks ∧
      ((∃ msg, r = (none, some msg)) ∨
       (∃ v read, r = (some ⟨some v⟩, none) ∧ p.err = none ∧ p.cur.Typ = TokenEof ∧
          v.noNil = true ∧ toks = read ++ p.cur :: p.tokens ∧
          (v.noEmpty = true → read = v.spell))) := by
  unfold parseTokens parser.parse
  dsimp only
  set p0 : parser := { tokens := toks, cur := ⟨TokenIllegal, []⟩, err := none } with hp0
  have hw0 : p0.Within toks := by
    intro t ht
    rcases List.mem_cons.mp ht with rfl | ht
    · exact Or.inl rfl
    · exact Or.inr ht
  have hw1 : p0.next.Within toks := hw0.next
  by_cases herr : p0.next.err ≠ none
  · rw [if_pos herr]
    simp only [if_pos herr]
    exact ⟨_, _, rfl, hw1, Or.inl (by
      obtain ⟨m, hm⟩ := Option.ne_none_some herr
      exact ⟨m, by rw [hm]⟩)⟩
  · rw [if_neg herr]
    have hwt : p0.next.weight ≤ 3 * toks.length := by
      have := p0.weight_next
      have h0 : p0.weight = 3 * toks.length + 3 := by simp [parser.weight, hp0]
      omega
    obtain ⟨rv, h1, _, _⟩ := (parse_total (3 * toks.length + 3)).1 p0.next (by omega)
    obtain ⟨v, p2⟩ := rv
    have hw2 : p2.Within toks := (parse_within toks _).1 _ _ hw1 h1
    rw [h1]
    dsimp only
    by_cases herr2 : p2.err ≠ none
    · rw [if_pos herr2]
      exact ⟨_, _, rfl, hw2, Or.inl (by
        obtain ⟨m, hm⟩ := Option.ne_none_some herr2
        exact ⟨m, by rw [hm]⟩)⟩
    · rw [if_neg herr2]
      by_cases heof : p2.cur.Typ ≠ TokenEof
      · rw [if_pos heof]
        refine ⟨_, _, rfl, hw2.addErr _, Or.inl ?_⟩
        obtain ⟨m, hm⟩ := Option.ne_none_some (p2.addErr_err
          (str "expected TokenEof but found " ++ p2.cur.Typ.String))
        exact ⟨m, by rw [hm]⟩
      · rw [if_neg heof]
        refine ⟨_, _, rfl, hw2, Or.inr ?_⟩
        have hc1 : p0.next.Canon := by
          intro t ht
          rcases hw1 t ht with rfl | h
          · exact zeroToken_canonical
          · exact hc t h
        obtain ⟨e0, v1, read, e1, e2, e3, e4⟩ :=
          (parse_sound _).1 _ _ hc1 h1 (not_not.mp herr2)
        obtain ⟨n1, n2⟩ := parser.next_ok e0
        simp only at e1 e3
        subst e1
        refine ⟨v1, read, rfl, not_not.mp herr2, not_not.mp heof, e2, ?_, e4⟩
        rw [← e3]
        exact n2

theorem Parse_eq {input : List Nat} {toks : List Token} (h : Lex input = some toks) :
    Parse input = (parseTokens toks).map Prod.fst := by
  simp [Parse, h]

/-- Parse returns on every input. -/
theorem Parse_total (input : List Nat) : ∃ r, Parse input = some r := by
  obtain ⟨toks, h1, _⟩ := Lex_trace input
  obtain ⟨r, p, h2, _⟩ := parseTokens_spec toks (Lex_canonical h1)
  exact ⟨r, by rw [Parse_eq h1, h2]; rfl⟩

theorem List.last_of_append_eq {α : Type} {a b init : List α} {x last : α}
    (h : a ++ x :: b = init ++ [last]) (hx : x ∉ init) : b = [] ∧ x = last ∧ a = init := by
  rcases List.eq_nil_or_concat b with rfl | ⟨b1, c, rfl⟩
  · have := List.append_inj' h rfl
    exact ⟨rfl, by simpa using this.2, this.1⟩
  · exfalso
    have h2 : (a ++ x :: b1) ++ [c] = init ++ [last] := by simpa using h
    have := (List.append_inj' h2 rfl).1
    exact hx (by rw [← this]; simp)

theorem newLexer_input (input : List Nat) : (newLexer input).input = input := rfl

theorem NumberRun.of_step (i1 f1 : Bool) (l1 : lexer) (cur1 rest1 : List Nat) {i f : Bool}
    {l : lexer} {pre cur rest : List Nat}
    (hstep : ∀ fuel, lexNumberLoop (fuel + 1) i f l = lexNumberLoop fuel i1 f1 l1)
    (ht : l1.tokens = l.tokens) (he : cur1 ++ rest1 = cur ++ rest)
    (hb : 2 * rest1.length + (if (i1 || f1) = true then 1 else 0) + 1 ≤
      2 * rest.length + (if (i || f) = true then 1 else 0))
    (h : NumberRun i1 f1 l1 pre cur1 rest1) : NumberRun i f l pre cur rest := by
  obtain ⟨l2, h1, h2, h3⟩ := h
  refine ⟨l2, by rw [← he]; exact h1, by rw [h2, ht, he], ?_⟩
  intro fuel hf
  cases fuel with
  | zero => omega
  | succ fuel =>
    rw [hstep]
    exact h3 fuel (by omega)

theorem NumberRun.done (i f : Bool) {l : lexer} {pre cur : List Nat} (hv : View l pre cur []) :
    NumberRun i f l pre cur [] := by
  have hn := hv.next_nil
  have he := hv.emit TokenNumber
  refine ⟨l.emit TokenNumber, by simpa using he.1, by simpa using he.2, ?_⟩
  intro fuel hf
  cases fuel with
  | zero => omega
  | succ fuel => simp [lexNumberLoop, hn, eof, isLetter, isDigit]

theorem isDigit_not_letter {d : Nat} (h : isDigit d = true) : isLetter d = false ∧ d ≠ 46 := by
  simp only [isDigit, Bool.and_eq_true, decide_eq_true_eq] at h
  constructor
  · simp only [isLetter, Bool.or_eq_false_iff, Bool.and_eq_false_iff, decide_eq_false_iff_not]
    omega
  · omega

theorem NumberRun.digit (i f : Bool) {l : lexer} {pre cur rest : List Nat} {d : Nat}
    (hv : View l pre cur (d :: rest)) (hd : isDigit d = true)
    (h : ∀ l1, View l1 pre (cur ++ [d]) rest → l1.tokens = l.tokens →
      NumberRun i f l1 pre (cur ++ [d]) rest) :
    NumberRun i f l pre cur (d :: rest) := by
  obtain ⟨l1, hn, hv1, ht⟩ := hv.next_cons
  obtain ⟨h1, h2⟩ := isDigit_not_letter hd
  refine NumberRun.of_step i f l1 (cur ++ [d]) rest ?_ ht (by simp)
    (by simp only [List.length_cons]; omega) (h l1 hv1 ht)
  intro fuel
  simp [lexNumberLoop, hn, h1, h2, hd]

theorem NumberRun.digits (i f : Bool) :
    ∀ (ds : List Nat) (l : lexer) (pre cur : List Nat), (∀ d ∈ ds, isDigit d = true) →
      View l pre cur ds → NumberRun i f l pre cur ds := by
  intro ds
  induction ds with
  | nil => intro l pre cur _ hv; exact NumberRun.done i f hv
  | cons d ds ih =>
    intro l pre cur hd hv
    exact NumberRun.digit i f hv (hd d (List.mem_cons_self _ _))
      (fun l1 hv1 _ => ih l1 pre _ (fun x hx => hd x (List.mem_cons_of_mem _ hx)) hv1)

theorem isDigits_all : ∀ ds : List Nat, isDigits ds = true → ∀ d ∈ ds, isDigit d = true := by
  intro ds
  induction ds with
  | nil => intro h; simp [isDigits] at h
  | cons d ds ih =>
    intro h x hx
    simp only [isDigits, Bool.and_eq_true, Bool.or_eq_true] at h
    rcases List.mem_cons.mp hx with rfl | hx
    · exact h.1
    · rcases h.2 with h2 | h2
      · cases ds with
        | nil => simp at hx
        | cons a r => simp at h2
      · exact ih h2 x hx

theorem NumberRun.exponent {i f : Bool} (hif : (i || f) = true) {l : lexer}
    {pre cur s : List Nat} (hs : isExponentOpt s = true) (hv : View l pre cur s) :
    NumberRun i f l pre cur s := by
  cases s with
  | nil => exact NumberRun.done i f hv
  | cons e rest =>
    simp only [isExponentOpt, Bool.and_eq_true, Bool.or_eq_true, decide_eq_true_eq] at hs
    obtain ⟨he, hrest⟩ := hs
    have hlet : isLetter e = true := by rcases he with h | h <;> subst h <;> decide
    have h46 : e ≠ 46 := by rcases he with h | h <;> subst h <;> decide
    have he2 : e = 69 ∨ e = 101 := he.symm
    obtain ⟨l1, hn, hv1, ht⟩ := hv.next_cons
    cases rest with
    | nil => simp at hrest
    | cons sg digits =>
      obtain ⟨l2, hn2, hv2, ht2⟩ := hv1.next_cons
      simp only at hrest
      by_cases hsg : isSign sg = true
      · rw [if_pos hsg] at hrest
        refine NumberRun.of_step false false l2 (cur ++ [e] ++ [sg]) digits ?_ (ht2.trans ht)
          (by simp) (by simp [hif]; omega)
          (NumberRun.digits false false digits l2 pre _ (isDigits_all _ hrest) hv2)
        intro fuel
        simp [lexNumberLoop, hn, hn2, h46, hif, hlet, he2, hsg]
      · rw [if_neg hsg] at hrest
        have hsg2 : isSign sg = false := by simpa using hsg
        have hp := hv2.prev
        refine NumberRun.of_step false false l2.prev (cur ++ [e]) (sg :: digits) ?_
          (hp.2.trans (ht2.trans ht)) (by simp) (by simp [hif])
          (NumberRun.digits false false (sg :: digits) l2.prev pre _ (isDigits_all _ hrest)
            hp.1)
        intro fuel
        simp [lexNumberLoop, hn, hn2, h46, hif, hlet, he2, hsg2]

theorem NumberRun.fraction :
    ∀ (s : List Nat) (l : lexer) (pre cur : List Nat), isFractionRest s = true →
      View l pre cur s → NumberRun false true l pre cur s := by
  intro s
  induction s with
  | nil => intro l pre cur _ hv; exact NumberRun.done _ _ hv
  | cons d rest ih =>
    intro l pre cur hs hv
    simp only [isFractionRest] at hs
    by_cases hd : isDigit d = true
    · rw [if_pos hd] at hs
      exact NumberRun.digit _ _ hv hd (fun l1 hv1 _ => ih l1 pre _ hs hv1)
    · rw [if_neg hd] at hs
      exact NumberRun.exponent (i := false) (f := true) rfl hs hv

theorem NumberRun.integer :
    ∀ (s : List Nat) (l : lexer) (pre cur : List Nat), isIntegerRest s = true →
      View l pre cur s → NumberRun true false l pre cur s := by
  intro s
  induction s with
  | nil => intro l pre cur _ hv; exact NumberRun.done _ _ hv
  | cons d rest ih =>
    intro l pre cur hs hv
    simp only [isIntegerRest] at hs
    by_cases hd : isDigit d = true
    · rw [if_pos hd] at hs
      exact NumberRun.digit _ _ hv hd (fun l1 hv1 _ => ih l1 pre _ hs hv1)
    · rw [if_neg hd] at hs
      by_cases h46 : d = 46
      · rw [if_pos h46] at hs
        subst h46
        cases rest with
        | nil => simp at hs
        | cons f rest2 =>
          simp only [Bool.and_eq_true] at hs
          obtain ⟨l1, hn, hv1, ht⟩ := hv.next_cons
          refine NumberRun.of_step false true l1 (cur ++ [46]) (f :: rest2) ?_ ht (by simp)
            (by simp; omega) ?_
          · intro fuel
            simp [lexNumberLoop, hn]
          · exact NumberRun.digit _ _ hv1 hs.1
              (fun l2 hv2 _ => NumberRun.fraction rest2 l2 pre _ hs.2 hv2)
      · rw [if_neg h46] at hs
        exact NumberRun.exponent (i := true) (f := false) rfl hs hv


/-- What `Lex` sends for a text of the number grammar. -/
theorem Lex_number (n : List Nat) (h : isNumberLexeme n = true) :
    Lex n = some [⟨TokenNumber, n⟩, ⟨TokenEof, []⟩] := by
  have hv0 : View (newLexer n) [] [] n := ⟨by simp [newLexer], rfl, rfl⟩
  have key : ∃ l1 cur rest, lex (newLexer n) = (some stateFunc.lexNumber, l1) ∧
      View l1 [] cur rest ∧ l1.tokens = [] ∧ cur ++ rest = n ∧ isIntegerRest rest = true := by
    cases n with
    | nil => simp [isNumberLexeme] at h
    | cons c rest =>
      simp only [isNumberLexeme] at h
      obtain ⟨l1, hn, hv1, ht⟩ := hv0.next_cons
      by_cases hc : c = 45
      · rw [if_pos hc] at h
        subst hc
        cases rest with
        | nil => simp at h
        | cons d rest2 =>
          simp only [Bool.and_eq_true] at h
          obtain ⟨l2, hn2, hv2, ht2⟩ := hv1.next_cons
          have hd45 : isDigit 45 = false := by decide
          exact ⟨l2, [45, d], rest2, by simp [lex, hn, hn2, h.1, hd45], by simpa using hv2,
            by rw [ht2, ht]; rfl, rfl, h.2⟩
      · rw [if_neg hc] at h
        simp only [Bool.and_eq_true] at h
        exact ⟨l1, [c], rest, by simp [lex, hn, h.1], by simpa using hv1, by rw [ht]; rfl, rfl,
          h.2⟩
  obtain ⟨l1, cur, rest, h1, h2, h3, h4, h5⟩ := key
  obtain ⟨l2, k1, k2, k3⟩ := NumberRun.integer rest l1 [] cur h5 h2
  have hlen : rest.length ≤ n.length := by rw [← h4]; simp
  have hin : l1.input = n := by rw [h2.1, ← h4]; simp
  have hnum : lexNumber l1 = some (some stateFunc.lex, l2) := by
    unfold lexNumber
    exact k3 _ (by rw [hin]; simp; omega)
  have hlast : lex l2 = (none, l2.emit TokenEof) := by
    have hn := k1.next_nil
    simp [lex, hn, eof, isDigit, isWhiteSpace]
  have hemit := (k1.emit TokenEof).2
  have hpos : 0 < n.length := by
    cases n with
    | nil => simp [isNumberLexeme] at h
    | cons c r => simp
  have hk : 2 * n.length + 2 = (2 * n.length - 1) + 1 + 1 + 1 := by omega
  unfold Lex lexer.run
  rw [newLexer_input, hk]
  simp only [runLoop, stateFunc.call, h1, hnum, hlast, Option.map_some', hemit, k2, h3, h4]
  rfl


theorem isDigits_iff (ds : List Nat) :
    isDigits ds = true ↔ ds ≠ [] ∧ ∀ d ∈ ds, isDigit d = true := by
  induction ds with
  | nil => simp [isDigits]
  | cons d ds ih =>
    cases ds with
    | nil => simp [isDigits]
    | cons a r =>
      simp only [isDigits, Bool.and_eq_true, Bool.or_eq_true] at ih ⊢
      constructor
      · rintro ⟨h1, h2⟩
        have h3 := ih.mp (by simpa [isDigits] using h2)
        refine ⟨by simp, ?_⟩
        intro x hx
        rcases List.mem_cons.mp hx with rfl | hx
        · exact h1
        · exact h3.2 x hx
      · rintro ⟨_, h⟩
        refine ⟨h d (List.mem_cons_self _ _), Or.inr ?_⟩
        have := ih.mpr ⟨by simp, fun x hx => h x (List.mem_cons_of_mem _ hx)⟩
        simpa [isDigits] using this

theorem isSign_iff (s : Nat) : isSign s = true ↔ s = 43 ∨ s = 45 := by
  simp [isSign]

theorem isExponentOpt_iff (s : List Nat) :
    isExponentOpt s = true ↔ s = [] ∨ IsExponent s := by
  cases s with
  | nil => simp [isExponentOpt]
  | cons e rest =>
    simp only [isExponentOpt, Bool.and_eq_true, Bool.or_eq_true, decide_eq_true_eq,
      false_or, reduceCtorEq]
    constructor
    · rintro ⟨he, hr⟩
      cases rest with
      | nil => simp at hr
      | cons s digits =>
        simp only at hr
        by_cases hs : isSign s = true
        · rw [if_pos hs] at hr
          obtain ⟨h1, h2⟩ := (isDigits_iff _).mp hr
          refine ⟨e, [s], digits, rfl, he, ?_, h1, h2⟩
          rcases (isSign_iff s).mp hs with h | h
          · exact Or.inr (Or.inl (by rw [h]))
          · exact Or.inr (Or.inr (by rw [h]))
        · rw [if_neg hs] at hr
          obtain ⟨h1, h2⟩ := (isDigits_iff _).mp hr
          exact ⟨e, [], s :: digits, rfl, he, Or.inl rfl, h1, h2⟩
    · rintro ⟨e1, sg, es, h1, h2, h3, h4, h5⟩
      simp only [List.cons.injEq] at h1
      obtain ⟨rfl, rfl⟩ := h1
      refine ⟨h2, ?_⟩
      rcases h3 with rfl | rfl | rfl
      · cases es with
        | nil => exact absurd rfl h4
        | cons d ds =>
          have hd := h5 d (List.mem_cons_self _ _)
          have hns : isSign d = false := by
            simp only [isDigit, Bool.and_eq_true, decide_eq_true_eq] at hd
            simp only [isSign, Bool.or_eq_false_iff, decide_eq_false_iff_not]
            omega
          simp only [List.nil_append, hns, Bool.false_eq_true, if_false]
          exact (isDigits_iff _).mpr ⟨h4, h5⟩
      · have : isSign 43 = true := by decide
        cases es with
        | nil => exact absurd rfl h4
        | cons d ds =>
          simp only [List.singleton_append, this, if_true]
          exact (isDigits_iff _).mpr ⟨h4, h5⟩
      · have : isSign 45 = true := by decide
        cases es with
        | nil => exact absurd rfl h4
        | cons d ds =>
          simp only [List.singleton_append, this, if_true]
          exact (isDigits_iff _).mpr ⟨h4, h5⟩

theorem IsExponent.head {s : List Nat} {d : Nat} (h : IsExponent (d :: s)) :
    isDigit d = false ∧ d ≠ 46 := by
  obtain ⟨e, sg, es, h1, h2, _⟩ := h
  simp only [List.cons.injEq] at h1
  obtain ⟨rfl, _⟩ := h1
  rcases h2 with rfl | rfl <;> exact ⟨by decide, by decide⟩

theorem isFractionRest_iff (s : List Nat) :
    isFractionRest s = true ↔
      ∃ ds exp, s = ds ++ exp ∧ (∀ d ∈ ds, isDigit d = true) ∧ (exp = [] ∨ IsExponent exp) := by
  induction s with
  | nil =>
    simp only [isFractionRest, true_iff]
    exact ⟨[], [], rfl, by simp, Or.inl rfl⟩
  | cons d rest ih =>
    simp only [isFractionRest]
    by_cases hd : isDigit d = true
    · rw [if_pos hd, ih]
      constructor
      · rintro ⟨ds, exp, h1, h2, h3⟩
        refine ⟨d :: ds, exp, by rw [h1]; rfl, ?_, h3⟩
        intro x hx
        rcases List.mem_cons.mp hx with rfl | hx
        · exact hd
        · exact h2 x hx
      · rintro ⟨ds, exp, h1, h2, h3⟩
        cases ds with
        | nil =>
          exfalso
          rcases h3 with rfl | h3
          · simp at h1
          · rw [List.nil_append] at h1
            rw [← h1] at h3
            have := h3.head.1
            rw [hd] at this
            cases this
        | cons a ds =>
          simp only [List.cons_append, List.cons.injEq] at h1
          exact ⟨ds, exp, h1.2, fun x hx => h2 x (List.mem_cons_of_mem _ hx), h3⟩
    · rw [if_neg hd, isExponentOpt_iff]
      constructor
      · intro h
        exact ⟨[], d :: rest, rfl, by simp, h⟩
      · rintro ⟨ds, exp, h1, h2, h3⟩
        cases ds with
        | nil => rw [List.nil_append] at h1; rw [h1]; exact h3
        | cons a ds =>
          exfalso
          simp only [List.cons_append, List.cons.injEq] at h1
          exact hd (by rw [h1.1]; exact h2 a (List.mem_cons_self _ _))

theorem isIntegerRest_iff (s : List Nat) :
    isIntegerRest s = true ↔
      ∃ ds frac exp, s = ds ++ frac ++ exp ∧ (∀ d ∈ ds, isDigit d = true) ∧
        (frac = [] ∨ IsFraction frac) ∧ (exp = [] ∨ IsExponent exp) := by
  induction s with
  | nil =>
    simp only [isIntegerRest, true_iff]
    exact ⟨[], [], [], rfl, by simp, Or.inl rfl, Or.inl rfl⟩
  | cons d rest ih =>
    simp only [isIntegerRest]
    by_cases hd : isDigit d = true
    · rw [if_pos hd, ih]
      constructor
      · rintro ⟨ds, frac, exp, h1, h2, h3, h4⟩
        refine ⟨d :: ds, frac, exp, by rw [h1]; rfl, ?_, h3, h4⟩
        intro x hx
        rcases List.mem_cons.mp hx with rfl | hx
        · exact hd
        · exact h2 x hx
      · rintro ⟨ds, frac, exp, h1, h2, h3, h4⟩
        cases ds with
        | nil =>
          exfalso
          rcases h3 with rfl | ⟨fs, rfl, _, _⟩
          · rcases h4 with rfl | h4
            · simp at h1
            · simp only [List.nil_append] at h1
              rw [← h1] at h4
              have := h4.head.1
              rw [hd] at this
              cases this
          · simp only [List.nil_append, List.cons_append, List.cons.injEq] at h1
            rw [h1.1] at hd
            exact absurd hd (by decide)
        | cons a ds =>
          simp only [List.cons_append, List.cons.injEq] at h1
          exact ⟨ds, frac, exp, h1.2, fun x hx => h2 x (List.mem_cons_of_mem _ hx), h3, h4⟩
    · rw [if_neg hd]
      by_cases h46 : d = 46
      · rw [if_pos h46]
        subst h46
        constructor
        · intro h
          cases rest with
          | nil => simp at h
          | cons f rest2 =>
            simp only [Bool.and_eq_true] at h
            obtain ⟨ds, exp, h1, h2, h3⟩ := (isFractionRest_iff rest2).mp h.2
            refine ⟨[], 46 :: f :: ds, exp, by rw [h1]; rfl, by simp,
              Or.inr ⟨f :: ds, rfl, by simp, ?_⟩, h3⟩
            intro x hx
            rcases List.mem_cons.mp hx with rfl | hx
            · exact h.1
            · exact h2 x hx
        · rintro ⟨ds, frac, exp, h1, h2, h3, h4⟩
          cases ds with
          | cons a ds =>
            exfalso
            simp only [List.cons_append, List.cons.injEq] at h1
            exact hd (by rw [h1.1]; exact h2 a (List.mem_cons_self _ _))
          | nil =>
            rcases h3 with rfl | ⟨fs, rfl, hne, hfs⟩
            · exfalso
              rcases h4 with rfl | h4
              · simp at h1
              · simp only [List.nil_append] at h1
                rw [← h1] at h4
                exact h4.head.2 rfl
            · simp only [List.nil_append, List.cons_append, List.cons.injEq, true_and] at h1
              cases fs with
              | nil => exact absurd rfl hne
              | cons f fs =>
                rw [h1]
                simp only [List.cons_append, Bool.and_eq_true]
                exact ⟨hfs f (List.mem_cons_self _ _),
                  (isFractionRest_iff _).mpr
                    ⟨fs, exp, rfl, fun x hx => hfs x (List.mem_cons_of_mem _ hx), h4⟩⟩
      · rw [if_neg h46, isExponentOpt_iff]
        constructor
        · intro h
          exact ⟨[], [], d :: rest, rfl, by simp, Or.inl rfl, h⟩
        · rintro ⟨ds, frac, exp, h1, h2, h3, h4⟩
          cases ds with
          | cons a ds =>
            exfalso
            simp only [List.cons_append, List.cons.injEq] at h1
            exact hd (by rw [h1.1]; exact h2 a (List.mem_cons_self _ _))
          | nil =>
            rcases h3 with rfl | ⟨fs, rfl, _, _⟩
            · simp only [List.nil_append] at h1
              rw [h1]
              exact h4
            · exfalso
              simp only [List.nil_append, List.cons_append, List.cons.injEq] at h1
              exact h46 h1.1

/-- The recogniser accepts exactly the texts of the grammar. -/
theorem isNumberLexeme_iff (n : List Nat) : isNumberLexeme n = true ↔ IsNumberText n := by
  constructor
  · intro h
    cases n with
    | nil => simp [isNumberLexeme] at h
    | cons c rest =>
      simp only [isNumberLexeme] at h
      by_cases hc : c = 45
      · rw [if_pos hc] at h
        subst hc
        cases rest with
        | nil => simp at h
        | cons d rest2 =>
          simp only [Bool.and_eq_true] at h
          obtain ⟨ds, frac, exp, h1, h2, h3, h4⟩ := (isIntegerRest_iff rest2).mp h.2
          refine ⟨[45], d :: ds, frac, exp, by rw [h1]; simp, Or.inr rfl, by simp, ?_, h3, h4⟩
          intro x hx
          rcases List.mem_cons.mp hx with rfl | hx
          · exact h.1
          · exact h2 x hx
      · rw [if_neg hc] at h
        simp only [Bool.and_eq_true] at h
        obtain ⟨ds, frac, exp, h1, h2, h3, h4⟩ := (isIntegerRest_iff rest).mp h.2
        refine ⟨[], c :: ds, frac, exp, by rw [h1]; simp, Or.inl rfl, by simp, ?_, h3, h4⟩
        intro x hx
        rcases List.mem_cons.mp hx with rfl | hx
        · exact h.1
        · exact h2 x hx
  · rintro ⟨sign, int, frac, exp, h1, h2, h3, h4, h5, h6⟩
    cases int with
    | nil => exact absurd rfl h3
    | cons d ds =>
      have hd := h4 d (List.mem_cons_self _ _)
      have hrest : isIntegerRest (ds ++ frac ++ exp) = true :=
        (isIntegerRest_iff _).mpr
          ⟨ds, frac, exp, rfl, fun x hx => h4 x (List.mem_cons_of_mem _ hx), h5, h6⟩
      have hd45 : d ≠ 45 := by
        intro h
        rw [h] at hd
        exact absurd hd (by decide)
      rcases h2 with rfl | rfl
      · have e : [] ++ d :: ds ++ frac ++ exp = d :: (ds ++ frac ++ exp) := by simp
        rw [h1, e]
        simp only [isNumberLexeme, if_neg hd45, hd, Bool.true_and]
        exact hrest
      · have e : [45] ++ d :: ds ++ frac ++ exp = 45 :: d :: (ds ++ frac ++ exp) := by simp
        rw [h1, e]
        simp only [isNumberLexeme, if_true, hd, Bool.true_and]
        exact hrest


theorem isStringBody_items :
    ∀ body : List Nat, isStringBody body = true →
      ∃ items : List (List Nat), body = items.flatten ∧ ∀ item ∈ items, IsStringItem item := by
  intro body
  induction body using isStringBody.induct with
  | case1 => intro _; exact ⟨[], rfl, by simp⟩
  | case2 => intro h; simp [isStringBody] at h
  | case3 h1 h2 h3 h4 rest ih =>
    intro hx
    simp only [isStringBody, if_true, Bool.and_eq_true] at hx
    obtain ⟨items, e1, e2⟩ := ih hx.2
    refine ⟨[92, 117, h1, h2, h3, h4] :: items, by rw [e1]; rfl, ?_⟩
    intro item hi
    rcases List.mem_cons.mp hi with rfl | hi
    · exact Or.inr (Or.inr ⟨h1, h2, h3, h4, rfl, hx.1.1.1.1, hx.1.1.1.2, hx.1.1.2, hx.1.2⟩)
    · exact e2 item hi
  | case4 rest hshort =>
    intro hx
    simp only [isStringBody, if_true] at hx
    exact absurd hx (by simp)
  | case5 c rest hc ih =>
    intro hx
    unfold isStringBody at hx
    simp only [hc, if_true, if_false, Bool.and_eq_true] at hx
    obtain ⟨items, e1, e2⟩ := ih hx.2
    refine ⟨[92, c] :: items, by rw [e1]; rfl, ?_⟩
    intro item hi
    rcases List.mem_cons.mp hi with rfl | hi
    · refine Or.inr (Or.inl ⟨c, rfl, ?_⟩)
      have := hx.1
      simp only [isSimpleEscape, Bool.or_eq_true, decide_eq_true_eq] at this
      tauto
    · exact e2 item hi
  | case6 b rest hb ih =>
    intro hx
    unfold isStringBody at hx
    simp only [hb, if_false, Bool.and_eq_true, decide_eq_true_eq] at hx
    obtain ⟨items, e1, e2⟩ := ih hx.2
    refine ⟨[b] :: items, by rw [e1]; rfl, ?_⟩
    intro item hi
    rcases List.mem_cons.mp hi with rfl | hi
    · exact Or.inl ⟨b, rfl, hx.1, hb⟩
    · exact e2 item hi

/-- What the recogniser accepts is a text of the form quote, items, quote. -/
theorem isStringLexeme_text (s : List Nat) (h : isStringLexeme s = true) : IsStringText s := by
  cases s with
  | nil => simp [isStringLexeme] at h
  | cons q rest =>
    simp only [isStringLexeme, Bool.and_eq_true, decide_eq_true_eq] at h
    obtain ⟨rfl, h2⟩ := h
    cases hr : rest.reverse with
    | nil => rw [hr] at h2; simp at h2
    | cons q2 body =>
      rw [hr] at h2
      simp only [Bool.and_eq_true, decide_eq_true_eq] at h2
      obtain ⟨rfl, h3⟩ := h2
      obtain ⟨items, e1, e2⟩ := isStringBody_items _ h3
      have hrest : rest = body.reverse ++ [34] := by
        have := congrArg List.reverse hr
        simpa using this
      exact ⟨items, by rw [hrest, e1]; simp, e2⟩


theorem Trace.count {rest : List Nat} {toks : List Token} (h : Trace rest toks) :
    toks.length ≤ rest.length + 1 ∧
      (∀ t ∈ toks, t.Typ ≠ TokenIllegal → t.Typ ≠ TokenEof → t.Value ≠ []) := by
  induction h with
  | eof => exact ⟨by simp, by intro t ht _ h2; simp at ht; subst ht; exact absurd rfl h2⟩
  | zero => exact ⟨by simp, by intro t ht _ h2; simp at ht; subst ht; exact absurd rfl h2⟩
  | illegal => exact ⟨by simp, by intro t ht h1 _; simp at ht; subst ht; exact absurd rfl h1⟩
  | space b rest toks _ _ ih => exact ⟨by simp only [List.length_cons]; omega, ih.2⟩
  | token typ text rest toks _ hne _ _ ih =>
    have hpos : 0 < text.length := List.length_pos.mpr hne
    refine ⟨by simp only [List.length_cons, List.length_append]; omega, ?_⟩
    intro t ht h1 h2
    rcases List.mem_cons.mp ht with rfl | ht
    · exact hne
    · exact ih.2 t ht h1 h2

theorem lexer.next_shift (pre : List Nat) (l : lexer) :
    (l.shift pre).next = (l.next.1, l.next.2.shift pre) := by
  unfold lexer.next lexer.shift
  by_cases h : l.pos ≥ l.input.length
  · have h2 : l.pos + pre.length ≥ (pre ++ l.input).length := by simp; omega
    simp only [if_pos h, if_pos h2]
  · have h2 : ¬ l.pos + pre.length ≥ (pre ++ l.input).length := by simp; omega
    simp only [if_neg h, if_neg h2]
    have : (pre ++ l.input).getD (l.pos + pre.length) 0 = l.input.getD l.pos 0 := by
      rw [Nat.add_comm, List.getD_append_right _ _ _ _ (by omega)]
      simp
    rw [this]
    simp [Nat.add_right_comm]

theorem lexer.next_pos (l : lexer) : l.pos ≤ l.next.2.pos ∧ (l.next.1 ≠ 0 → 1 ≤ l.next.2.pos) := by
  unfold lexer.next
  split_ifs
  · exact ⟨le_refl _, fun h => absurd rfl h⟩
  · exact ⟨by simp, fun _ => by simp⟩

theorem lexer.prev_shift (pre : List Nat) (l : lexer) (h : 1 ≤ l.pos) :
    (l.shift pre).prev = l.prev.shift pre := by
  unfold lexer.prev lexer.shift
  simp only [lexer.mk.injEq, true_and, and_true]
  omega

theorem lexer.ignore_shift (pre : List Nat) (l : lexer) :
    (l.shift pre).ignore = l.ignore.shift pre := rfl

theorem slice_shift (pre input : List Nat) (i j : Nat) :
    slice (pre ++ input) (i + pre.length) (j + pre.length) = slice input i j := by
  unfold slice
  rw [Nat.add_comm i, List.drop_append]
  congr 1
  omega

theorem lexer.emit_shift (pre : List Nat) (l : lexer) (typ : TokenType) :
    (l.shift pre).emit typ = (l.emit typ).shift pre := by
  unfold lexer.emit lexer.shift
  simp only [slice_shift]

theorem lexer.drop_shift (pre : List Nat) (l : lexer) :
    (l.shift pre).input.drop (l.shift pre).start = l.input.drop l.start := by
  unfold lexer.shift
  simp only
  rw [Nat.add_comm, List.drop_append]

theorem lexer.errorf_shift (pre : List Nat) (l : lexer) (msg : List Nat) :
    (l.shift pre).errorf msg = ((l.errorf msg).1, (l.errorf msg).2.shift pre) := rfl


theorem lex_shift (pre : List Nat) (l : lexer) :
    lex (l.shift pre) = ((lex l).1, (lex l).2.shift pre) := by
  unfold lex
  rw [lexer.next_shift]
  rcases l.next with ⟨b, l1⟩
  dsimp only
  by_cases hd : isDigit b = true
  · simp only [hd, if_true]
  · simp only [hd, Bool.false_eq_true, if_false]
    by_cases h45 : b = 45
    · simp only [if_pos h45]
      rw [lexer.next_shift]
      rcases l1.next with ⟨n, l2⟩
      dsimp only
      by_cases hn : isDigit n = true
      · simp only [hn, if_true]
      · subst h45
        have hw : isWhiteSpace 45 = false := by decide
        simp [hn, hw, eof, lexer.errorf_shift]
    · simp only [if_neg h45, Bool.false_eq_true, if_false]
      by_cases hw : isWhiteSpace b = true
      · simp only [hw, if_true, lexer.ignore_shift]
      · simp only [hw, Bool.false_eq_true, if_false]
        by_cases h0 : b = eof
        · simp only [if_pos h0, lexer.emit_shift]
        rw [if_neg h0, if_neg h0]
        by_cases h1 : b = 116
        · simp only [if_pos h1]
        rw [if_neg h1, if_neg h1]
        by_cases h2 : b = 102
        · simp only [if_pos h2]
        rw [if_neg h2, if_neg h2]
        by_cases h3 : b = 110
        · simp only [if_pos h3]
        rw [if_neg h3, if_neg h3]
        by_cases h4 : b = 34
        · simp only [if_pos h4]
        rw [if_neg h4, if_neg h4]
        by_cases h5 : b = 123
        · simp only [if_pos h5, lexer.emit_shift]
        rw [if_neg h5, if_neg h5]
        by_cases h6 : b = 125
        · simp only [if_pos h6, lexer.emit_shift]
        rw [if_neg h6, if_neg h6]
        by_cases h7 : b = 91
        · simp only [if_pos h7, lexer.emit_shift]
        rw [if_neg h7, if_neg h7]
        by_cases h8 : b = 93
        · simp only [if_pos h8, lexer.emit_shift]
        rw [if_neg h8, if_neg h8]
        by_cases h9 : b = 58
        · simp only [if_pos h9, lexer.emit_shift]
        rw [if_neg h9, if_neg h9]
        by_cases h10 : b = 44
        · simp only [if_pos h10, lexer.emit_shift]
        rw [if_neg h10, if_neg h10]
        exact lexer.errorf_shift _ _ _

theorem lexValueLoop_shift (pre value : List Nat) (token : TokenType) :
    ∀ (bs : List Nat) (l : lexer),
      lexValueLoop value token bs (l.shift pre) =
        ((lexValueLoop value token bs l).1, (lexValueLoop value token bs l).2.shift pre) := by
  intro bs
  induction bs with
  | nil => intro l; simp only [lexValueLoop, lexer.emit_shift]
  | cons b bs ih =>
    intro l
    simp only [lexValueLoop]
    rw [lexer.next_shift]
    rcases hn : l.next with ⟨n, l1⟩
    dsimp only
    by_cases hb : n ≠ b
    · simp only [if_pos hb]
      split_ifs
      · rw [lexer.drop_shift]; rfl
      · rfl
    · simp only [if_neg hb]
      exact ih l1

theorem lexNumberLoop_shift (pre : List Nat) :
    ∀ (fuel : Nat) (integer fraction : Bool) (l : lexer),
      lexNumberLoop fuel integer fraction (l.shift pre) =
        (lexNumberLoop fuel integer fraction l).map (fun r => (r.1, r.2.shift pre)) := by
  intro fuel
  induction fuel with
  | zero => intro i f l; rfl
  | succ fuel ih =>
    intro i f l
    simp only [lexNumberLoop]
    rw [lexer.next_shift]
    have hp := l.next_pos
    rcases hn : l.next with ⟨b, l1⟩
    rw [hn] at hp
    dsimp only at hp ⊢
    by_cases h46 : b = 46
    · simp only [if_pos h46]
      cases i with
      | true => simp only [if_true]; exact ih _ _ _
      | false => simp only [Bool.false_eq_true, if_false, Option.map_some']; rfl
    · simp only [if_neg h46]
      by_cases hlet : ((i || f) && isLetter b) = true
      · simp only [if_pos hlet]
        by_cases he : b = 69 ∨ b = 101
        · simp only [if_pos he]
          have hb0 : b ≠ 0 := by rcases he with h | h <;> omega
          have h1 := hp.2 hb0
          rw [lexer.next_shift]
          have hp2 := l1.next_pos
          rcases hn2 : l1.next with ⟨s, l2⟩
          rw [hn2] at hp2
          dsimp only at hp2 ⊢
          by_cases hs : isSign s = true
          · simp only [hs, Bool.not_true, Bool.false_eq_true, if_false]
            exact ih _ _ _
          · have hs2 : isSign s = false := by simpa using hs
            simp only [hs2, Bool.not_false, if_true]
            rw [lexer.prev_shift pre l2 (by omega)]
            exact ih _ _ _
        · simp only [if_neg he, Option.map_some']
          rfl
      · simp only [if_neg hlet]
        by_cases hd : isDigit b = true
        · simp only [hd, Bool.not_true, Bool.false_eq_true, if_false]
          exact ih _ _ _
        · have hd2 : isDigit b = false := by simpa using hd
          simp only [hd2, Bool.not_false, if_true, Option.map_some']
          by_cases h0 : b ≠ eof
          · simp only [if_pos h0]
            rw [lexer.prev_shift pre l1 (hp.2 h0), lexer.emit_shift]
          · simp only [if_neg h0, lexer.emit_shift]

theorem lexNumberLoop_mono :
    ∀ (fuel : Nat) (integer fraction : Bool) (l : lexer) (r : Option stateFunc × lexer),
      lexNumberLoop fuel integer fraction l = some r →
      ∀ k, lexNumberLoop (fuel + k) integer fraction l = some r := by
  intro fuel
  induction fuel with
  | zero => intro i f l r h; simp [lexNumberLoop] at h
  | succ fuel ih =>
    intro i f l r h k
    have hk : fuel + 1 + k = (fuel + k) + 1 := by omega
    rw [hk]
    rw [lexNumberLoop] at h ⊢
    rcases hn : l.next with ⟨b, l1⟩
    rw [hn] at h
    dsimp only at h ⊢
    split_ifs at h ⊢ <;> first | exact h | exact ih _ _ _ _ h k

theorem lexStringHex_shift (pre : List Nat) :
    ∀ (i : Nat) (l : lexer),
      lexStringHex i (l.shift pre) =
        (lexStringHex i l).map (fun r => (r.1, r.2.shift pre)) (fun l1 => l1.shift pre) := by
  intro i
  induction i with
  | zero => intro l; rfl
  | succ i ih =>
    intro l
    simp only [lexStringHex]
    rw [lexer.next_shift]
    rcases hn : l.next with ⟨h, l1⟩
    dsimp only
    by_cases hh : isHex h = true
    · simp only [hh, Bool.not_true, Bool.false_eq_true, if_false]
      exact ih l1
    · have hh2 : isHex h = false := by simpa using hh
      simp only [hh2, Bool.not_false, if_true]
      split_ifs
      · rw [lexer.drop_shift]; rfl
      · rfl

theorem lexStringLoop_shift (pre : List Nat) :
    ∀ (fuel : Nat) (l : lexer),
      lexStringLoop fuel (l.shift pre) =
        (lexStringLoop fuel l).map (fun r => (r.1, r.2.shift pre)) := by
  intro fuel
  induction fuel with
  | zero => intro l; rfl
  | succ fuel ih =>
    intro l
    simp only [lexStringLoop]
    rw [lexer.next_shift]
    rcases hn : l.next with ⟨b, l1⟩
    dsimp only
    by_cases h92 : b = 92
    · simp only [if_pos h92]
      rw [lexer.next_shift]
      rcases hn2 : l1.next with ⟨n, l2⟩
      dsimp only
      by_cases hs : n = 34 ∨ n = 92 ∨ n = 98 ∨ n = 102 ∨ n = 110 ∨ n = 114 ∨ n = 116
      · simp only [if_pos hs]
        exact ih l2
      · simp only [if_neg hs]
        by_cases hu : n = 117
        · simp only [if_pos hu]
          rw [lexStringHex_shift]
          rcases lexStringHex 4 l2 with r | l3
          · rfl
          · exact ih l3
        · simp only [if_neg hu]
          rfl
    · simp only [if_neg h92]
      by_cases h34 : b = 34
      · simp only [if_pos h34, lexer.emit_shift]
        rfl
      · simp only [if_neg h34]
        by_cases h0 : b = eof
        · simp only [if_pos h0]
          rw [lexer.drop_shift]
          rfl
        · simp only [if_neg h0]
          exact ih l1

theorem lexStringLoop_mono :
    ∀ (fuel : Nat) (l : lexer) (r : Option stateFunc × lexer),
      lexStringLoop fuel l = some r → ∀ k, lexStringLoop (fuel + k) l = some r := by
  intro fuel
  induction fuel with
  | zero => intro l r h; simp [lexStringLoop] at h
  | succ fuel ih =>
    intro l r h k
    have hk : fuel + 1 + k = (fuel + k) + 1 := by omega
    rw [hk]
    rw [lexStringLoop] at h ⊢
    rcases hn : l.next with ⟨b, l1⟩
    rw [hn] at h
    dsimp only at h ⊢
    by_cases h92 : b = 92
    · simp only [if_pos h92] at h ⊢
      rcases hn2 : l1.next with ⟨n, l2⟩
      rw [hn2] at h
      dsimp only at h ⊢
      by_cases hs : n = 34 ∨ n = 92 ∨ n = 98 ∨ n = 102 ∨ n = 110 ∨ n = 114 ∨ n = 116
      · simp only [if_pos hs] at h ⊢
        exact ih _ _ h k
      · simp only [if_neg hs] at h ⊢
        by_cases hu : n = 117
        · simp only [if_pos hu] at h ⊢
          rcases hx : lexStringHex 4 l2 with r1 | l3
          · rw [hx] at h; exact h
          · rw [hx] at h; exact ih _ _ h k
        · simp only [if_neg hu] at h ⊢
          exact h
    · simp only [if_neg h92] at h ⊢
      split_ifs at h ⊢ <;> first | exact h | exact ih _ _ h k

theorem call_shift (pre : List Nat) (st : stateFunc) (l : lexer) (r : Option stateFunc × lexer)
    (h : st.call l = some r) : st.call (l.shift pre) = some (r.1, r.2.shift pre) := by
  cases st with
  | lex =>
    simp only [stateFunc.call, Option.some.injEq] at h ⊢
    rw [lex_shift, h]
  | lexValue value token =>
    simp only [stateFunc.call, Option.some.injEq, lexValue] at h ⊢
    rw [lexValueLoop_shift, h]
  | lexNumber =>
    simp only [stateFunc.call, lexNumber] at h ⊢
    have hlen : 2 * (l.shift pre).input.length + 2 =
        (2 * l.input.length + 2) + 2 * pre.length := by
      simp [lexer.shift]; omega
    rw [hlen, lexNumberLoop_shift, lexNumberLoop_mono _ _ _ _ _ h]
    rfl
  | lexString =>
    simp only [stateFunc.call, lexString] at h ⊢
    have hlen : (l.shift pre).input.length + 1 = (l.input.length + 1) + pre.length := by
      simp [lexer.shift]; omega
    rw [hlen, lexStringLoop_shift, lexStringLoop_mono _ _ _ h]
    rfl

theorem runLoop_shift (pre : List Nat) :
    ∀ (fuel : Nat) (st : stateFunc) (l l1 : lexer),
      runLoop fuel st l = some l1 → ∀ k, runLoop (fuel + k) st (l.shift pre) = some (l1.shift pre) := by
  intro fuel
  induction fuel with
  | zero => intro st l l1 h; simp [runLoop] at h
  | succ fuel ih =>
    intro st l l1 h k
    have hk : fuel + 1 + k = (fuel + k) + 1 := by omega
    rw [hk]
    rw [runLoop] at h ⊢
    rcases hc : st.call l with _ | ⟨st1, l2⟩
    · rw [hc] at h; simp at h
    · rw [hc] at h
      rw [call_shift pre st l _ hc]
      cases st1 with
      | none =>
        simp only [Option.some.injEq] at h ⊢
        rw [h]
      | some st2 =>
        simp only at h ⊢
        exact ih _ _ _ h k

/-- One whitespace byte in front of the input leaves the tokens as they are. -/
theorem Lex_cons_white (b : Nat) (s : List Nat) (hb : isWhiteSpace b = true) :
    Lex (b :: s) = Lex s := by
  obtain ⟨l1, toks, h1, h2, _, _⟩ := run_trace s
  have hstep : stateFunc.lex.call (newLexer (b :: s)) =
      some (some stateFunc.lex, (newLexer s).shift [b]) := by
    have hd : isDigit b = false := by
      unfold isWhiteSpace at hb
      unfold isDigit
      simp at hb ⊢
      omega
    have h45 : b ≠ 45 := by
      intro h; subst h; simp [isWhiteSpace] at hb
    simp [stateFunc.call, lex, lexer.next, newLexer, hd, h45, hb, lexer.ignore, lexer.shift]
  have hrun : (newLexer (b :: s)).run = some (l1.shift [b]) := by
    unfold lexer.run at h1 ⊢
    have hf : 2 * (newLexer (b :: s)).input.length + 2 =
        ((2 * (newLexer s).input.length + 2) + 1) + 1 := by
      simp [newLexer]; omega
    rw [hf, runLoop, hstep]
    exact runLoop_shift [b] _ _ _ _ h1 1
  simp [Lex, hrun, h1, lexer.shift]

theorem parser.ProvCur.addErr_prov {p : parser} {toks : List Token} (h : p.ProvCur toks)
    (e : List Nat) (he : p.err = none → GrammarError toks e) : (p.addErr e).ProvCur toks := by
  unfold parser.addErr
  split_ifs with herr
  · obtain ⟨⟨pre, h1, h2, h3⟩, _⟩ := h
    refine ⟨⟨pre, h1, fun hn => by simp at hn, ?_⟩, fun hn => by simp at hn⟩
    intro msg hm
    simp only [Option.some.injEq] at hm
    subst hm
    exact Or.inl (he herr)
  · exact h

theorem parser.Prov.next_prov {p : parser} {toks : List Token} (h : p.Prov toks) :
    p.next.ProvCur toks := by
  obtain ⟨pre, h1, h2, h3⟩ := h
  unfold parser.next parser.recv
  cases ht : p.tokens with
  | nil =>
    rw [ht] at h1
    simp only [if_true]
    unfold parser.addErr
    simp only [ht]
    split_ifs with herr
    · refine ⟨⟨pre, by simpa using h1, fun hn => by simp at hn, ?_⟩, fun hn => by simp at hn⟩
      intro msg hm
      simp only [Option.some.injEq] at hm
      subst hm
      refine Or.inr (Or.inr ⟨rfl, rfl, ?_⟩)
      rw [h1, List.append_nil]
      exact h2 herr
    · refine ⟨⟨pre, by simpa using h1, fun hn => absurd hn herr, ?_⟩, fun hn => absurd hn herr⟩
      intro msg hm
      rcases h3 msg hm with g | g | g
      · exact Or.inl g
      · exact Or.inr (Or.inl g)
      · exact Or.inr (Or.inr ⟨g.1, rfl, g.2.2⟩)
  | cons t rest =>
    rw [ht] at h1
    have h1b : toks = (pre ++ [t]) ++ rest := by simp [h1]
    have hmem : t ∈ toks := by rw [h1]; simp
    simp only
    by_cases hill : t.Typ = TokenIllegal
    · rw [if_pos hill]
      unfold parser.addErr
      simp only
      split_ifs with herr
      · refine ⟨⟨pre ++ [t], h1b, fun hn => by simp at hn, ?_⟩, fun hn => by simp at hn⟩
        intro msg hm
        simp only [Option.some.injEq] at hm
        subst hm
        exact Or.inr (Or.inl ⟨t, by simp, hill, rfl⟩)
      · refine ⟨⟨pre ++ [t], h1b, fun hn => absurd hn herr, ?_⟩, fun hn => absurd hn herr⟩
        intro msg hm
        rcases h3 msg hm with g | ⟨u, hu, g⟩ | g
        · exact Or.inl g
        · exact Or.inr (Or.inl ⟨u, by simp [hu], g⟩)
        · rw [ht] at g
          exact absurd g.2.1 (by simp)
    · rw [if_neg hill]
      refine ⟨⟨pre ++ [t], h1b, ?_, ?_⟩, fun _ => ⟨hmem, hill⟩⟩
      · intro hn u hu
        rcases List.mem_append.mp hu with hu | hu
        · exact h2 hn u hu
        · simp only [List.mem_singleton] at hu
          rw [hu]; exact hill
      · intro msg hm
        rcases h3 msg hm with g | ⟨u, hu, g⟩ | g
        · exact Or.inl g
        · exact Or.inr (Or.inl ⟨u, by simp [hu], g⟩)
        · rw [ht] at g
          exact absurd g.2.1 (by simp)

theorem parser.ProvCur.expect_prov {p : parser} {toks : List Token} (h : p.ProvCur toks)
    (token : TokenType) : (p.expect token).ProvCur toks := by
  unfold parser.expect
  split_ifs with hill hne
  · exact h.addErr_prov _ (fun hn => absurd hill (h.2 hn).2)
  · exact (h.addErr_prov _ (fun hn => ⟨p.cur, (h.2 hn).1, (h.2 hn).2, Or.inl ⟨token, rfl⟩⟩)).1.next_prov
  · exact h.1.next_prov

theorem parser.ProvCur.parseLiteral_prov {p : parser} {toks : List Token} (h : p.ProvCur toks) :
    p.parseLiteral.2.ProvCur toks := by
  unfold parser.parseLiteral
  split_ifs
  · exact h
  · exact h.1.next_prov

/-- The error that the parse functions record is a grammar error or the text of a received
`Illegal` token (or the empty text of the closed channel). -/
theorem parse_prov (toks : List Token) : ∀ fuel : Nat,
    (∀ p r, p.ProvCur toks → parseValue fuel p = some r → r.2.ProvCur toks) ∧
    (∀ p r, p.ProvCur toks → parseObject fuel p = some r → r.2.ProvCur toks) ∧
    (∀ acc p r, p.ProvCur toks → parseObjectLoop fuel acc p = some r → r.2.ProvCur toks) ∧
    (∀ p r, p.ProvCur toks → parseArray fuel p = some r → r.2.ProvCur toks) ∧
    (∀ acc p r, p.ProvCur toks → parseArrayLoop fuel acc p = some r → r.2.ProvCur toks) := by
  intro fuel
  induction fuel with
  | zero =>
    refine ⟨?_, ?_, ?_, ?_, ?_⟩ <;> intros <;> simp_all [parseValue, parseObject, parseObjectLoop, parseArray, parseArrayLoop]
  | succ fuel ih =>
    obtain ⟨ihV, ihO, ihOL, ihA, ihAL⟩ := ih
    refine ⟨?_, ?_, ?_, ?_, ?_⟩
    · intro p r hp h
      unfold parseValue at h
      split_ifs at h with herr
      · cases h; exact hp
      · have hg : p.err = none → GrammarError toks (str "unexpected token " ++ p.cur.Value) :=
          fun hn => ⟨p.cur, (hp.2 hn).1, (hp.2 hn).2, Or.inr (Or.inr rfl)⟩
        split at h
        · cases ho : parseObject fuel p with
          | none => simp [ho] at h
          | some ro =>
            simp only [ho] at h
            cases h
            exact ihO p ro hp ho
        · cases ha : parseArray fuel p with
          | none => simp [ha] at h
          | some ra =>
            simp only [ha] at h
            cases h
            exact ihA p ra hp ha
        all_goals
          first
          | (cases h; exact hp.parseLiteral_prov)
          | (cases h; exact hp.addErr_prov _ hg)
    · intro p r hp h
      unfold parseObject at h
      dsimp only at h
      split_ifs at h with herr hcur
      · cases h; exact hp
      · exact ihOL _ _ _ (hp.expect_prov _) h
      · cases h; exact hp.expect_prov _
    · intro acc p r hp h
      unfold parseObjectLoop at h
      have hl := hp.parseLiteral_prov
      rcases hlit : p.parseLiteral with ⟨lit, p1⟩
      rw [hlit] at h hl
      simp only at hl
      cases lit with
      | none => simp only at h; cases h; exact hl
      | some kv =>
        obtain ⟨value, typ⟩ := kv
        simp only at h
        have hkey : p.err = none ∧ value = p.cur.Value := by
          unfold parser.parseLiteral at hlit
          split_ifs at hlit with he
          · cases hlit
          · simp only [Prod.mk.injEq, Option.some.injEq] at hlit
            exact ⟨not_not.mp he, hlit.1.1.symm⟩
        split_ifs at h with hty
        · cases hv : parseValue fuel (p1.expect TokenColon) with
          | none => simp [hv] at h
          | some rv =>
            obtain ⟨v, p2⟩ := rv
            have h2 := ihV _ _ (hl.expect_prov TokenColon) hv
            simp only at h2
            simp only [hv] at h
            cases v with
            | none => simp only at h; cases h; exact h2
            | some v =>
              simp only at h
              split_ifs at h with hc
              · cases h; exact h2.1.next_prov
              · exact ihOL _ _ _ (h2.expect_prov _) h
        · cases h
          refine hl.addErr_prov _ (fun _ => ⟨p.cur, (hp.2 hkey.1).1, (hp.2 hkey.1).2, Or.inr (Or.inl ?_)⟩)
          rw [hkey.2]
    · intro p r hp h
      unfold parseArray at h
      dsimp only at h
      split_ifs at h with herr hcur
      · cases h; exact hp
      · exact ihAL _ _ _ (hp.expect_prov _) h
      · cases h; exact hp.expect_prov _
    · intro acc p r hp h
      unfold parseArrayLoop at h
      cases hv : parseValue fuel p with
      | none => simp [hv] at h
      | some rv =>
        obtain ⟨v, p2⟩ := rv
        have h2 := ihV _ _ hp hv
        simp only at h2
        simp only [hv] at h
        cases v with
        | none => simp only at h; cases h; exact h2
        | some v =>
          simp only at h
          split_ifs at h with hc
          · cases h; exact h2.1.next_prov
          · exact ihAL _ _ _ (h2.expect_prov _) h

/-- The error that `Parse` returns is the recorded error of the parser as it is left, and
its provenance is as `parser.Prov` says. -/
theorem parseTokens_prov (toks : List Token) (r : Option Json × Option (List Nat))
    (p : parser) (h : parseTokens toks = some (r, p)) : p.Prov toks ∧ r.2 = p.err := by
  unfold parseTokens parser.parse at h
  dsimp only at h
  set p0 : parser := { tokens := toks, cur := ⟨TokenIllegal, []⟩, err := none } with hp0
  have h0 : p0.Prov toks := ⟨[], rfl, fun _ t ht => by simp at ht, fun msg hm => by simp [hp0] at hm⟩
  have h1 : p0.next.ProvCur toks := h0.next_prov
  by_cases herr : p0.next.err ≠ none
  · rw [if_pos herr] at h
    simp only [if_pos herr, Option.some.injEq, Prod.mk.injEq] at h
    obtain ⟨h, rfl⟩ := h
    rw [← h]
    exact ⟨h1.1, rfl⟩
  · rw [if_neg herr] at h
    cases hv : parseValue (3 * toks.length + 3) p0.next with
    | none => simp [hv] at h
    | some rv =>
      obtain ⟨v, p2⟩ := rv
      have h2 := (parse_prov toks _).1 _ _ h1 hv
      simp only at h2
      simp only [hv] at h
      split_ifs at h with herr2 heof
      · simp only [Option.some.injEq, Prod.mk.injEq] at h
        obtain ⟨h, rfl⟩ := h
        rw [← h]
        exact ⟨h2.1, rfl⟩
      · simp only [Option.some.injEq, Prod.mk.injEq] at h
        obtain ⟨h, rfl⟩ := h
        rw [← h]
        refine ⟨(h2.addErr_prov _ (fun hn => ⟨p2.cur, (h2.2 hn).1, (h2.2 hn).2,
          Or.inl ⟨TokenEof, rfl⟩⟩)).1, rfl⟩
      · simp only [Option.some.injEq, Prod.mk.injEq] at h
        obtain ⟨h, rfl⟩ := h
        rw [← h]
        exact ⟨h2.1, (not_not.mp herr2).symm⟩

/-- The three sources of the error that `Parse` returns on the tokens of an input: a grammar
error; or, with every token received, the empty text of the closed channel or the message
of the `Illegal` token that ends the tokens. -/
theorem parseTokens_error {input : List Nat} {toks : List Token} (h : Lex input = some toks)
    {r : Option Json × Option (List Nat)} {p : parser} (hp : parseTokens toks = some (r, p))
    {msg : List Nat} (hm : r.2 = some msg) :
    GrammarError toks msg ∨
      (p.tokens = [] ∧ ((msg = [] ∧ ∀ t ∈ toks, t.Typ ≠ TokenIllegal) ∨
        (∃ init, toks = init ++ [⟨TokenIllegal, msg⟩]))) := by
  obtain ⟨T, h1, h2⟩ := Lex_trace input
  rw [h] at h1
  cases h1
  obtain ⟨⟨pre, e1, _, e3⟩, e4⟩ := parseTokens_prov toks r p hp
  rw [e4] at hm
  rcases e3 msg hm with g | ⟨t, ht, hill, hv⟩ | ⟨g1, g2, g3⟩
  · exact Or.inl g
  · right
    obtain ⟨init, last, s1, s2, _⟩ := h2.shape
    have hlast : p.tokens = [] ∧ t = last := by
      rcases List.eq_nil_or_concat p.tokens with hnil | ⟨L, b, hb⟩
      · rw [hnil, List.append_nil] at e1
        rw [← e1, s1] at ht
        rcases List.mem_append.mp ht with hi | hi
        · exact absurd hill (s2 t hi).1
        · exact ⟨hnil, by simpa using hi⟩
      · exfalso
        rw [hb, List.concat_eq_append, ← List.append_assoc, s1] at e1
        have := List.append_inj_left' e1 rfl
        have hin : t ∈ init := by rw [this]; exact List.mem_append_left _ ht
        exact (s2 t hin).1 hill
    refine ⟨hlast.1, Or.inr ⟨init, ?_⟩⟩
    rw [s1, ← hlast.2, hv]
    cases t
    simp_all
  · exact Or.inr ⟨g2, Or.inl ⟨g1, g3⟩⟩

theorem parser.addErr_sticky {p : parser} {E : List Nat} (h : p.err = some E)
    (e : List Nat) : (p.addErr e).err = some E := by
  unfold parser.addErr
  split_ifs with h1
  · rw [h] at h1; cases h1
  · exact h

theorem parser.next_sticky {p : parser} {E : List Nat} (h : p.err = some E) :
    p.next.err = some E := by
  have hr : p.recv.err = some E := by
    unfold parser.recv
    cases p.tokens <;> exact h
  unfold parser.next
  simp only
  split_ifs
  · exact parser.addErr_sticky hr _
  · exact hr

theorem parser.expect_sticky {p : parser} {E : List Nat} (h : p.err = some E)
    (token : TokenType) : (p.expect token).err = some E := by
  unfold parser.expect
  split_ifs
  · exact parser.addErr_sticky h _
  · exact parser.next_sticky (parser.addErr_sticky h _)
  · exact parser.next_sticky h

theorem parser.parseLiteral_sticky {p : parser} {E : List Nat} (h : p.err = some E) :
    p.parseLiteral.2.err = some E := by
  unfold parser.parseLiteral
  split_ifs
  · exact h
  · exact parser.next_sticky h

/-- A recorded error stays: the first error wins. -/
theorem parse_sticky (E : List Nat) : ∀ fuel : Nat,
    (∀ p r, p.err = some E → parseValue fuel p = some r → r.2.err = some E) ∧
    (∀ p r, p.err = some E → parseObject fuel p = some r → r.2.err = some E) ∧
    (∀ acc p r, p.err = some E → parseObjectLoop fuel acc p = some r → r.2.err = some E) ∧
    (∀ p r, p.err = some E → parseArray fuel p = some r → r.2.err = some E) ∧
    (∀ acc p r, p.err = some E → parseArrayLoop fuel acc p = some r → r.2.err = some E) := by
  intro fuel
  induction fuel with
  | zero =>
    refine ⟨?_, ?_, ?_, ?_, ?_⟩ <;> intros <;> simp_all [parseValue, parseObject, parseObjectLoop, parseArray, parseArrayLoop]
  | succ fuel ih =>
    obtain ⟨ihV, ihO, ihOL, ihA, ihAL⟩ := ih
    refine ⟨?_, ?_, ?_, ?_, ?_⟩
    · intro p r hp h
      unfold parseValue at h
      split_ifs at h with herr
      · cases h; exact hp
      · rw [hp] at herr
        exact absurd (by simp) herr
    · intro p r hp h
      unfold parseObject at h
      dsimp only at h
      split_ifs at h with herr hcur
      · cases h; exact hp
      · exact ihOL _ _ _ (parser.expect_sticky hp _) h
      · cases h; exact parser.expect_sticky hp _
    · intro acc p r hp h
      unfold parseObjectLoop at h
      have hl : p.parseLiteral = (none, p) := by
        unfold parser.parseLiteral
        rw [if_pos (by rw [hp]; simp)]
      rw [hl] at h
      simp only at h
      cases h
      exact hp
    · intro p r hp h
      unfold parseArray at h
      dsimp only at h
      split_ifs at h with herr hcur
      · cases h; exact hp
      · exact ihAL _ _ _ (parser.expect_sticky hp _) h
      · cases h; exact parser.expect_sticky hp _
    · intro acc p r hp h
      unfold parseArrayLoop at h
      cases hv : parseValue fuel p with
      | none => simp [hv] at h
      | some rv =>
        obtain ⟨v, p2⟩ := rv
        have h2 := ihV _ _ hp hv
        simp only at h2
        simp only [hv] at h
        cases v with
        | none => simp only at h; cases h; exact h2
        | some v =>
          simp only at h
          split_ifs at h with hc
          · cases h; exact parser.next_sticky h2
          · exact ihAL _ _ _ (parser.expect_sticky h2 _) h

theorem parser.next_token (t c : Token) (ts : List Token) (ht : t.Typ ≠ TokenIllegal) :
    (⟨t :: ts, c, none⟩ : parser).next = ⟨ts, t, none⟩ := by
  simp [parser.next, parser.recv, ht]

theorem parser.expect_cons (t c : Token) (ts : List Token) (k : TokenType)
    (hc : c.Typ = k) (hk : k ≠ TokenIllegal) (ht : t.Typ ≠ TokenIllegal) :
    (⟨t :: ts, c, none⟩ : parser).expect k = ⟨ts, t, none⟩ := by
  unfold parser.expect
  simp only [hc, if_neg hk, ne_eq, not_true_eq_false, if_false]
  exact parser.next_token t c ts ht

theorem parser.parseLiteral_cons (t c : Token) (ts : List Token) (ht : t.Typ ≠ TokenIllegal) :
    (⟨t :: ts, c, none⟩ : parser).parseLiteral = (some (c.Value, c.Typ), ⟨ts, t, none⟩) := by
  unfold parser.parseLiteral
  simp only [ne_eq, not_true_eq_false, if_false]
  rw [parser.next_token t c ts ht]

/-- The spelling of a proper tree starts with `{`, `[` or a literal token. -/
theorem Value.proper_spell {v : Value} (h : v.proper = true) :
    ∃ t rest, v.spell = t :: rest ∧ t.Typ ≠ TokenIllegal ∧ t.Typ ≠ TokenRbrack ∧
      t.Typ ≠ TokenRbrace := by
  cases v with
  | Object els =>
    exact ⟨⟨TokenLbrace, [123]⟩, spellElements els ++ [⟨TokenRbrace, [125]⟩],
      by simp [Value.spell], by simp, by simp, by simp⟩
  | Array vs =>
    exact ⟨⟨TokenLbrack, [91]⟩, spellValues vs ++ [⟨TokenRbrack, [93]⟩],
      by simp [Value.spell], by simp, by simp, by simp⟩
  | Literal value typ =>
    simp only [Value.proper, decide_eq_true_eq] at h
    refine ⟨⟨typ, value⟩, [], by simp [Value.spell], ?_, ?_, ?_⟩ <;>
      (rcases h with h | h | h | h | h <;> simp [h])
  | nilObject => simp [Value.proper] at h
  | nilArray => simp [Value.proper] at h
  | nilLiteral => simp [Value.proper] at h

theorem spellElements_single (key : List Nat) (v : Value) :
    spellElements [(key, v)] = ⟨TokenString, key⟩ :: ⟨TokenColon, [58]⟩ :: v.spell := by
  simp [spellElements]

theorem spellElements_cons (key : List Nat) (v : Value) (e : List Nat × Value)
    (rest : List (List Nat × Value)) :
    spellElements ((key, v) :: e :: rest) =
      ⟨TokenString, key⟩ :: ⟨TokenColon, [58]⟩ :: (v.spell ++
        ⟨TokenComma, [44]⟩ :: spellElements (e :: rest)) := by
  simp [spellElements]

theorem spellElements_head {els : List (List Nat × Value)} (h : els ≠ []) :
    ∃ key rest, spellElements els = ⟨TokenString, key⟩ :: rest := by
  match els, h with
  | [(key, v)], _ => exact ⟨key, _, spellElements_single key v⟩
  | (key, v) :: e :: rest, _ => exact ⟨key, _, spellElements_cons key v e rest⟩

theorem spellValues_single (v : Value) : spellValues [v] = v.spell := by
  simp [spellValues]

theorem spellValues_cons (v w : Value) (rest : List Value) :
    spellValues (v :: w :: rest) = v.spell ++ ⟨TokenComma, [44]⟩ :: spellValues (w :: rest) := by
  simp [spellValues]

theorem spellValues_head {vs : List Value} (h : vs ≠ []) (hp : valuesProper vs = true) :
    ∃ t rest, spellValues vs = t :: rest ∧ t.Typ ≠ TokenIllegal ∧ t.Typ ≠ TokenRbrack := by
  match vs, h, hp with
  | [v], _, hp =>
    simp only [valuesProper, Bool.and_true] at hp
    obtain ⟨t, sp, h1, h2, h3, _⟩ := Value.proper_spell hp
    exact ⟨t, sp, by rw [spellValues_single, h1], h2, h3⟩
  | v :: w :: rest, _, hp =>
    simp only [valuesProper, Bool.and_eq_true] at hp
    obtain ⟨t, sp, h1, h2, h3, _⟩ := Value.proper_spell hp.1
    exact ⟨t, _, by rw [spellValues_cons, h1]; rfl, h2, h3⟩

/-- One turn of the loop of `parseArray` at a value that parses to `v`. -/
theorem parseArrayLoop_step (fuel : Nat) (acc : List Value) (v : Value) (c r : Token)
    (ts rs : List Token) (res : Option (List Value) × parser)
    (hCV : ∀ res2, parseValue fuel ⟨ts, c, none⟩ = some res2 → res2 = (some v, ⟨rs, r, none⟩))
    (h : parseArrayLoop (fuel + 1) acc ⟨ts, c, none⟩ = some res) :
    if r.Typ = TokenRbrack then res = (some (acc ++ [v]), (⟨rs, r, none⟩ : parser).next)
    else parseArrayLoop fuel (acc ++ [v]) ((⟨rs, r, none⟩ : parser).expect TokenComma) =
      some res := by
  unfold parseArrayLoop at h
  cases hv : parseValue fuel ⟨ts, c, none⟩ with
  | none => simp [hv] at h
  | some rv =>
    have := hCV rv hv
    subst this
    simp only [hv] at h
    split_ifs at h ⊢ with hc
    · cases h; rfl
    · exact h

/-- One turn of the loop of `parseObject` at a member whose value parses to `v`. -/
theorem parseObjectLoop_step (fuel : Nat) (acc : List (List Nat × Value)) (key : List Nat)
    (v : Value) (c r : Token) (ts rs : List Token)
    (res : Option (List (List Nat × Value)) × parser) (hc : c.Typ ≠ TokenIllegal)
    (hCV : ∀ res2, parseValue fuel ⟨ts, c, none⟩ = some res2 → res2 = (some v, ⟨rs, r, none⟩))
    (h : parseObjectLoop (fuel + 1) acc
      ⟨⟨TokenColon, [58]⟩ :: c :: ts, ⟨TokenString, key⟩, none⟩ = some res) :
    if r.Typ = TokenRbrace then res = (some (acc ++ [(key, v)]), (⟨rs, r, none⟩ : parser).next)
    else parseObjectLoop fuel (acc ++ [(key, v)]) ((⟨rs, r, none⟩ : parser).expect TokenComma) =
      some res := by
  unfold parseObjectLoop at h
  rw [parser.parseLiteral_cons _ _ _ (by simp)] at h
  simp only [if_true] at h
  rw [parser.expect_cons c _ ts TokenColon rfl (by simp) hc] at h
  cases hv : parseValue fuel ⟨ts, c, none⟩ with
  | none => simp [hv] at h
  | some rv =>
    have := hCV rv hv
    subst this
    simp only [hv] at h
    split_ifs at h ⊢ with hc
    · cases h; rfl
    · exact h

/-- The parser reads the spelling of a proper tree back: from the tokens of the tree,
followed by a token that is not `Illegal`, it returns the tree, with no error, and stands at
the token that follows. -/
theorem parse_complete : ∀ fuel : Nat,
    (∀ v c ts r rs res, c :: ts = v.spell ++ r :: rs → r.Typ ≠ TokenIllegal →
      v.proper = true → parseValue fuel ⟨ts, c, none⟩ = some res →
      res = (some v, ⟨rs, r, none⟩)) ∧
    (∀ els ts r rs res, ts = spellElements els ++ ⟨TokenRbrace, [125]⟩ :: r :: rs →
      r.Typ ≠ TokenIllegal → els ≠ [] → elementsProper els = true →
      parseObject fuel ⟨ts, ⟨TokenLbrace, [123]⟩, none⟩ = some res →
      res = (some els, ⟨rs, r, none⟩)) ∧
    (∀ els acc c ts r rs res, c :: ts = spellElements els ++ ⟨TokenRbrace, [125]⟩ :: r :: rs →
      r.Typ ≠ TokenIllegal → els ≠ [] → elementsProper els = true →
      parseObjectLoop fuel acc ⟨ts, c, none⟩ = some res →
      res = (some (acc ++ els), ⟨rs, r, none⟩)) ∧
    (∀ vs ts r rs res, ts = spellValues vs ++ ⟨TokenRbrack, [93]⟩ :: r :: rs →
      r.Typ ≠ TokenIllegal → vs ≠ [] → valuesProper vs = true →
      parseArray fuel ⟨ts, ⟨TokenLbrack, [91]⟩, none⟩ = some res →
      res = (some vs, ⟨rs, r, none⟩)) ∧
    (∀ vs acc c ts r rs res, c :: ts = spellValues vs ++ ⟨TokenRbrack, [93]⟩ :: r :: rs →
      r.Typ ≠ TokenIllegal → vs ≠ [] → valuesProper vs = true →
      parseArrayLoop fuel acc ⟨ts, c, none⟩ = some res →
      res = (some (acc ++ vs), ⟨rs, r, none⟩)) := by
  intro fuel
  induction fuel with
  | zero =>
    refine ⟨?_, ?_, ?_, ?_, ?_⟩ <;> intros <;> simp_all [parseValue, parseObject, parseObjectLoop, parseArray, parseArrayLoop]
  | succ fuel ih =>
    obtain ⟨ihV, ihO, ihOL, ihA, ihAL⟩ := ih
    refine ⟨?_, ?_, ?_, ?_, ?_⟩
    · intro v c ts r rs res hs hr hv h
      cases v with
      | Object els =>
        simp only [Value.proper, Bool.and_eq_true, Bool.not_eq_true', List.isEmpty_eq_false] at hv
        simp only [Value.spell, List.singleton_append, List.cons_append, List.append_assoc,
          List.cons.injEq] at hs
        obtain ⟨rfl, rfl⟩ := hs
        unfold parseValue at h
        simp only [ne_eq, not_true_eq_false, if_false, List.nil_append] at h
        cases ho : parseObject fuel
            ⟨spellElements els ++ ⟨TokenRbrace, [125]⟩ :: r :: rs, ⟨TokenLbrace, [123]⟩, none⟩ with
        | none => simp [ho] at h
        | some ro =>
          have := ihO els _ r rs ro rfl hr (by simpa using hv.1) hv.2 ho
          subst this
          rw [ho] at h
          cases h
          rfl
      | Array vs =>
        simp only [Value.proper, Bool.and_eq_true, Bool.not_eq_true', List.isEmpty_eq_false] at hv
        simp only [Value.spell, List.singleton_append, List.cons_append, List.append_assoc,
          List.cons.injEq] at hs
        obtain ⟨rfl, rfl⟩ := hs
        unfold parseValue at h
        simp only [ne_eq, not_true_eq_false, if_false, List.nil_append] at h
        cases ha : parseArray fuel
            ⟨spellValues vs ++ ⟨TokenRbrack, [93]⟩ :: r :: rs, ⟨TokenLbrack, [91]⟩, none⟩ with
        | none => simp [ha] at h
        | some ra =>
          have := ihA vs _ r rs ra rfl hr (by simpa using hv.1) hv.2 ha
          subst this
          rw [ha] at h
          cases h
          rfl
      | Literal value typ =>
        simp only [Value.proper, decide_eq_true_eq] at hv
        simp only [Value.spell, List.singleton_append, List.cons.injEq] at hs
        obtain ⟨rfl, rfl⟩ := hs
        unfold parseValue at h
        simp only [ne_eq, not_true_eq_false, if_false] at h
        rw [parser.parseLiteral_cons _ _ _ hr] at h
        rcases hv with hv | hv | hv | hv | hv <;> subst hv <;> simp only at h <;> cases h <;> rfl
      | nilObject => simp [Value.proper] at hv
      | nilArray => simp [Value.proper] at hv
      | nilLiteral => simp [Value.proper] at hv
    · intro els ts r rs res hs hr hne hp h
      obtain ⟨key, rest, hk⟩ := spellElements_head hne
      rw [hk] at hs
      subst hs
      unfold parseObject at h
      simp only [ne_eq, not_true_eq_false, if_false, List.cons_append] at h
      rw [parser.expect_cons _ _ _ TokenLbrace rfl (by simp) (by simp)] at h
      simp only [if_true] at h
      have := ihOL els [] ⟨TokenString, key⟩ _ r rs res (by rw [hk]; rfl) hr hne hp h
      simpa using this
    · intro els acc c ts r rs res hs hr hne hp h
      match els, hne, hp with
      | [(key, v)], _, hp =>
        simp only [elementsProper, Bool.and_true] at hp
        obtain ⟨t, sp, h1, h2, _, _⟩ := Value.proper_spell hp
        rw [spellElements_single, h1] at hs
        simp only [List.cons_append, List.cons.injEq] at hs
        obtain ⟨rfl, rfl⟩ := hs
        have := parseObjectLoop_step fuel acc key v t ⟨TokenRbrace, [125]⟩ _ (r :: rs) res h2
          (fun res2 h3 => ihV v t _ _ _ res2 (by rw [h1]; rfl) (by simp) hp h3) h
        simp only [if_true] at this
        rw [this, parser.next_token _ _ _ hr]
      | (key, v) :: e :: rest, _, hp =>
        simp only [elementsProper, Bool.and_eq_true] at hp
        obtain ⟨t, sp, h1, h2, _, _⟩ := Value.proper_spell hp.1
        obtain ⟨key2, rest2, hk⟩ := spellElements_head (List.cons_ne_nil e rest)
        rw [spellElements_cons, h1] at hs
        simp only [List.cons_append, List.cons.injEq, List.append_assoc] at hs
        obtain ⟨rfl, rfl⟩ := hs
        have := parseObjectLoop_step fuel acc key v t ⟨TokenComma, [44]⟩ _
          (spellElements (e :: rest) ++ ⟨TokenRbrace, [125]⟩ :: r :: rs) res h2
          (fun res2 h3 => ihV v t _ _ _ res2 (by rw [h1]; rfl) (by simp) hp.1 h3) h
        simp only [reduceCtorEq, if_false] at this
        rw [hk, List.cons_append,
          parser.expect_cons _ _ _ TokenComma rfl (by simp) (by simp)] at this
        have h4 := ihOL (e :: rest) (acc ++ [(key, v)]) _ _ r rs res (by rw [hk]; rfl) hr
          (List.cons_ne_nil e rest) (by simpa [elementsProper] using hp.2) this
        simpa using h4
    · intro vs ts r rs res hs hr hne hp h
      obtain ⟨t, rest, hk, ht, ht2⟩ := spellValues_head hne hp
      rw [hk] at hs
      subst hs
      unfold parseArray at h
      simp only [ne_eq, not_true_eq_false, if_false, List.cons_append] at h
      rw [parser.expect_cons _ _ _ TokenLbrack rfl (by simp) ht] at h
      simp only [ht2, not_false_eq_true, if_true] at h
      have := ihAL vs [] t _ r rs res (by rw [hk]; rfl) hr hne hp h
      simpa using this
    · intro vs acc c ts r rs res hs hr hne hp h
      match vs, hne, hp with
      | [v], _, hp =>
        simp only [valuesProper, Bool.and_true] at hp
        rw [spellValues_single] at hs
        have := parseArrayLoop_step fuel acc v c ⟨TokenRbrack, [93]⟩ ts (r :: rs) res
          (fun res2 h3 => ihV v c ts _ _ res2 hs (by simp) hp h3) h
        simp only [if_true] at this
        rw [this, parser.next_token _ _ _ hr]
      | v :: w :: rest, _, hp =>
        simp only [valuesProper, Bool.and_eq_true] at hp
        obtain ⟨t2, rest2, hk, ht, _⟩ := spellValues_head (List.cons_ne_nil w rest)
          (by simpa [valuesProper] using hp.2)
        rw [spellValues_cons, List.append_assoc, List.cons_append] at hs
        have := parseArrayLoop_step fuel acc v c ⟨TokenComma, [44]⟩ ts
          (spellValues (w :: rest) ++ ⟨TokenRbrack, [93]⟩ :: r :: rs) res
          (fun res2 h3 => ihV v c ts _ _ res2 hs (by simp) hp.1 h3) h
        simp only [reduceCtorEq, if_false] at this
        rw [hk, List.cons_append,
          parser.expect_cons _ _ _ TokenComma rfl (by simp) ht] at this
        have h4 := ihAL (w :: rest) (acc ++ [v]) _ _ r rs res (by rw [hk]; rfl) hr
          (List.cons_ne_nil w rest) (by simpa [valuesProper] using hp.2) this
        simpa using h4

/-- The loop of `parseArray` reads complete values and their commas, and goes on at the
tokens after the last comma. -/
theorem parseArrayLoop_segment (c0 : Token) (ts0 : List Token) (h0 : c0.Typ ≠ TokenIllegal)
    (res : Option (List Value) × parser) :
    ∀ vs : List Value, vs ≠ [] → valuesProper vs = true →
      ∀ fuel acc c ts, c :: ts = spellValues vs ++ ⟨TokenComma, [44]⟩ :: c0 :: ts0 →
        parseArrayLoop fuel acc ⟨ts, c, none⟩ = some res →
        ∃ fuel1, parseArrayLoop fuel1 (acc ++ vs) ⟨ts0, c0, none⟩ = some res := by
  intro vs
  induction vs with
  | nil => intro h; exact absurd rfl h
  | cons v rest ih =>
    intro _ hp fuel acc c ts hs h
    simp only [valuesProper, Bool.and_eq_true] at hp
    cases fuel with
    | zero => simp [parseArrayLoop] at h
    | succ fuel =>
      cases rest with
      | nil =>
        rw [spellValues_single] at hs
        have := parseArrayLoop_step fuel acc v c ⟨TokenComma, [44]⟩ ts (c0 :: ts0) res
          (fun res2 h3 => (parse_complete fuel).1 v c ts _ _ res2 hs (by simp) hp.1 h3) h
        simp only [reduceCtorEq, if_false] at this
        rw [parser.expect_cons _ _ _ TokenComma rfl (by simp) h0] at this
        exact ⟨fuel, this⟩
      | cons w rest =>
        obtain ⟨t2, rest2, hk, ht, _⟩ := spellValues_head (List.cons_ne_nil w rest) hp.2
        rw [spellValues_cons, List.append_assoc, List.cons_append] at hs
        have := parseArrayLoop_step fuel acc v c ⟨TokenComma, [44]⟩ ts
          (spellValues (w :: rest) ++ ⟨TokenComma, [44]⟩ :: c0 :: ts0) res
          (fun res2 h3 => (parse_complete fuel).1 v c ts _ _ res2 hs (by simp) hp.1 h3) h
        simp only [reduceCtorEq, if_false] at this
        rw [hk, List.cons_append,
          parser.expect_cons _ _ _ TokenComma rfl (by simp) ht] at this
        obtain ⟨fuel1, h4⟩ := ih (List.cons_ne_nil w rest) hp.2 fuel (acc ++ [v]) t2 _
          (by rw [hk]; rfl) this
        exact ⟨fuel1, by simpa using h4⟩

/-- The loop of `parseObject` reads complete members and their commas, and goes on at the
tokens after the last comma. -/
theorem parseObjectLoop_segment (c0 : Token) (ts0 : List Token) (h0 : c0.Typ ≠ TokenIllegal)
    (res : Option (List (List Nat × Value)) × parser) :
    ∀ els : List (List Nat × Value), els ≠ [] → elementsProper els = true →
      ∀ fuel acc c ts, c :: ts = spellElements els ++ ⟨TokenComma, [44]⟩ :: c0 :: ts0 →
        parseObjectLoop fuel acc ⟨ts, c, none⟩ = some res →
        ∃ fuel1, parseObjectLoop fuel1 (acc ++ els) ⟨ts0, c0, none⟩ = some res := by
  intro els
  induction els with
  | nil => intro h; exact absurd rfl h
  | cons e rest ih =>
    obtain ⟨key, v⟩ := e
    intro _ hp fuel acc c ts hs h
    simp only [elementsProper, Bool.and_eq_true] at hp
    obtain ⟨t, sp, h1, h2, _, _⟩ := Value.proper_spell hp.1
    cases fuel with
    | zero => simp [parseObjectLoop] at h
    | succ fuel =>
      cases rest with
      | nil =>
        rw [spellElements_single, h1] at hs
        simp only [List.cons_append, List.cons.injEq] at hs
        obtain ⟨rfl, rfl⟩ := hs
        have := parseObjectLoop_step fuel acc key v t ⟨TokenComma, [44]⟩ _ (c0 :: ts0) res h2
          (fun res2 h3 => (parse_complete fuel).1 v t _ _ _ res2 (by rw [h1]; rfl) (by simp)
            hp.1 h3) h
        simp only [reduceCtorEq, if_false] at this
        rw [parser.expect_cons _ _ _ TokenComma rfl (by simp) h0] at this
        exact ⟨fuel, this⟩
      | cons e2 rest =>
        obtain ⟨key2, rest2, hk⟩ := spellElements_head (List.cons_ne_nil e2 rest)
        rw [spellElements_cons, h1] at hs
        simp only [List.cons_append, List.cons.injEq, List.append_assoc] at hs
        obtain ⟨rfl, rfl⟩ := hs
        have := parseObjectLoop_step fuel acc key v t ⟨TokenComma, [44]⟩ _
          (spellElements (e2 :: rest) ++ ⟨TokenComma, [44]⟩ :: c0 :: ts0) res h2
          (fun res2 h3 => (parse_complete fuel).1 v t _ _ _ res2 (by rw [h1]; rfl) (by simp)
            hp.1 h3) h
        simp only [reduceCtorEq, if_false] at this
        rw [hk, List.cons_append,
          parser.expect_cons _ _ _ TokenComma rfl (by simp) (by simp)] at this
        obtain ⟨fuel1, h4⟩ := ih (List.cons_ne_nil e2 rest) hp.2 fuel (acc ++ [(key, v)])
          ⟨TokenString, key2⟩ _ (by rw [hk]; rfl) this
        exact ⟨fuel1, by simpa using h4⟩

/-- An error in an element of an array is the error of the loop of `parseArray`. -/
theorem parseArrayLoop_fails {c0 : Token} {ts0 : List Token} {E : List Nat}
    (hf : ValueFails (c0 :: ts0) E) (fuel : Nat) (acc : List Value)
    (res : Option (List Value) × parser)
    (h : parseArrayLoop fuel acc ⟨ts0, c0, none⟩ = some res) : res.2.err = some E := by
  cases fuel with
  | zero => simp [parseArrayLoop] at h
  | succ fuel =>
    unfold parseArrayLoop at h
    cases hv : parseValue fuel ⟨ts0, c0, none⟩ with
    | none => simp [hv] at h
    | some rv =>
      obtain ⟨v, p2⟩ := rv
      have h2 := hf fuel c0 ts0 _ rfl hv
      simp only at h2
      simp only [hv] at h
      cases v with
      | none => simp only at h; cases h; exact h2
      | some v =>
        simp only at h
        split_ifs at h with hc
        · cases h; exact parser.next_sticky h2
        · exact (parse_sticky E fuel).2.2.2.2 _ _ _ (parser.expect_sticky h2 _) h

/-- An error in the first element of an array is the error of the array. -/
theorem ValueFails.first_value {c0 : Token} {ts0 : List Token} {E : List Nat}
    (hf : ValueFails (c0 :: ts0) E) (h0 : c0.Typ ≠ TokenIllegal) (h1 : c0.Typ ≠ TokenRbrack) :
    ValueFails (⟨TokenLbrack, [91]⟩ :: c0 :: ts0) E := by
  intro fuel c ts res hR h
  cases hR
  cases fuel with
  | zero => simp [parseValue] at h
  | succ fuel =>
    unfold parseValue at h
    simp only [ne_eq, not_true_eq_false, if_false] at h
    cases ha : parseArray fuel ⟨c0 :: ts0, ⟨TokenLbrack, [91]⟩, none⟩ with
    | none => simp [ha] at h
    | some ra =>
      rw [ha] at h
      cases h
      cases fuel with
      | zero => simp [parseArray] at ha
      | succ fuel =>
        unfold parseArray at ha
        simp only [ne_eq, not_true_eq_false, if_false] at ha
        rw [parser.expect_cons _ _ _ TokenLbrack rfl (by simp) h0] at ha
        simp only [h1, not_false_eq_true, if_true] at ha
        exact parseArrayLoop_fails hf fuel [] ra ha

/-- An error in a later element of an array, after complete and proper values, is the
error of the array. -/
theorem ValueFails.later_value {c0 : Token} {ts0 : List Token} {E : List Nat}
    (hf : ValueFails (c0 :: ts0) E) (h0 : c0.Typ ≠ TokenIllegal) (vs : List Value)
    (hne : vs ≠ []) (hp : valuesProper vs = true) :
    ValueFails (⟨TokenLbrack, [91]⟩ :: (spellValues vs ++ ⟨TokenComma, [44]⟩ :: c0 :: ts0)) E := by
  intro fuel c ts res hR h
  cases hR
  obtain ⟨t, rest, hk, ht, ht2⟩ := spellValues_head hne hp
  cases fuel with
  | zero => simp [parseValue] at h
  | succ fuel =>
    unfold parseValue at h
    simp only [ne_eq, not_true_eq_false, if_false] at h
    cases ha : parseArray fuel
        ⟨spellValues vs ++ ⟨TokenComma, [44]⟩ :: c0 :: ts0, ⟨TokenLbrack, [91]⟩, none⟩ with
    | none => simp [ha] at h
    | some ra =>
      rw [ha] at h
      cases h
      cases fuel with
      | zero => simp [parseArray] at ha
      | succ fuel =>
        unfold parseArray at ha
        simp only [ne_eq, not_true_eq_false, if_false] at ha
        rw [hk, List.cons_append, parser.expect_cons _ _ _ TokenLbrack rfl (by simp) ht] at ha
        simp only [ht2, not_false_eq_true, if_true] at ha
        obtain ⟨fuel1, h4⟩ := parseArrayLoop_segment c0 ts0 h0 ra vs hne hp fuel [] t _
          (by rw [hk]; rfl) ha
        exact parseArrayLoop_fails hf fuel1 _ ra h4

/-- An error at the first key of an object is the error of the object. -/
theorem KeyFails.first_key {c0 : Token} {ts0 : List Token} {E : List Nat}
    (hf : KeyFails (c0 :: ts0) E) (h0 : c0.Typ ≠ TokenIllegal) (h1 : c0.Typ ≠ TokenRbrace) :
    ValueFails (⟨TokenLbrace, [123]⟩ :: c0 :: ts0) E := by
  intro fuel c ts res hR h
  cases hR
  cases fuel with
  | zero => simp [parseValue] at h
  | succ fuel =>
    unfold parseValue at h
    simp only [ne_eq, not_true_eq_false, if_false] at h
    cases ho : parseObject fuel ⟨c0 :: ts0, ⟨TokenLbrace, [123]⟩, none⟩ with
    | none => simp [ho] at h
    | some ro =>
      rw [ho] at h
      cases h
      cases fuel with
      | zero => simp [parseObject] at ho
      | succ fuel =>
        unfold parseObject at ho
        simp only [ne_eq, not_true_eq_false, if_false] at ho
        rw [parser.expect_cons _ _ _ TokenLbrace rfl (by simp) h0] at ho
        simp only [h1, not_false_eq_true, if_true] at ho
        exact hf fuel [] c0 ts0 ro rfl ho

/-- An error at a later key of an object, after complete and proper members, is the error
of the object. -/
theorem KeyFails.later_key {c0 : Token} {ts0 : List Token} {E : List Nat}
    (hf : KeyFails (c0 :: ts0) E) (h0 : c0.Typ ≠ TokenIllegal)
    (els : List (List Nat × Value)) (hne : els ≠ []) (hp : elementsProper els = true) :
    ValueFails
      (⟨TokenLbrace, [123]⟩ :: (spellElements els ++ ⟨TokenComma, [44]⟩ :: c0 :: ts0)) E := by
  intro fuel c ts res hR h
  cases hR
  obtain ⟨key, rest, hk⟩ := spellElements_head hne
  cases fuel with
  | zero => simp [parseValue] at h
  | succ fuel =>
    unfold parseValue at h
    simp only [ne_eq, not_true_eq_false, if_false] at h
    cases ho : parseObject fuel
        ⟨spellElements els ++ ⟨TokenComma, [44]⟩ :: c0 :: ts0, ⟨TokenLbrace, [123]⟩, none⟩ with
    | none => simp [ho] at h
    | some ro =>
      rw [ho] at h
      cases h
      cases fuel with
      | zero => simp [parseObject] at ho
      | succ fuel =>
        unfold parseObject at ho
        simp only [ne_eq, not_true_eq_false, if_false] at ho
        rw [hk, List.cons_append,
          parser.expect_cons _ _ _ TokenLbrace rfl (by simp) (by simp)] at ho
        simp only [reduceCtorEq, not_false_eq_true, if_true] at ho
        obtain ⟨fuel1, h4⟩ := parseObjectLoop_segment c0 ts0 h0 ro els hne hp fuel []
          ⟨TokenString, key⟩ _ (by rw [hk]; rfl) ho
        exact hf fuel1 _ c0 ts0 ro rfl h4

/-- An error in the value of a member is the error of the loop of `parseObject`. -/
theorem ValueFails.member {c0 : Token} {ts0 : List Token} {E : List Nat}
    (hf : ValueFails (c0 :: ts0) E) (h0 : c0.Typ ≠ TokenIllegal) (key : List Nat) :
    KeyFails (⟨TokenString, key⟩ :: ⟨TokenColon, [58]⟩ :: c0 :: ts0) E := by
  intro fuel acc c ts res hR h
  cases hR
  cases fuel with
  | zero => simp [parseObjectLoop] at h
  | succ fuel =>
    unfold parseObjectLoop at h
    rw [parser.parseLiteral_cons _ _ _ (by simp)] at h
    simp only [if_true] at h
    rw [parser.expect_cons c0 _ ts0 TokenColon rfl (by simp) h0] at h
    cases hv : parseValue fuel ⟨ts0, c0, none⟩ with
    | none => simp [hv] at h
    | some rv =>
      obtain ⟨v, p2⟩ := rv
      have h2 := hf fuel c0 ts0 _ rfl hv
      simp only at h2
      simp only [hv] at h
      cases v with
      | none => simp only at h; cases h; exact h2
      | some v =>
        simp only at h
        split_ifs at h with hc
        · cases h; exact parser.next_sticky h2
        · exact (parse_sticky E fuel).2.2.1 _ _ _ (parser.expect_sticky h2 _) h

/-- A token in key position that is not a String, before a token that is not `Illegal`:
the loop of `parseObject` records that a string key was expected. -/
theorem KeyFails.key (k nxt : Token) (rest : List Token) (hk : k.Typ ≠ TokenString)
    (hn : nxt.Typ ≠ TokenIllegal) :
    KeyFails (k :: nxt :: rest) (str "expected string key but found " ++ k.Value) := by
  intro fuel acc c ts res hR h
  cases hR
  cases fuel with
  | zero => simp [parseObjectLoop] at h
  | succ fuel =>
    unfold parseObjectLoop at h
    rw [parser.parseLiteral_cons _ _ _ hn] at h
    simp only [if_neg hk, Option.some.injEq] at h
    rw [← h]
    rfl

/-- An error at a place where a value is expected is the error of the whole document. -/
theorem ValuePos.value_fails {ctx : List Token} (hpos : ValuePos ctx) :
    ∀ (c : Token) (ts : List Token) (E : List Nat), c.Typ ≠ TokenIllegal →
      c.Typ ≠ TokenRbrack → ValueFails (c :: ts) E → ValueFails (ctx ++ c :: ts) E := by
  induction hpos with
  | top => intro c ts E _ _ hf; exact hf
  | first ctx _ ih =>
    intro c ts E h0 h1 hf
    rw [List.append_assoc]
    exact ih _ _ E (by simp) (by simp) (hf.first_value h0 h1)
  | later ctx vs _ hne hp ih =>
    intro c ts E h0 h1 hf
    have := ih _ _ E (by simp) (by simp) (hf.later_value h0 vs hne hp)
    simpa using this
  | memberFirst ctx key _ ih =>
    intro c ts E h0 h1 hf
    have := ih _ _ E (by simp) (by simp) ((hf.member h0 key).first_key (by simp) (by simp))
    simpa using this
  | memberLater ctx els key _ hne hp ih =>
    intro c ts E h0 h1 hf
    have := ih _ _ E (by simp) (by simp) ((hf.member h0 key).later_key (by simp) els hne hp)
    simpa using this

/-- An error at a key position is the error of the whole document. -/
theorem KeyPos.key_fails {ctx : List Token} (hpos : KeyPos ctx) (c : Token) (ts : List Token)
    (E : List Nat) (h0 : c.Typ ≠ TokenIllegal) (h1 : c.Typ ≠ TokenRbrace)
    (hf : KeyFails (c :: ts) E) : ValueFails (ctx ++ c :: ts) E := by
  obtain ⟨ctx0, hv, rfl | ⟨els, hne, hp, rfl⟩⟩ := hpos
  · have := hv.value_fails _ _ E (by simp) (by simp) (hf.first_key h0 h1)
    simpa using this
  · have := hv.value_fails _ _ E (by simp) (by simp) (hf.later_key h0 els hne hp)
    simpa using this

/-- The error of the top-level value is the error that `Parse` returns. -/
theorem Parse_fails {input : List Nat} {c : Token} {ts : List Token} {E : List Nat}
    (h : Lex input = some (c :: ts)) (h0 : c.Typ ≠ TokenIllegal)
    (hf : ValueFails (c :: ts) E) : Parse input = some (none, some E) := by
  obtain ⟨r, p, h3, _, _⟩ := parseTokens_spec _ (Lex_canonical h)
  rw [Parse_eq h, h3]
  unfold parseTokens parser.parse at h3
  dsimp only at h3
  rw [parser.next_token c _ ts h0] at h3
  simp only [ne_eq, not_true_eq_false, if_false] at h3
  cases hv : parseValue (3 * (c :: ts).length + 3) ⟨ts, c, none⟩ with
  | none =>
    rw [hv] at h3
    cases h3
  | some rv =>
    obtain ⟨v, p2⟩ := rv
    have h2 : p2.err = some E := hf _ c ts _ rfl hv
    rw [hv] at h3
    simp only [h2, reduceCtorEq, not_false_eq_true, if_true, Option.some.injEq,
      Prod.mk.injEq] at h3
    obtain ⟨h4, _⟩ := h3
    rw [← h4]
    rfl

/-- The first of two or more tokens of an input is not `Illegal`. -/
theorem Lex_head {input : List Nat} {c t : Token} {ts : List Token}
    (h : Lex input = some (c :: t :: ts)) : c.Typ ≠ TokenIllegal := by
  obtain ⟨T, h1, h2⟩ := Lex_trace input
  rw [h] at h1
  cases h1
  obtain ⟨init, last, s1, s2, _⟩ := h2.shape
  cases init with
  | nil => simp at s1
  | cons c1 init =>
    simp only [List.cons_append, List.cons.injEq] at s1
    rw [s1.1]
    exact (s2 c1 (List.mem_cons_self _ _)).1

/-! ## The claims -/

/-- C1 (the code departs from the claim): `Parse` succeeds on the three bytes `[[]` and returns
the array holding one empty array, although the tokens of that input are `[`, `[`, `]`, `Eof`
and the spelling of the returned tree is `[`, `[`, `]`, `]`: `parseArray` leaves the `]` of an
empty array unread, so the enclosing array takes it as its own. -/
theorem C1_unclosed_array_is_accepted :
    Parse (str "[[]") = some (some ⟨some (Value.Array [Value.Array []])⟩, none) ∧
    Lex (str "[[]") = some [⟨TokenLbrack, [91]⟩, ⟨TokenLbrack, [91]⟩, ⟨TokenRbrack, [93]⟩,
      ⟨TokenEof, []⟩] ∧
    (Value.Array [Value.Array []]).spell = [⟨TokenLbrack, [91]⟩, ⟨TokenLbrack, [91]⟩,
      ⟨TokenRbrack, [93]⟩, ⟨TokenRbrack, [93]⟩] :=
  ⟨by rfl, by decide, by decide⟩

/-- C2 (the code departs from the claim): on the tokens that spell the empty array, followed by
`Eof`, the parser returns no document but the error `expected TokenEof but found TokenRbrack`;
the empty object fails the same way with `TokenRbrace`. -/
theorem C2_empty_array_is_rejected :
    (parseTokens ((Value.Array []).spell ++ [⟨TokenEof, []⟩])).map Prod.fst =
      some (none, some (str "expected TokenEof but found TokenRbrack")) ∧
    (parseTokens ((Value.Object []).spell ++ [⟨TokenEof, []⟩])).map Prod.fst =
      some (none, some (str "expected TokenEof but found TokenRbrace")) :=
  ⟨by rfl, by rfl⟩

/-- C3: on every input `Lex` returns, and what it sends is a run of data tokens followed by
exactly one terminal token, `Eof` or `Illegal`, which is the last one. -/
theorem C3_Lex_data_tokens_then_one_terminal (input : List Nat) :
    ∃ init last, Lex input = some (init ++ [last]) ∧
      (∀ t ∈ init, t.Typ ≠ TokenIllegal ∧ t.Typ ≠ TokenEof) ∧
      (last.Typ = TokenEof ∨ last.Typ = TokenIllegal) := by
  obtain ⟨toks, h1, h2⟩ := Lex_trace input
  obtain ⟨init, last, h3, h4, h5⟩ := h2.shape
  exact ⟨init, last, by rw [h1, h3], h4, h5⟩

/-- C4 as stated fails: the tokens of the two bytes `0x00 'x'` are the single token `Eof` with
text `0x00`, and the input is not that text with white space before it. -/
theorem C4_counterexample_zero_byte :
    Lex [0, 120] = some [⟨TokenEof, [0]⟩] ∧ ¬ Reconstructs [0, 120] [⟨TokenEof, [0]⟩] := by
  refine ⟨by decide, ?_⟩
  rintro ⟨wss, hlen, _, heq⟩
  match wss, hlen with
  | [w], _ =>
    have := congrArg List.reverse heq
    simp at this

/-- C4, amended: for every input without a zero byte whose token sequence ends in `Eof`, the
input is the concatenation, in order, of the texts of the tokens with a run of white space
before each. -/
theorem C4_Lex_reconstructs_input (input : List Nat) (toks : List Token)
    (hz : ∀ b ∈ input, b ≠ 0) (h : Lex input = some toks)
    (hlast : ∃ v, toks.getLast? = some ⟨TokenEof, v⟩) : Reconstructs input toks := by
  obtain ⟨toks1, h1, h2⟩ := Lex_trace input
  rw [h] at h1
  cases h1
  exact h2.reconstructs hz hlast

/-- C4 at an input with white space before, between and inside the brackets. -/
theorem C4_Lex_reconstructs_input_witness :
    Reconstructs (str " [1 ,\n true]")
      [⟨TokenLbrack, [91]⟩, ⟨TokenNumber, [49]⟩, ⟨TokenComma, [44]⟩, ⟨TokenTrue, str "true"⟩,
        ⟨TokenRbrack, [93]⟩, ⟨TokenEof, []⟩] :=
  C4_Lex_reconstructs_input (str " [1 ,\n true]") _ (by decide) (by decide) ⟨[], by decide⟩

/-- C5 as stated fails: `Parse` succeeds on `1`, space, `0x00`, `x` and returns the number `1`,
although the tokens of that input do not account for its last byte. -/
theorem C5_counterexample_zero_byte :
    Parse [49, 32, 0, 120] = some (some ⟨some (Value.Literal [49] TokenNumber)⟩, none) ∧
    Lex [49, 32, 0, 120] = some [⟨TokenNumber, [49]⟩, ⟨TokenEof, [0]⟩] ∧
    ¬ Reconstructs [49, 32, 0, 120] [⟨TokenNumber, [49]⟩, ⟨TokenEof, [0]⟩] := by
  refine ⟨by rfl, by decide, ?_⟩
  rintro ⟨wss, hlen, _, heq⟩
  match wss, hlen with
  | [w1, w2], _ =>
    have := congrArg List.reverse heq
    simp at this

/-- C5, amended: whenever `Parse` succeeds on an input without a zero byte, the whole input
was consumed: the token sequence ends in an `Eof` token with empty text, the input is the
concatenation of the texts of the tokens with white space before each, the parser has received
every token, and, when no array and no object of the returned tree is empty, the tokens before
`Eof` are exactly the spelling of the tree. -/
theorem C5_Parse_consumes_whole_input (input : List Nat) (doc : Json)
    (hz : ∀ b ∈ input, b ≠ 0) (h : Parse input = some (some doc, none)) :
    ∃ toks v p, Lex input = some (toks ++ [⟨TokenEof, []⟩]) ∧
      Reconstructs input (toks ++ [⟨TokenEof, []⟩]) ∧
      parseTokens (toks ++ [⟨TokenEof, []⟩]) = some ((some doc, none), p) ∧
      p.tokens = [] ∧ p.cur = ⟨TokenEof, []⟩ ∧
      doc = ⟨some v⟩ ∧ v.noNil = true ∧ (v.noEmpty = true → toks = v.spell) := by
  obtain ⟨T, h1, h2⟩ := Lex_trace input
  obtain ⟨r, p, h3, h4, h5⟩ := parseTokens_spec T (Lex_canonical h1)
  rw [Parse_eq h1, h3] at h
  simp only [Option.map_some', Option.some.injEq] at h
  subst h
  rcases h5 with ⟨msg, h5⟩ | ⟨v, read, e1, e2, e3, e4, e5, e6⟩
  · cases h5
  · cases e1
    obtain ⟨init, last, s1, s2, s3⟩ := h2.shape
    have hx : p.cur ∉ init := fun hm => (s2 _ hm).2 e3
    obtain ⟨k1, k2, k3⟩ := List.last_of_append_eq (e5.symm.trans s1) hx
    have hval : p.cur.Value = [] :=
      h2.eof_text hz p.cur (by rw [e5]; simp) e3
    have hcur : p.cur = ⟨TokenEof, []⟩ := by
      rw [← e3, ← hval]
    have hT : T = read ++ [⟨TokenEof, []⟩] := by rw [e5, k1, hcur]
    refine ⟨read, v, p, by rw [h1, hT], ?_, by rw [← hT]; exact h3, k1, hcur, rfl, e4, e6⟩
    rw [← hT]
    exact h2.reconstructs hz ⟨[], by rw [hT]; simp⟩

/-- C5 at the input `[1, 2]`. -/
theorem C5_Parse_consumes_whole_input_witness :
    ∃ toks v p, Lex (str "[1, 2]") = some (toks ++ [⟨TokenEof, []⟩]) ∧
      Reconstructs (str "[1, 2]") (toks ++ [⟨TokenEof, []⟩]) ∧
      parseTokens (toks ++ [⟨TokenEof, []⟩]) = some ((some ⟨some (Value.Array
        [Value.Literal [49] TokenNumber, Value.Literal [50] TokenNumber])⟩, none), p) ∧
      p.tokens = [] ∧ p.cur = ⟨TokenEof, []⟩ ∧
      (⟨some (Value.Array [Value.Literal [49] TokenNumber, Value.Literal [50] TokenNumber])⟩ :
        Json) = ⟨some v⟩ ∧ v.noNil = true ∧ (v.noEmpty = true → toks = v.spell) :=
  C5_Parse_consumes_whole_input (str "[1, 2]") _ (by decide) (by rfl)

/-- C6 (the code departs from the claim): on the two bytes `1.` the tokenizer sends a `Number`
token whose text is `1.`, which is not a text of the number grammar (no digit follows the
point); `1e+` is sent the same way (no digit follows the sign of the exponent). -/
theorem C6_number_token_outside_grammar :
    Lex (str "1.") = some [⟨TokenNumber, str "1."⟩, ⟨TokenEof, []⟩] ∧
    ¬ IsNumberText (str "1.") ∧
    Lex (str "1e+") = some [⟨TokenNumber, str "1e+"⟩, ⟨TokenEof, []⟩] ∧
    ¬ IsNumberText (str "1e+") :=
  ⟨by decide, fun h => absurd ((isNumberLexeme_iff _).mpr h) (by decide), by decide,
    fun h => absurd ((isNumberLexeme_iff _).mpr h) (by decide)⟩

/-- C7: for every text `n` of the grammar `'-'? digit+ ('.' digit+)? (('e'|'E') ('+'|'-')?
digit+)?`, `Lex` applied to `n` alone sends exactly two tokens: a `Number` token whose text is
`n`, then an `Eof` token with empty text. -/
theorem C7_Lex_of_number_text (n : List Nat) (h : IsNumberText n) :
    Lex n = some [⟨TokenNumber, n⟩, ⟨TokenEof, []⟩] :=
  Lex_number n ((isNumberLexeme_iff n).mpr h)

/-- C7 at the text `-12.5E+30`, split into sign, digits, fraction and exponent. -/
theorem C7_Lex_of_number_text_witness :
    Lex (str "-12.5E+30") = some [⟨TokenNumber, str "-12.5E+30"⟩, ⟨TokenEof, []⟩] :=
  C7_Lex_of_number_text (str "-12.5E+30")
    ⟨[45], str "12", str ".5", str "E+30", by decide, Or.inr rfl, by decide, by decide,
      Or.inr ⟨str "5", by decide, by decide, by decide⟩,
      Or.inr ⟨69, [43], str "30", by decide, Or.inr rfl, Or.inr (Or.inl rfl), by decide,
        by decide⟩⟩

/-- C8: every `String` token that `Lex` sends has a text of the form quote, items, quote,
each item being a byte other than the quote and the backslash, or a backslash and one of
`" \ b f n r t`, or a backslash, `u` and four hex digits; and the text is a substring of the
input, nothing in it being decoded. -/
theorem C8_string_token_text (input : List Nat) (toks : List Token) (t : Token)
    (h : Lex input = some toks) (ht : t ∈ toks) (hs : t.Typ = TokenString) :
    IsStringText t.Value ∧ t.Value <:+: input := by
  obtain ⟨toks1, h1, h2⟩ := Lex_trace input
  rw [h] at h1
  cases h1
  obtain ⟨h3, h4⟩ := h2.string t ht hs
  exact ⟨isStringLexeme_text _ h3, h4⟩

/-- C8 at the string token of an input that holds both kinds of escape. -/
theorem C8_string_token_text_witness :
    IsStringText (str "\"a\\n\\u00f8\"") ∧
      str "\"a\\n\\u00f8\"" <:+: str "[\"a\\n\\u00f8\"]" :=
  C8_string_token_text (str "[\"a\\n\\u00f8\"]")
    [⟨TokenLbrack, [91]⟩, ⟨TokenString, str "\"a\\n\\u00f8\""⟩, ⟨TokenRbrack, [93]⟩,
      ⟨TokenEof, []⟩]
    ⟨TokenString, str "\"a\\n\\u00f8\""⟩ (by decide) (by decide) rfl

/-- C9 (the code departs from the claim): on a string literal cut off right after a backslash
the terminal token is `Illegal` with the message `unexpected escape character` followed by
a zero byte, not `unterminated string literal` followed by the text from the opening quote. -/
theorem C9_backslash_at_end_of_input :
    Lex (str "\"ab\\") =
      some [⟨TokenIllegal, str "unexpected escape character " ++ [0]⟩] ∧
    Lex (str "\"ab") = some [⟨TokenIllegal, str "unterminated string literal \"ab"⟩] ∧
    Lex (str "\"ab\\u00") =
      some [⟨TokenIllegal, str "unterminated string literal \"ab\\u00"⟩] := by
  decide

/-- C10: for every input whose token sequence ends in an `Illegal` token, `Parse` returns an
error and no document. -/
theorem C10_Parse_fails_on_Illegal (input : List Nat) (toks : List Token)
    (h : Lex input = some toks) (hlast : ∃ m, toks.getLast? = some ⟨TokenIllegal, m⟩) :
    ∃ msg, Parse input = some (none, some msg) := by
  obtain ⟨T, h1, h2⟩ := Lex_trace input
  rw [h] at h1
  cases h1
  obtain ⟨r, p, h3, h4, h5⟩ := parseTokens_spec toks (Lex_canonical h)
  rw [Parse_eq h, h3]
  rcases h5 with ⟨msg, h5⟩ | ⟨v, read, e1, e2, e3, e4, e5, e6⟩
  · exact ⟨msg, by rw [h5]; rfl⟩
  · exfalso
    obtain ⟨init, last, s1, s2, s3⟩ := h2.shape
    obtain ⟨m, hm⟩ := hlast
    have hl : last = ⟨TokenIllegal, m⟩ := by
      rw [s1] at hm
      simpa using hm
    rcases h4 p.cur (List.mem_cons_self _ _) with hz | hmem
    · rw [hz] at e3
      cases e3
    · rw [s1] at hmem
      rcases List.mem_append.mp hmem with hi | hi
      · exact (s2 _ hi).2 e3
      · simp only [List.mem_singleton] at hi
        rw [hi, hl] at e3
        cases e3

/-- C10 at the input `[1, @]`, whose last token is `Illegal`. -/
theorem C10_Parse_fails_on_Illegal_witness :
    ∃ msg, Parse (str "[1, @]") = some (none, some msg) :=
  C10_Parse_fails_on_Illegal (str "[1, @]")
    [⟨TokenLbrack, [91]⟩, ⟨TokenNumber, [49]⟩, ⟨TokenComma, [44]⟩,
      ⟨TokenIllegal, str "unexpected character @"⟩]
    (by decide) ⟨str "unexpected character @", by decide⟩

/-- C11 (counterexample): the tokens of `[1 2 @` end in the `Illegal` token with the message
`unexpected character @`, and `Parse` returns the error
`expected TokenComma but found TokenNumber`. -/
theorem C11_counterexample_grammar_error_first :
    Lex (str "[1 2 @") = some [⟨TokenLbrack, [91]⟩, ⟨TokenNumber, [49]⟩, ⟨TokenNumber, [50]⟩,
      ⟨TokenIllegal, str "unexpected character @"⟩] ∧
    Parse (str "[1 2 @") =
      some (none, some (str "expected TokenComma but found TokenNumber")) := by
  have h : Lex (str "[1 2 @") = some [⟨TokenLbrack, [91]⟩, ⟨TokenNumber, [49]⟩,
      ⟨TokenNumber, [50]⟩, ⟨TokenIllegal, str "unexpected character @"⟩] := by decide
  refine ⟨h, ?_⟩
  rw [Parse_eq h]
  rfl

/-- C11 (amended): for every input whose token sequence ends in an `Illegal` token, `Parse`
returns no document and an error whose text is that token's message or a grammar error
about one of the tokens before it. -/
theorem C11_Parse_error_on_Illegal (input : List Nat) (pre : List Token) (m : List Nat)
    (h : Lex input = some (pre ++ [⟨TokenIllegal, m⟩])) :
    ∃ msg, Parse input = some (none, some msg) ∧ (msg = m ∨ GrammarError pre msg) := by
  obtain ⟨r, p, h3, h4, h5⟩ := parseTokens_spec _ (Lex_canonical h)
  rw [Parse_eq h, h3]
  have hne : ∀ t ∈ pre, t.Typ ≠ TokenIllegal ∧ t.Typ ≠ TokenEof := by
    obtain ⟨T, h1, h2⟩ := Lex_trace input
    rw [h] at h1
    cases h1
    obtain ⟨init, last, s1, s2, _⟩ := h2.shape
    have := List.append_inj_left' s1 rfl
    rw [this]
    exact s2
  rcases h5 with ⟨msg, h5⟩ | ⟨v, read, e1, e2, e3, e4, e5, e6⟩
  · refine ⟨msg, by rw [h5]; rfl, ?_⟩
    rcases parseTokens_error h h3 (by rw [h5]) with ⟨t, ht, hill, g⟩ | ⟨_, ⟨_, g⟩ | ⟨init, g⟩⟩
    · rcases List.mem_append.mp ht with hi | hi
      · exact Or.inr ⟨t, hi, hill, g⟩
      · simp only [List.mem_singleton] at hi
        rw [hi] at hill
        exact absurd rfl hill
    · exact absurd rfl (g ⟨TokenIllegal, m⟩ (by simp))
    · have := List.append_inj_right' g rfl
      simp only [List.cons.injEq, Token.mk.injEq, true_and, and_true] at this
      exact Or.inl this.symm
  · exfalso
    rcases h4 p.cur (List.mem_cons_self _ _) with hz | hmem
    · rw [hz] at e3
      cases e3
    · rcases List.mem_append.mp hmem with hi | hi
      · exact (hne _ hi).2 e3
      · simp only [List.mem_singleton] at hi
        rw [hi] at e3
        cases e3

/-- C11 (amended) at the input `[1, @]`: the error is the message of the `Illegal` token. -/
theorem C11_Parse_error_on_Illegal_witness :
    ∃ msg, Parse (str "[1, @]") = some (none, some msg) ∧
      (msg = str "unexpected character @" ∨
        GrammarError [⟨TokenLbrack, [91]⟩, ⟨TokenNumber, [49]⟩, ⟨TokenComma, [44]⟩] msg) :=
  C11_Parse_error_on_Illegal (str "[1, @]")
    [⟨TokenLbrack, [91]⟩, ⟨TokenNumber, [49]⟩, ⟨TokenComma, [44]⟩]
    (str "unexpected character @") (by decide)

/-- C12: `Parse` returns, on every input, either an error and no document, or a document and
no error; a document it returns holds a tree in which no `Value` is nil, at any depth. -/
theorem C12_Parse_error_or_document (input : List Nat) :
    (∃ msg, Parse input = some (none, some msg)) ∨
    (∃ v, Parse input = some (some ⟨some v⟩, none) ∧ v.noNil = true) := by
  obtain ⟨toks, h1, _⟩ := Lex_trace input
  obtain ⟨r, p, h3, _, h5⟩ := parseTokens_spec toks (Lex_canonical h1)
  rw [Parse_eq h1, h3]
  rcases h5 with ⟨msg, h5⟩ | ⟨v, read, e1, _, _, e4, _, _⟩
  · exact Or.inl ⟨msg, by rw [h5]; rfl⟩
  · exact Or.inr ⟨v, by rw [e1]; rfl, e4⟩

/-- C13 (counterexample): in `1@` after an opening brace the Number token `1` stands in key
position, right after the brace, and nothing before it is a defect; `Parse` returns the
error `unexpected character @` of the `Illegal` token that follows the key. -/
theorem C13_counterexample_key_before_Illegal :
    Lex (str "\x7b1@") = some [⟨TokenLbrace, [123]⟩, ⟨TokenNumber, [49]⟩,
      ⟨TokenIllegal, str "unexpected character @"⟩] ∧
    KeyPos [⟨TokenLbrace, [123]⟩] ∧
    Parse (str "\x7b1@") = some (none, some (str "unexpected character @")) := by
  have h : Lex (str "\x7b1@") = some [⟨TokenLbrace, [123]⟩, ⟨TokenNumber, [49]⟩,
      ⟨TokenIllegal, str "unexpected character @"⟩] := by decide
  refine ⟨h, ⟨[], ValuePos.top, Or.inl rfl⟩, ?_⟩
  rw [Parse_eq h]
  rfl

/-- C13 (amended): when the token in key position of an object (right after the opening
brace, or right after the comma that follows the members so far) is a Number, True, False
or Null token, the token after it is not `Illegal`, and the tokens before it hold no defect
and no empty object or array, `Parse` fails with the error `expected string key but found `
followed by the raw text of that token. -/
theorem C13_non_string_key (input : List Nat) (ctx : List Token) (k nxt : Token)
    (rest : List Token) (h : Lex input = some (ctx ++ k :: nxt :: rest)) (hpos : KeyPos ctx)
    (hk : k.Typ = TokenNumber ∨ k.Typ = TokenTrue ∨ k.Typ = TokenFalse ∨ k.Typ = TokenNull)
    (hn : nxt.Typ ≠ TokenIllegal) :
    Parse input = some (none, some (str "expected string key but found " ++ k.Value)) := by
  have hk1 : k.Typ ≠ TokenIllegal ∧ k.Typ ≠ TokenRbrace ∧ k.Typ ≠ TokenString := by
    rcases hk with hk | hk | hk | hk <;> simp [hk]
  have hf := hpos.key_fails k (nxt :: rest) _ hk1.1 hk1.2.1 (KeyFails.key k nxt rest hk1.2.2 hn)
  cases ctx with
  | nil => exact Parse_fails h hk1.1 hf
  | cons c ctx =>
    cases ctx with
    | nil => exact Parse_fails h (Lex_head h) hf
    | cons c2 ctx => exact Parse_fails h (Lex_head h) hf

/-- C13 (amended) at an array that holds an object whose second member has the Number `2`
as its key. -/
theorem C13_non_string_key_witness :
    Parse (str "[\x7b\"a\": 1, 2: 3\x7d]") =
      some (none, some (str "expected string key but found 2")) :=
  C13_non_string_key (str "[\x7b\"a\": 1, 2: 3\x7d]")
    [⟨TokenLbrack, [91]⟩, ⟨TokenLbrace, [123]⟩, ⟨TokenString, str "\"a\""⟩,
      ⟨TokenColon, [58]⟩, ⟨TokenNumber, [49]⟩, ⟨TokenComma, [44]⟩]
    ⟨TokenNumber, [50]⟩ ⟨TokenColon, [58]⟩
    [⟨TokenNumber, [51]⟩, ⟨TokenRbrace, [125]⟩, ⟨TokenRbrack, [93]⟩, ⟨TokenEof, []⟩]
    (by decide)
    ⟨[⟨TokenLbrack, [91]⟩], ValuePos.first [] ValuePos.top,
      Or.inr ⟨[(str "\"a\"", Value.Literal [49] TokenNumber)], List.cons_ne_nil _ _,
        by decide, by decide⟩⟩
    (Or.inl rfl) (by decide)

/-- C14 (the code departs from the claim): the tokens of `[]1` are the spelling of the empty
array followed by the `Number` token `1`, and the error of `Parse` names `TokenRbrack`, the
unread closer of the empty array, where the claim names the kind `TokenNumber` of the token
that follows the value. -/
theorem C14_trailing_token_after_empty_array :
    Lex (str "[]1") = some ((Value.Array []).spell ++ [⟨TokenNumber, [49]⟩, ⟨TokenEof, []⟩]) ∧
    Parse (str "[]1") = some (none, some (str "expected TokenEof but found TokenRbrack")) :=
  ⟨by decide, by rfl⟩

/-- C15 (the code departs from the claim): in `[[] 1]` the complete value `[]` is followed,
inside the outer array, by the `Number` token `1`, which is neither a comma nor the closer;
the error of `Parse` is `expected TokenEof but found TokenNumber`, where the claim says
`expected TokenComma but found TokenNumber`. -/
theorem C15_missing_comma_after_empty_array :
    Lex (str "[[] 1]") = some ([⟨TokenLbrack, [91]⟩] ++ (Value.Array []).spell ++
      [⟨TokenNumber, [49]⟩, ⟨TokenRbrack, [93]⟩, ⟨TokenEof, []⟩]) ∧
    Parse (str "[[] 1]") = some (none, some (str "expected TokenEof but found TokenNumber")) :=
  ⟨by decide, by rfl⟩

/-- C16 (the code departs from the claim): on the single byte of an opening brace `Parse`
returns an error whose message is the empty string, and so it does when the input ends after
the comma of an object. -/
theorem C16_empty_error_message :
    Parse [123] = some (none, some []) ∧
    Parse (str "\x7b\"a\":1,") = some (none, some []) :=
  ⟨by rfl, by rfl⟩

/-- C17 (counterexample): on the input `[1 2]` the parser returns the error
`expected TokenComma but found TokenNumber` while the `Eof` token is still to be received. -/
theorem C17_counterexample_token_left :
    Lex (str "[1 2]") = some [⟨TokenLbrack, [91]⟩, ⟨TokenNumber, [49]⟩, ⟨TokenNumber, [50]⟩,
      ⟨TokenRbrack, [93]⟩, ⟨TokenEof, []⟩] ∧
    (parseTokens [⟨TokenLbrack, [91]⟩, ⟨TokenNumber, [49]⟩, ⟨TokenNumber, [50]⟩,
      ⟨TokenRbrack, [93]⟩, ⟨TokenEof, []⟩]).map (fun r => (r.1.2, r.2.tokens)) =
      some (some (str "expected TokenComma but found TokenNumber"), [⟨TokenEof, []⟩]) :=
  ⟨by decide, by decide⟩

/-- C17 (amended): `Parse` returns on every input, and when it returns an error that is not
a grammar error of the parser, the parser has received every token: the error is then the
message of the `Illegal` token that ends the tokens, or the empty text that the closed
channel gives. -/
theorem C17_tokens_received_unless_grammar_error (input : List Nat) :
    ∃ toks r p, Lex input = some toks ∧ parseTokens toks = some (r, p) ∧
      Parse input = some r ∧
      ∀ msg, r.2 = some msg → GrammarError toks msg ∨
        (p.tokens = [] ∧ ((msg = [] ∧ ∀ t ∈ toks, t.Typ ≠ TokenIllegal) ∨
          (∃ init, toks = init ++ [⟨TokenIllegal, msg⟩]))) := by
  obtain ⟨toks, h1, _⟩ := Lex_trace input
  obtain ⟨r, p, h3, _, _⟩ := parseTokens_spec toks (Lex_canonical h1)
  exact ⟨toks, r, p, h1, h3, by rw [Parse_eq h1, h3]; rfl, fun msg hm => parseTokens_error h1 h3 hm⟩

/-- C18: bytes of whitespace (space, tab, LF, CR) in front of an input do not change the
token sequence that Lex returns: Lex returns on both inputs, with the same tokens. -/
theorem C18_leading_whitespace_ignored (w s : List Nat)
    (hw : ∀ b ∈ w, isWhiteSpace b = true) :
    ∃ toks, Lex s = some toks ∧ Lex (w ++ s) = some toks := by
  obtain ⟨toks, h1, _⟩ := Lex_trace s
  refine ⟨toks, h1, ?_⟩
  rw [← h1]
  clear h1
  induction w with
  | nil => rfl
  | cons b w ih =>
    rw [List.cons_append, Lex_cons_white b (w ++ s) (hw b (List.mem_cons_self b w))]
    exact ih (fun c hc => hw c (List.mem_cons_of_mem b hc))

/-- C18 at the input `1]` with a space, a tab, a line feed and a carriage return in front. -/
theorem C18_leading_whitespace_ignored_witness :
    ∃ toks, Lex (str "1]") = some toks ∧ Lex ([32, 9, 10, 13] ++ str "1]") = some toks :=
  C18_leading_whitespace_ignored [32, 9, 10, 13] (str "1]") (by decide)

/-- C19: for every input without a zero byte, an `Eof` token that the tokenizer has sent has
the empty text, and the tokenizer stands at the end of the input: its position is the length
of the input. -/
theorem C19_Eof_only_at_end_of_input (input : List Nat) (l1 : lexer) (t : Token)
    (hz : ∀ b ∈ input, b ≠ 0) (h : (newLexer input).run = some l1) (ht : t ∈ l1.tokens)
    (hE : t.Typ = TokenEof) : t.Value = [] ∧ l1.pos = input.length := by
  obtain ⟨l2, toks, h1, h2, h3, h4⟩ := run_trace input
  rw [h] at h1
  cases h1
  subst h2
  have hv := h3.eof_text hz t ht hE
  refine ⟨hv, h4 ?_⟩
  have : t = ⟨TokenEof, []⟩ := by
    cases t
    simp_all
  rw [← this]
  exact ht

/-- C19 at the input `[1 ]`. -/
theorem C19_Eof_only_at_end_of_input_witness :
    (⟨TokenEof, []⟩ : Token).Value = [] ∧ (4 : Nat) = (str "[1 ]").length :=
  C19_Eof_only_at_end_of_input (str "[1 ]")
    ⟨str "[1 ]", 4, 4, [⟨TokenLbrack, [91]⟩, ⟨TokenNumber, [49]⟩, ⟨TokenRbrack, [93]⟩,
      ⟨TokenEof, []⟩]⟩
    ⟨TokenEof, []⟩ (by decide) (by decide) (by decide) rfl

/-- C20: `Lex` returns on every input and sends at most one token more than the input has
bytes; every data token has a text of at least one byte. -/
theorem C20_Lex_terminates_with_few_tokens (input : List Nat) :
    ∃ toks, Lex input = some toks ∧ toks.length ≤ input.length + 1 ∧
      (∀ t ∈ toks, t.Typ ≠ TokenIllegal → t.Typ ≠ TokenEof → t.Value ≠ []) := by
  obtain ⟨toks, h1, h2⟩ := Lex_trace input
  exact ⟨toks, h1, h2.count.1, h2.count.2⟩

end jparser
